import Mathlib

/-!
Shallow embedding of the css-anchor-positioning polyfill core
(`src/polyfill.ts` and `src/parse.ts`) in Lean 4.

Modelling conventions, used throughout:

* JS numbers are modelled as rationals (`ℚ`); `NaN` is unrepresentable, and the
  few `NaN` guards of the source (`Number.isNaN` checks, `|| 0` coalescing)
  are noted where they occur.
* CSS property names, keywords and selectors are Lean `String`s, as in the
  TypeScript source (which uses string-union types).
* A DOM element is modelled as the record of the layout/style facts the
  source reads from it: `props` stands for `getComputedStyle(el).getPropertyValue`
  results, `numProps` for `parseInt(getCSSPropertyValue(el, p), 10) || 0`
  style numeric reads, `rtl` for the `platform.isRTL(el)` result, and the
  four client/offset box sizes.
* Asynchronous functions of the source are sequential pure functions here;
  the only awaited calls are reads from the layout oracle, which are modelled
  as record fields or oracle functions.
-/

/-- a DOM element, reduced to the facts the polyfill reads from it. -/
structure Elem where
  id : ℕ
  props : List (String × String)
  numProps : List (String × ℚ)
  rtl : Bool
  clientWidth : ℚ
  clientHeight : ℚ
  offsetWidth : ℚ
  offsetHeight : ℚ
deriving DecidableEq, Repr

/-- a `@floating-ui/dom` `Rect`: the measured rect of the anchor element. -/
structure Rect where
  x : ℚ
  y : ℚ
  width : ℚ
  height : ℚ
deriving DecidableEq, Repr

/-- index a `Rect` by one of the strings `x`/`y`/`width`/`height`
(`anchorRect[axis]`, `anchorRect[dir]`, `anchorRect[size]` in the source). -/
def Rect.get (r : Rect) (k : String) : ℚ :=
  if k = "x" then r.x
  else if k = "y" then r.y
  else if k = "width" then r.width
  else if k = "height" then r.height
  else 0

/-- `getCSSPropertyValue(el, prop)` — `getComputedStyle(el).getPropertyValue(prop).trim()`;
a property absent from the computed style reads as the empty string. -/
def getCSSPropertyValue (el : Elem) (prop : String) : String :=
  (el.props.lookup prop).getD ""

/-- numeric computed-style read: `parseInt(getCSSPropertyValue(el, prop), 10)`,
with the source's `|| 0` coalescing of `NaN` folded into the model. -/
def getCSSPropertyNum (el : Elem) (prop : String) : ℚ :=
  (el.numProps.lookup prop).getD 0

/-- the environment supplied by the browser: `getOffsetParent` (which in the
source always produces an element, falling back to the document element). -/
structure Env where
  offsetParent : Elem → Elem

/-- an `anchor()` side argument: a keyword or a percentage number
(TS `type AnchorSide = AnchorSideKeyword | number`). -/
inductive AnchorSide where
  | kw (s : String)
  | num (p : ℚ)
deriving DecidableEq, Repr

/-- `resolveLogicalSideKeyword(side, rtl)` from `polyfill.ts`: logical keywords
and numbers resolve to a percentage, flipped to `100 - p` when `rtl`. -/
def resolveLogicalSideKeyword (side : AnchorSide) (rtl : Bool) : Option ℚ :=
  let percentage : Option ℚ :=
    match side with
    | .kw "start" => some 0
    | .kw "self-start" => some 0
    | .kw "end" => some 100
    | .kw "self-end" => some 100
    | .num p => some p
    | _ => none
  match percentage with
  | some p => some (if rtl then 100 - p else p)
  | none => none

/-- `resolveLogicalSizeKeyword(size, vertical)` from `polyfill.ts`. -/
def resolveLogicalSizeKeyword (size : String) (vertical : Bool) : Option String :=
  match size with
  | "block" => some (if vertical then "width" else "height")
  | "self-block" => some (if vertical then "width" else "height")
  | "inline" => some (if vertical then "height" else "width")
  | "self-inline" => some (if vertical then "height" else "width")
  | _ => none

/-- `getAxis(position)` from `polyfill.ts`. -/
def getAxis (position : String) : Option String :=
  if position = "top" ∨ position = "bottom" then some "y"
  else if position = "left" ∨ position = "right" then some "x"
  else none

/-- `getAxisProperty(axis)` from `polyfill.ts`. -/
def getAxisProperty (axis : Option String) : Option String :=
  match axis with
  | some "x" => some "width"
  | some "y" => some "height"
  | _ => none

/-- `isInline(el)` from `polyfill.ts`. -/
def isInline (el : Elem) : Bool :=
  getCSSPropertyValue el "display" = "inline"

/-- `getBorders(el, axis)` from `polyfill.ts`: the summed border widths on the
given axis (numeric reads already model the `parseInt`/`|| 0` coalescing). -/
def getBorders (el : Elem) (axis : String) : ℚ :=
  let props := if axis = "x"
    then ["border-left-width", "border-right-width"]
    else ["border-top-width", "border-bottom-width"]
  props.foldl (fun total prop => total + getCSSPropertyNum el prop) 0

/-- JS `String.prototype.startsWith`, modelled over the character list
(extensionally Lean's `String.startsWith`; stated over `String.data` so that
concrete runs reduce in the kernel). -/
def strStartsWith (s p : String) : Bool :=
  p.data.isPrefixOf s.data

/-- `isInset(property)` from `parse.ts`. -/
def isInset (property : String) : Bool :=
  property ∈ ["left", "right", "top", "bottom"]

/-- Modelled from the spec: `isInsetProp` is imported by `polyfill.ts` from a
parse module revision that is not in `src/`; per the spec glossary an inset
property is "one of the four edge-offset properties (top/right/bottom/left)",
matching `isInset` in the `parse.ts` that is in `src/`. -/
def isInsetProp (property : String) : Bool :=
  property ∈ ["left", "right", "top", "bottom"]

/-- Modelled from the spec: `isSizingProp` is imported by `polyfill.ts` from a
parse module revision that is not in `src/`; per the spec glossary a sizing
property is "a width/height-family property eligible for `anchor-size()`". -/
def isSizingProp (property : String) : Bool :=
  property ∈ ["width", "height", "min-width", "min-height", "max-width",
    "max-height", "block-size", "inline-size", "min-block-size",
    "min-inline-size", "max-block-size", "max-inline-size"]

/-- apply the string predicate `isInsetProp` to an `anchor()` side argument,
as the source does (`isInsetProp(anchorSide)`); a number is never an inset
keyword. -/
def isInsetSide (side : AnchorSide) : Bool :=
  match side with
  | .kw s => isInsetProp s
  | .num _ => false

/-- apply `getAxis` to an `anchor()` side argument, as the source does
(`getAxis(anchorSide)`); a number has no axis. -/
def getAxisSide (side : AnchorSide) : Option String :=
  match side with
  | .kw s => getAxis s
  | .num _ => none

/-- the `switch (anchorSide)` block of `getPixelValue` (physical keywords map
to fixed endpoints; everything else goes through `resolveLogicalSideKeyword`
with the target's writing direction). -/
def anchorSidePercentage (anchorSide : AnchorSide) (rtl : Bool) : Option ℚ :=
  match anchorSide with
  | .kw "left" => some 0
  | .kw "right" => some 100
  | .kw "top" => some 0
  | .kw "bottom" => some 100
  | .kw "center" => some 50
  | _ => resolveLogicalSideKeyword anchorSide rtl

/-- result of `getPixelValue`: either a computed `"<number>px"` string
(constructor `px`, carrying the number) or a verbatim string (the fallback). -/
inductive PixelValue where
  | px (v : ℚ)
  | raw (s : String)
deriving DecidableEq, Repr

/-- options record of `getPixelValue` (`GetPixelValueOpts` in `polyfill.ts`). -/
structure GetPixelValueOpts where
  targetEl : Option Elem
  targetProperty : String
  anchorRect : Option Rect
  anchorSide : Option AnchorSide
  anchorSize : Option String
  fallback : String

/-- `getPixelValue` from `polyfill.ts`: computes the pixel value for a resolved
`anchor()`/`anchor-size()` reference, or returns the fallback string. -/
def getPixelValue (env : Env) (o : GetPixelValueOpts) : PixelValue :=
  match o.targetEl, o.anchorRect with
  | some targetEl, some anchorRect =>
    match o.anchorSize with
    | some anchorSize =>
      if ¬ isSizingProp o.targetProperty then .raw o.fallback
      else
        let size : Option String :=
          match anchorSize with
          | "width" => some anchorSize
          | "height" => some anchorSize
          | _ =>
            let writingMode := getCSSPropertyValue targetEl "writing-mode"
            let vertical := strStartsWith writingMode "vertical-" ||
              strStartsWith writingMode "sideways-"
            resolveLogicalSizeKeyword anchorSize vertical
        match size with
        | some size => .px (anchorRect.get size)
        | none => .raw o.fallback
    | none =>
      match o.anchorSide with
      | some anchorSide =>
        let axis := getAxis o.targetProperty
        if ¬ (isInsetProp o.targetProperty ∧ axis.isSome ∧
            (¬ isInsetSide anchorSide ∨ axis = getAxisSide anchorSide)) then
          .raw o.fallback
        else
          let percentage := anchorSidePercentage anchorSide targetEl.rtl
          let dir := getAxisProperty axis
          match percentage, dir, axis with
          | some percentage, some dir, some axis =>
            let value := anchorRect.get axis +
              anchorRect.get dir * (percentage / 100)
            if o.targetProperty = "bottom" then
              let offsetParent := env.offsetParent targetEl
              let offsetHeight :=
                if offsetParent.clientHeight = 0 ∧ isInline offsetParent then
                  offsetParent.offsetHeight - getBorders offsetParent axis
                else offsetParent.clientHeight
              .px (offsetHeight - value)
            else if o.targetProperty = "right" then
              let offsetParent := env.offsetParent targetEl
              let offsetWidth :=
                if offsetParent.clientWidth = 0 ∧ isInline offsetParent then
                  offsetParent.offsetWidth - getBorders offsetParent axis
                else offsetParent.clientWidth
              .px (offsetWidth - value)
            else .px value
          | _, _, _ => .raw o.fallback
      | none => .raw o.fallback
  | _, _ => .raw o.fallback

/-- an indirection key. The source generates `--anchor-${uuid()}` (a fresh
uuid v4) for every parsed anchor function, and pass 2 derives `${key}-${prop}`
clones. The uuid is modelled as a fresh counter value, and the two textual
shapes as the two constructors; `genProp n p` stands for the string
`--anchor-<uuid n>-<p>`. -/
inductive AnchorKey where
  | gen (n : ℕ)
  | genProp (n : ℕ) (prop : String)
deriving DecidableEq, Repr

/-- string form of an `AnchorKey`, used only where the source interpolates the
key into generated text. -/
def AnchorKey.render : AnchorKey → String
  | .gen n => "--anchor-" ++ toString n
  | .genProp n prop => "--anchor-" ++ toString n ++ "-" ++ prop

/-- the string append `` `${key}-${prop}` `` of pass 2, on modelled keys. -/
def keyAppendProp (k : AnchorKey) (prop : String) : AnchorKey :=
  match k with
  | .gen n => .genProp n prop
  | .genProp n q => .genProp n (q ++ "-" ++ prop)

/-- name appearing inside a `var()` function node: either an author-written
custom property name, or a polyfill-generated indirection key (a `var(${key})`
raw rewrite re-parses to such a node). Keeping the two apart models the
freshness of generated uuid keys: a generated key string never equals an
author-declared custom property name. -/
inductive VarName where
  | custom (name : String)
  | key (k : AnchorKey)
deriving DecidableEq, Repr

/-- text of a `VarName` identifier. -/
def VarName.render : VarName → String
  | .custom s => s
  | .key k => k.render

/-- the `AnchorFunction` record of `parse.ts`. `anchorEl` is doubly optional:
the outer layer is field presence (set only by `parseCSS`'s merge phase), the
inner layer is the `HTMLElement | null` binding result. -/
structure AnchorFunction where
  anchorEl : Option (Option Elem) := none
  anchorName : Option String := none
  anchorEdge : Option AnchorSide := none
  fallbackValue : String := "0px"
  customPropName : Option String := none
  key : AnchorKey
deriving DecidableEq, Repr

/-- JS truthiness of a possibly-absent string (`undefined` and `""` are
falsy). -/
def jsTruthy : Option String → Bool
  | some s => s ≠ ""
  | none => false

/-- the document, reduced to what `parse.ts` asks of it:
`querySelectorAll`-style selector matching (in document order; `querySelector`
is the head of this list) and the `validatedForPositioning` acceptance check
from `validate.ts` (not part of `src/`), abstracted as an acceptance
predicate. -/
structure Doc where
  queryAll : String → List Elem
  accepts : Option Elem → Elem → Bool

/-- `document.querySelector(sel)`. -/
def Doc.query (doc : Doc) (sel : String) : Option Elem :=
  (doc.queryAll sel).head?

/-- Modelled from the spec: `validatedForPositioning` lives in `validate.ts`,
which is not under `src/`. Per the spec (§4.3, §6) it receives the target and
the candidate selector list, delegates positioning-context legality to the
validity check, and returns "the single validated element, or `null` if none
qualify"; it never throws. Modelled as the first element, in candidate-list
and document order, accepted by the validity predicate. -/
def validatedForPositioning (doc : Doc) (targetEl : Option Elem)
    (anchorSelectors : List String) : Option Elem :=
  ((anchorSelectors.map doc.queryAll).flatten).find? (fun el => doc.accepts targetEl el)

/-- `getAnchorEl(targetEl, anchorObj)` from `parse.ts`: resolve the effective
anchor name (directly, or through a custom property read off the target),
look it up in the `anchorNames` registry, and validate the candidates. -/
def getAnchorEl (doc : Doc) (anchorNames : List (String × List String))
    (targetEl : Option Elem) (anchorObj : AnchorFunction) : Option Elem :=
  let anchorName := anchorObj.anchorName
  let anchorName : Option String :=
    match targetEl with
    | some t =>
      if ¬ jsTruthy anchorName ∧ jsTruthy anchorObj.customPropName then
        some (getCSSPropertyValue t (anchorObj.customPropName.getD ""))
      else anchorName
    | none => anchorName
  let anchorSelectors : List String :=
    if jsTruthy anchorName then (anchorNames.lookup (anchorName.getD "")).getD []
    else []
  validatedForPositioning doc targetEl anchorSelectors

/-! ## Fallback Selector (`applyPositionFallbacks` in `polyfill.ts`)

The `autoUpdate` callback registered per target is modelled as a pure function
of the evaluation state. Layout is the oracle `Option String → Measurement`:
given the current value of the target's `data-anchor-polyfill` marker
attribute (`none` when the attribute is absent), it returns the
`checkOverflow` result together with the target's client box sizes. -/

/-- the `detectOverflow` result: signed distances, positive = overflowing. -/
structure OverflowSides where
  top : ℚ
  right : ℚ
  bottom : ℚ
  left : ℚ
deriving DecidableEq, Repr

/-- a layout measurement taken with a given marker state applied. -/
structure Measurement where
  overflow : OverflowSides
  clientWidth : ℚ
  clientHeight : ℚ
deriving DecidableEq, Repr

/-- `Object.values(overflow).every((side) => side <= 0)`. -/
def noSideOverflows (o : OverflowSides) : Bool :=
  o.top ≤ 0 ∧ o.right ≤ 0 ∧ o.bottom ≤ 0 ∧ o.left ≤ 0

/-- the `order === 'normal'` loop: apply each try block's uuid in source
order, measure, stop at the first that does not overflow; if the last block
still overflows, remove the marker. Returns the final marker together with
the sequence of marker states measured. -/
def tryBlocksNormal (oracle : Option String → Measurement) :
    List String → Option String × List (Option String)
  | [] => (none, [])
  | uuid :: rest =>
    if noSideOverflows (oracle (some uuid)).overflow then (some uuid, [some uuid])
    else
      match rest with
      | [] => (none, [some uuid])
      | _ :: _ =>
        let r := tryBlocksNormal oracle rest
        (r.1, some uuid :: r.2)

/-- one entry of the `visibleArea` array of the non-`normal` branch. -/
structure VisibleSize where
  uuid : String
  height : ℚ
  width : ℚ
deriving DecidableEq, Repr

/-- the `visibleArea` computation: for every block, apply its uuid and
measure the visible (non-overflowing) extent of the target's client box. -/
def visibleAreas (oracle : Option String → Measurement)
    (fallbacks : List String) : List VisibleSize :=
  fallbacks.map fun uuid =>
    let m := oracle (some uuid)
    { uuid := uuid
      height := m.clientHeight - max 0 m.overflow.top - max 0 m.overflow.bottom
      width := m.clientWidth - max 0 m.overflow.left - max 0 m.overflow.right }

/-- `['most-height', 'most-block-size'].includes(order) ? 'height' : 'width'`. -/
def sorterKey (order : String) : String :=
  if order ∈ ["most-height", "most-block-size"] then "height" else "width"

/-- index a `VisibleSize` by the sorter key (`visible[sorter]`). -/
def VisibleSize.getKey (v : VisibleSize) (sorter : String) : ℚ :=
  if sorter = "height" then v.height else v.width

/-- insertion step of the stable descending sort (see `sortByDesc`). -/
def sortDescInsert (key : α → ℚ) (x : α) : List α → List α
  | [] => [x]
  | y :: ys => if key y > key x then y :: sortDescInsert key x ys else x :: y :: ys

/-- `visibleArea.sort((a, b) => b.visible[sorter] - a.visible[sorter])`:
`Array.prototype.sort` is required by ECMAScript to be stable, so the source's
sort is extensionally the unique stable descending sort by the key; modelled
as a stable insertion sort. -/
def sortByDesc (key : α → ℚ) : List α → List α
  | [] => []
  | x :: xs => sortDescInsert key x (sortByDesc key xs)

/-- first element attaining the maximum key, stated directly (used to
characterise the winner of the non-`normal` strategies). -/
def firstArgmax (key : α → ℚ) : List α → Option α
  | [] => none
  | x :: xs =>
    match firstArgmax key xs with
    | none => some x
    | some m => if key x ≥ key m then some x else some m

/-- outcome of one run of the per-target `autoUpdate` callback. -/
structure CallbackResult where
  checking : Bool
  marker : Option String
  measured : List (Option String)
deriving DecidableEq, Repr

/-- the body of the `autoUpdate` callback of `applyPositionFallbacks`:
`checking` is the per-target busy flag, `marker` the current
`data-anchor-polyfill` attribute. `measured` records every marker state under
which `checkOverflow` was called during this run. The source reads
`visibleArea[0]` of a nonempty array (`applyPositionFallbacks` returns early
when `fallbacks` is empty); the unreachable empty case is modelled as no
marker. -/
def fallbackCallback (oracle : Option String → Measurement)
    (fallbacks : List String) (order : String) (checking : Bool)
    (marker : Option String) : CallbackResult :=
  if checking then { checking := checking, marker := marker, measured := [] }
  else
    let defaultM := oracle none
    if noSideOverflows defaultM.overflow then
      { checking := false, marker := none, measured := [none] }
    else if order = "normal" then
      let r := tryBlocksNormal oracle fallbacks
      { checking := fallbacks.isEmpty, marker := r.1, measured := none :: r.2 }
    else
      let visibleArea := visibleAreas oracle fallbacks
      let sorter := sorterKey order
      let sorted := sortByDesc (fun v => v.getKey sorter) visibleArea
      { checking := false
        marker := sorted.head?.map (fun v => v.uuid)
        measured := none :: fallbacks.map some }

/-! ## CSS rewrite pipeline (`parseCSS` in `parse.ts`)

The csstree AST is modelled at the granularity the walk inspects it:

* a stylesheet is a list of top-level nodes — style rules (with their raw
  selector prelude and declarations) and `@position-fallback` at-rules (with
  their raw prelude and the declarations of their nested `@try` blocks);
* a declaration value is the list of the function/identifier nodes the walk
  visits inside it, in visit order (nodes nested inside e.g. `calc()` appear
  in this list, since the walk visits every descendant and the handlers only
  consult the enclosing rule and declaration);
* module-level mutable state of `parse.ts` (`anchorNames`,
  `customPropAssignments`, plus the uuid source) is threaded explicitly as a
  `ParseState` value, and in-place AST/`styleData` mutation becomes returning
  the new value.

An anchor call that pass 1 rewrites becomes the raw text `var(${key})`, which
re-parses as a `var()` function node; the model therefore replaces the node
by a `var()` node directly, carrying the generated key. -/

/-- a child node of an `anchor()` function, as inspected by `parseAnchorFn`:
an identifier, a `var()` function (carrying the name of its first identifier
child, if any), a percentage, an operator, or anything else (carrying its
generated text). -/
inductive FnChild where
  | ident (name : String)
  | varRef (firstChild : Option VarName)
  | percentage (value : ℚ)
  | operator (value : String)
  | otherNode (text : String)
deriving DecidableEq, Repr

/-- `csstree.generate(child)` for an `anchor()` child node. -/
def FnChild.generate : FnChild → String
  | .ident name => name
  | .varRef (some vn) => "var(" ++ vn.render ++ ")"
  | .varRef none => "var()"
  | .percentage v => toString v ++ "%"
  | .operator v => v
  | .otherNode t => t

/-- a node inside a declaration value, as the walk dispatches on it: an
`anchor()` function, a `var()` function, an identifier, or anything else. -/
inductive ValueNode where
  | anchorFn (children : List FnChild)
  | varNode (firstChild : Option VarName)
  | identNode (name : String)
  | otherNode (text : String)
deriving DecidableEq, Repr

/-- `csstree.generate` of a value node. -/
def ValueNode.generate : ValueNode → String
  | .anchorFn children => "anchor(" ++ children.foldl (fun s c => s ++ c.generate) "" ++ ")"
  | .varNode (some vn) => "var(" ++ vn.render ++ ")"
  | .varNode none => "var()"
  | .identNode name => name
  | .otherNode t => t

/-- the `(node.value.children.first as csstree.Identifier).name` cast used by
`getAnchorNameData` and `getPositionFallbackDeclaration`: an identifier gives
its name, a function node gives its function name, a raw node has none. -/
def firstNodeName : List ValueNode → Option String
  | [] => none
  | .identNode n :: _ => some n
  | .anchorFn _ :: _ => some "anchor"
  | .varNode _ :: _ => some "var"
  | .otherNode _ :: _ => none

/-- a CSS declaration (`property: value`). -/
structure Declaration where
  property : String
  value : List ValueNode
deriving DecidableEq, Repr

/-- a top-level stylesheet node: a style rule (raw selector prelude plus
declarations), a `@position-fallback` at-rule (raw name prelude plus the
declaration lists of its `@try` blocks), or anything else. -/
inductive TopNode where
  | rule (selector : String) (decls : List Declaration)
  | fallbackAtRule (name : String) (tries : List (List Declaration))
  | otherNode (text : String)
deriving DecidableEq, Repr

/-- a `StyleData` record, reduced to what `parseCSS` reads and writes: the
CSS text (kept in AST form — `getAST`/`csstree.generate` round-trips are the
identity at this granularity) and the `changed` flag. -/
structure StyleData where
  css : List TopNode
  changed : Bool
deriving DecidableEq, Repr

/-- a value of a `@try` block entry: a literal value text, or a parsed anchor
function. -/
inductive TryBlockValue where
  | lit (s : String)
  | fn (af : AnchorFunction)
deriving DecidableEq, Repr

/-- the `TryBlock` record of `parse.ts` (a JS object used as an
insertion-ordered map from property name to value). -/
abbrev TryBlock := List (String × TryBlockValue)

/-- JS object property assignment `obj[k] = v`: an existing key keeps its
position and gets the new value, a new key is appended. -/
def upsert (l : List (String × α)) (k : String) (v : α) : List (String × α) :=
  match l with
  | [] => [(k, v)]
  | (k₁, v₁) :: rest =>
    if k₁ = k then (k, v) :: rest else (k₁, v₁) :: upsert rest k v

/-- the `anchorNames` registry update: push the selector onto the name's
list, creating the entry if absent. -/
def pushSelector (reg : List (String × List String)) (name sel : String) :
    List (String × List String) :=
  match reg.lookup name with
  | some sels => upsert reg name (sels ++ [sel])
  | none => reg ++ [(name, [sel])]

/-- the module-level mutable state of `parse.ts`, threaded explicitly: the
`anchorNames` registry, the `customPropAssignments` side table, and the uuid
source (uuid v4 generation modelled as a fresh counter). -/
structure ParseState where
  anchorNames : List (String × List String)
  customPropAssignments : List (String × AnchorFunction)
  counter : ℕ
deriving DecidableEq, Repr

/-- the empty module state (fresh module load). -/
def ParseState.empty : ParseState :=
  { anchorNames := [], customPropAssignments := [], counter := 0 }

/-- accumulator of `parseAnchorFn`'s `forEach` over the function's children. -/
structure ParseAnchorAcc where
  anchorName : Option String := none
  anchorEdge : Option AnchorSide := none
  fallbackValue : String := ""
  foundComma : Bool := false
  customPropName : Option String := none
deriving DecidableEq, Repr

/-- one step of `parseAnchorFn`'s `forEach((child, idx) => ...)`. The
`isIdentifier` guard of the source also requires a truthy (nonempty) name. -/
def parseAnchorChild (acc : ParseAnchorAcc) (idx : ℕ) (child : FnChild) :
    ParseAnchorAcc :=
  if acc.foundComma then
    { acc with fallbackValue := acc.fallbackValue ++ child.generate }
  else
    match child with
    | .operator "," => { acc with foundComma := true }
    | _ =>
      match idx with
      | 0 =>
        match child with
        | .ident name => if name ≠ "" then { acc with anchorName := some name } else acc
        | .varRef (some vn) => { acc with customPropName := some vn.render }
        | _ => acc
      | 1 =>
        match child with
        | .ident name => if name ≠ "" then { acc with anchorEdge := some (.kw name) } else acc
        | .percentage v => { acc with anchorEdge := some (.num v) }
        | _ => acc
      | _ => acc

/-- `parseAnchorFn(node)` from `parse.ts`, with the fresh uuid modelled as the
counter value `n` (the caller bumps the counter). The returned record carries
`key = --anchor-${uuid}`; an empty fallback accumulation defaults to `"0px"`. -/
def parseAnchorFn (children : List FnChild) (n : ℕ) : AnchorFunction :=
  let acc := children.enum.foldl (fun a p => parseAnchorChild a p.1 p.2) {}
  { anchorName := acc.anchorName
    anchorEdge := acc.anchorEdge
    fallbackValue := if acc.fallbackValue = "" then "0px" else acc.fallbackValue
    customPropName := acc.customPropName
    key := .gen n }

/-- the walk accumulator of pass 1: the threaded module state plus the local
`anchorFunctions`, `fallbackNames` and `fallbacks` tables of `parseCSS` and
the per-stylesheet `changed` flag. -/
structure WalkAcc where
  st : ParseState
  anchorFunctions : List (String × List (String × AnchorFunction))
  fallbackNames : List (String × String)
  fallbacks : List (String × List TryBlock)
  changed : Bool
deriving DecidableEq, Repr

/-- `anchorFunctions[sel] = { ...anchorFunctions[sel], [prop]: data }`. -/
def upsertInner (m : List (String × List (String × AnchorFunction)))
    (sel prop : String) (data : AnchorFunction) :
    List (String × List (String × AnchorFunction)) :=
  upsert m sel (upsert ((m.lookup sel).getD []) prop data)

/-- pass-1 handling of one value node (`getAnchorFunctionData`): an `anchor()`
call under a custom-property declaration is recorded in the side table (no
rewrite, no `changed`); under an inset property it is parsed with
`replaceCss`, rewritten to `var(${key})`, stored under the rule's selector and
marks the sheet changed. Requires a truthy rule prelude. -/
def pass1ValueNode (sel property : String) (acc : WalkAcc) (node : ValueNode) :
    WalkAcc × ValueNode :=
  match node with
  | .anchorFn children =>
    if sel ≠ "" then
      if strStartsWith property "--" then
        let data := parseAnchorFn children acc.st.counter
        ({ acc with st := { acc.st with
            customPropAssignments := upsert acc.st.customPropAssignments property data
            counter := acc.st.counter + 1 } }, node)
      else if isInset property then
        let data := parseAnchorFn children acc.st.counter
        ({ acc with
            st := { acc.st with counter := acc.st.counter + 1 }
            anchorFunctions := upsertInner acc.anchorFunctions sel property data
            changed := true },
          .varNode (some (.key data.key)))
      else (acc, node)
    else (acc, node)
  | _ => (acc, node)

/-- pass 1 over the value nodes of one declaration, in visit order. -/
def pass1Value (sel property : String) (acc : WalkAcc) :
    List ValueNode → WalkAcc × List ValueNode
  | [] => (acc, [])
  | node :: rest =>
    let r := pass1ValueNode sel property acc node
    let rs := pass1Value sel property r.1 rest
    (rs.1, r.2 :: rs.2)

/-- the `anchor-name` declaration handler (`getAnchorNameData` plus the
registry update in `parseCSS`): a truthy first-child name under a truthy rule
prelude pushes the selector onto the name's registry entry. -/
def anchorNameStep (sel : String) (acc : WalkAcc) (decl : Declaration) :
    WalkAcc :=
  if decl.property = "anchor-name" ∧ sel ≠ "" then
    match firstNodeName decl.value with
    | some name =>
      if name ≠ "" then
        { acc with st := { acc.st with
            anchorNames := pushSelector acc.st.anchorNames name sel } }
      else acc
    | none => acc
  else acc

/-- the `position-fallback` declaration handler
(`getPositionFallbackDeclaration` plus the `fallbackNames` update). -/
def fallbackNameStep (sel : String) (acc : WalkAcc) (decl : Declaration) :
    WalkAcc :=
  if decl.property = "position-fallback" ∧ sel ≠ "" then
    match firstNodeName decl.value with
    | some name =>
      if name ≠ "" then
        { acc with fallbackNames := upsert acc.fallbackNames sel name }
      else acc
    | none => acc
  else acc

/-- pass 1 over one declaration of a style rule: the `anchor-name` handler,
the `position-fallback` handler, then the value nodes. -/
def pass1Decl (sel : String) (acc : WalkAcc) (decl : Declaration) :
    WalkAcc × Declaration :=
  let acc := anchorNameStep sel acc decl
  let acc := fallbackNameStep sel acc decl
  let r := pass1Value sel decl.property acc decl.value
  (r.1, { decl with value := r.2 })

/-- pass 1 over the declarations of one rule. -/
def pass1Decls (sel : String) (acc : WalkAcc) :
    List Declaration → WalkAcc × List Declaration
  | [] => (acc, [])
  | d :: ds =>
    let r := pass1Decl sel acc d
    let rs := pass1Decls sel r.1 ds
    (rs.1, r.2 :: rs.2)

/-- `csstree.generate(child.value)` for a whole declaration value. -/
def generateValue (value : List ValueNode) : String :=
  value.foldl (fun s node => s ++ node.generate) ""

/-- one declaration inside a `@try` block (`getPositionFallbackRules`): the
value's first child decides between a nested `parseAnchorFn` (consuming a
fresh uuid, no rewrite) and storing the generated literal text. -/
def parseTryDecl (c : ℕ) (block : TryBlock) (decl : Declaration) :
    ℕ × TryBlock :=
  match decl.value.head? with
  | some (.anchorFn children) =>
    (c + 1, upsert block decl.property (.fn (parseAnchorFn children c)))
  | _ => (c, upsert block decl.property (.lit (generateValue decl.value)))

/-- one `@try` block: fold its declarations into a fresh block object. -/
def parseTryBlock (c : ℕ) (decls : List Declaration) : ℕ × TryBlock :=
  decls.foldl (fun p decl => parseTryDecl p.1 p.2 decl) (c, [])

/-- all `@try` blocks of one `@position-fallback` at-rule, in order. -/
def parseTryBlocks (c : ℕ) (tries : List (List Declaration)) :
    ℕ × List TryBlock :=
  tries.foldl (fun p decls =>
    let r := parseTryBlock p.1 decls
    (r.1, p.2 ++ [r.2])) (c, [])

/-- pass 1 over one top-level node: rules descend into their declarations;
a `@position-fallback` at-rule with a truthy prelude parses its try blocks
(consuming uuids) and stores them under its name when nonempty
(`getPositionFallbackRules`); nodes inside at-rules have no enclosing rule,
so no other handler fires on them. -/
def pass1TopNode (acc : WalkAcc) : TopNode → WalkAcc × TopNode
  | .rule sel decls =>
    let r := pass1Decls sel acc decls
    (r.1, .rule sel r.2)
  | .fallbackAtRule name tries =>
    if name ≠ "" then
      let r := parseTryBlocks acc.st.counter tries
      let acc := { acc with st := { acc.st with counter := r.1 } }
      if r.2.length > 0 then
        ({ acc with fallbacks := upsert acc.fallbacks name r.2 },
          .fallbackAtRule name tries)
      else (acc, .fallbackAtRule name tries)
    else (acc, .fallbackAtRule name tries)
  | .otherNode t => (acc, .otherNode t)

/-- pass 1 over the top-level nodes of one stylesheet. -/
def pass1TopNodes (acc : WalkAcc) : List TopNode → WalkAcc × List TopNode
  | [] => (acc, [])
  | t :: ts =>
    let r := pass1TopNode acc t
    let rs := pass1TopNodes r.1 ts
    (rs.1, r.2 :: rs.2)

/-- pass 1 over one `styleObj`: reset the per-sheet `changed` flag, walk the
AST, and write back css and flag only when something changed. -/
def pass1Sheet (acc : WalkAcc) (sheet : StyleData) : WalkAcc × StyleData :=
  let acc₀ := { acc with changed := false }
  let r := pass1TopNodes acc₀ sheet.css
  if r.1.changed then (r.1, { css := r.2, changed := true })
  else (r.1, sheet)

/-- pass 1 over all stylesheets. -/
def pass1Sheets (acc : WalkAcc) : List StyleData → WalkAcc × List StyleData
  | [] => (acc, [])
  | s :: ss =>
    let r := pass1Sheet acc s
    let rs := pass1Sheets r.1 ss
    (rs.1, r.2 :: rs.2)

/-- the initial pass-1 accumulator for one `parseCSS` invocation over the
given module state. -/
def pass1Start (st : ParseState) : WalkAcc :=
  { st := st, anchorFunctions := [], fallbackNames := [], fallbacks := []
    changed := false }

/-- the walk accumulator of pass 2. -/
structure Pass2Acc where
  anchorFunctions : List (String × List (String × AnchorFunction))
  changed : Bool
deriving DecidableEq, Repr

/-- pass-2 handling of one value node: a `var()` reference, under an inset
property of a rule with truthy prelude, whose name matches a recorded
custom-property assignment is cloned with the `(original key, property)`
derived key, stored under the rule's selector, and the node is renamed to the
new key. A generated-key name never matches the table (uuid freshness). -/
def pass2ValueNode (table : List (String × AnchorFunction))
    (sel property : String) (acc : Pass2Acc) (node : ValueNode) :
    Pass2Acc × ValueNode :=
  match node with
  | .varNode (some name) =>
    if sel ≠ "" ∧ isInset property then
      match name with
      | .custom s =>
        match table.lookup s with
        | some anchorFnData =>
          let key := keyAppendProp anchorFnData.key property
          let data := { anchorFnData with key := key }
          ({ anchorFunctions := upsertInner acc.anchorFunctions sel property data
             changed := true },
            .varNode (some (.key key)))
        | none => (acc, node)
      | .key _ => (acc, node)
    else (acc, node)
  | _ => (acc, node)

/-- pass 2 over the value nodes of one declaration. -/
def pass2Value (table : List (String × AnchorFunction)) (sel property : String)
    (acc : Pass2Acc) : List ValueNode → Pass2Acc × List ValueNode
  | [] => (acc, [])
  | node :: rest =>
    let r := pass2ValueNode table sel property acc node
    let rs := pass2Value table sel property r.1 rest
    (rs.1, r.2 :: rs.2)

/-- pass 2 over the declarations of one rule. -/
def pass2Decls (table : List (String × AnchorFunction)) (sel : String)
    (acc : Pass2Acc) : List Declaration → Pass2Acc × List Declaration
  | [] => (acc, [])
  | d :: ds =>
    let r := pass2Value table sel d.property acc d.value
    let rs := pass2Decls table sel r.1 ds
    (rs.1, { d with value := r.2 } :: rs.2)

/-- pass 2 over one top-level node (at-rule contents have no enclosing rule
and are skipped). -/
def pass2TopNode (table : List (String × AnchorFunction)) (acc : Pass2Acc) :
    TopNode → Pass2Acc × TopNode
  | .rule sel decls =>
    let r := pass2Decls table sel acc decls
    (r.1, .rule sel r.2)
  | .fallbackAtRule name tries => (acc, .fallbackAtRule name tries)
  | .otherNode t => (acc, .otherNode t)

/-- pass 2 over the top-level nodes of one stylesheet. -/
def pass2TopNodes (table : List (String × AnchorFunction)) (acc : Pass2Acc) :
    List TopNode → Pass2Acc × List TopNode
  | [] => (acc, [])
  | t :: ts =>
    let r := pass2TopNode table acc t
    let rs := pass2TopNodes table r.1 ts
    (rs.1, r.2 :: rs.2)

/-- pass 2 over one `styleObj`. -/
def pass2Sheet (table : List (String × AnchorFunction)) (acc : Pass2Acc)
    (sheet : StyleData) : Pass2Acc × StyleData :=
  let acc₀ := { acc with changed := false }
  let r := pass2TopNodes table acc₀ sheet.css
  if r.1.changed then (r.1, { css := r.2, changed := true })
  else (r.1, sheet)

/-- pass 2 over all stylesheets. -/
def pass2Sheets (table : List (String × AnchorFunction)) (acc : Pass2Acc) :
    List StyleData → Pass2Acc × List StyleData
  | [] => (acc, [])
  | s :: ss =>
    let r := pass2Sheet table acc s
    let rs := pass2Sheets table r.1 ss
    (rs.1, r.2 :: rs.2)

/-- pass 2 entry: runs only when the side table is nonempty. -/
def pass2Run (table : List (String × AnchorFunction))
    (anchorFunctions : List (String × List (String × AnchorFunction)))
    (styleData : List StyleData) :
    (List (String × List (String × AnchorFunction))) × List StyleData :=
  if table.isEmpty then (anchorFunctions, styleData)
  else
    let r := pass2Sheets table { anchorFunctions := anchorFunctions, changed := false } styleData
    (r.1.anchorFunctions, r.2)

/-- one entry of the final rule model (`AnchorPosition` in `parse.ts`);
absent fields model absent JS object properties. -/
structure AnchorPosition where
  declarations : Option (List (String × AnchorFunction)) := none
  fallbacks : Option (List TryBlock) := none
deriving DecidableEq, Repr

/-- populate `anchorEl` on every anchor-function entry of a try block. The
source mutates the shared block objects in place (so blocks attached to
several selectors alias); the model produces per-selector copies, which
agrees with the source whenever a fallback name is referenced by a single
selector. -/
def populateTryBlock (doc : Doc) (reg : List (String × List String))
    (targetEl : Option Elem) (block : TryBlock) : TryBlock :=
  block.map (fun e =>
    match e.2 with
    | .fn af => (e.1, .fn { af with anchorEl := some (getAnchorEl doc reg targetEl af) })
    | .lit s => (e.1, .lit s))

/-- the merge-phase loop over `fallbackNames`: attach the named try blocks
(with `anchorEl` populated) to each selector that declared the name. -/
def mergeFallbacks (doc : Doc) (reg : List (String × List String))
    (fallbackNames : List (String × String))
    (fallbacks : List (String × List TryBlock)) :
    List (String × AnchorPosition) :=
  fallbackNames.foldl (fun vp e =>
    match fallbacks.lookup e.2 with
    | some positionFallbacks =>
      let targetEl := doc.query e.1
      upsert vp e.1
        { fallbacks := some (positionFallbacks.map (populateTryBlock doc reg targetEl)) }
    | none => vp) []

/-- the merge-phase loop over `anchorFunctions`: populate `anchorEl` and merge
each declaration into the model under its selector. -/
def mergeAnchorFns (doc : Doc) (reg : List (String × List String))
    (vp₀ : List (String × AnchorPosition))
    (anchorFunctions : List (String × List (String × AnchorFunction))) :
    List (String × AnchorPosition) :=
  anchorFunctions.foldl (fun vp e =>
    let targetEl := doc.query e.1
    e.2.foldl (fun vp d =>
      let anchorEl := getAnchorEl doc reg targetEl d.2
      let cur := (vp.lookup e.1).getD {}
      let entry := { d.2 with anchorEl := some anchorEl }
      let decls := upsert (cur.declarations.getD []) d.1 entry
      upsert vp e.1 { cur with declarations := some decls })
      vp) vp₀

/-- `parseCSS(styleData)` from `parse.ts`, with the module state passed in and
returned: pass 1, pass 2 (only when custom-property assignments exist), then
the merge phase. Returns the rule model, the updated stylesheet records, and
the module state after the call. -/
def parseCSS (doc : Doc) (st : ParseState) (styleData : List StyleData) :
    List (String × AnchorPosition) × List StyleData × ParseState :=
  let p1 := pass1Sheets (pass1Start st) styleData
  let acc := p1.1
  let p2 := pass2Run acc.st.customPropAssignments acc.anchorFunctions p1.2
  let vp := mergeFallbacks doc acc.st.anchorNames acc.fallbackNames acc.fallbacks
  let vp := mergeAnchorFns doc acc.st.anchorNames vp p2.1
  (vp, p2.2, acc.st)

/-- location of an `AnchorReference` in the rule model: a direct declaration
slot, or a property inside the i-th try block. -/
inductive RefLoc where
  | decl (sel : String) (prop : String)
  | tryRef (sel : String) (blockIdx : ℕ) (prop : String)
deriving DecidableEq, Repr

/-- the anchor-function references of one try block, with their locations. -/
def blockRefs (sel : String) (i : ℕ) (b : TryBlock) :
    List (RefLoc × AnchorFunction) :=
  b.filterMap (fun e =>
    match e.2 with
    | .fn af => some (RefLoc.tryRef sel i e.1, af)
    | .lit _ => none)

/-- all anchor-function references of one model entry. -/
def posRefs (sel : String) (pos : AnchorPosition) :
    List (RefLoc × AnchorFunction) :=
  ((pos.declarations.getD []).map (fun e => (RefLoc.decl sel e.1, e.2))) ++
    ((pos.fallbacks.getD []).enum.map (fun p => blockRefs sel p.1 p.2)).flatten

/-- every `AnchorReference` anywhere in a rule model, with its location. -/
def modelRefs (vp : List (String × AnchorPosition)) :
    List (RefLoc × AnchorFunction) :=
  (vp.map (fun e => posRefs e.1 e.2)).flatten

/-- does a value node hold a raw `anchor()` call? -/
def ValueNode.isAnchorCall : ValueNode → Bool
  | .anchorFn _ => true
  | _ => false

/-- does a declaration contain a raw `anchor()` call? -/
def Declaration.hasAnchorCall (d : Declaration) : Bool :=
  d.value.any ValueNode.isAnchorCall

/-- does a top-level node contain a raw `anchor()` call? -/
def TopNode.hasAnchorCall : TopNode → Bool
  | .rule _ decls => decls.any Declaration.hasAnchorCall
  | .fallbackAtRule _ tries => tries.any (fun ds => ds.any Declaration.hasAnchorCall)
  | .otherNode _ => false

/-- stylesheets free of raw `anchor()` calls. -/
def noAnchorCalls (styleData : List StyleData) : Bool :=
  styleData.all (fun s => s.css.all (fun t => ¬ t.hasAnchorCall))

/-- does this value node hit the custom-property side table (a `var()` whose
name is an assigned custom property)? Indirection placeholders
(generated-key names) never hit the table. -/
def ValueNode.varHits (table : List (String × AnchorFunction)) :
    ValueNode → Bool
  | .varNode (some (.custom s)) => (table.lookup s).isSome
  | _ => false

/-- stylesheets whose rule declarations contain only `var()` references that
miss the side table (i.e. indirection placeholders or unassigned custom
properties) — the shape of already-rewritten CSS text. -/
def onlyPlaceholderVars (table : List (String × AnchorFunction))
    (styleData : List StyleData) : Bool :=
  styleData.all fun s => s.css.all fun t =>
    match t with
    | .rule _ decls => decls.all (fun d => d.value.all (fun v => ¬ v.varHits table))
    | _ => true

/-- is this try-block value a literal? -/
def TryBlockValue.isLit : TryBlockValue → Bool
  | .lit _ => true
  | .fn _ => false

/-- a try block holding only literal values. -/
def TryBlock.allLit (b : TryBlock) : Bool :=
  b.all (fun e => e.2.isLit)

/-- the try block produced for a declaration list containing no anchor
calls: every declaration stored as its generated literal text. -/
def tryLits (decls : List Declaration) : TryBlock :=
  decls.foldl (fun b d => upsert b d.property (.lit (generateValue d.value))) []

/-! ## Proof-side notions

Collectors and invariant predicates about the pipeline state, used to state
and prove the registry-persistence and key-uniqueness theorems. -/

/-- one registry extends another: every recorded selector list persists,
possibly with further selectors appended. -/
def RegExtends (r r2 : List (String × List String)) : Prop :=
  ∀ n sels, r.lookup n = some sels → ∃ extra, r2.lookup n = some (sels ++ extra)

/-- every key present in one side table is still present in another. -/
def TableKeysKept (t t2 : List (String × AnchorFunction)) : Prop :=
  ∀ p, (t.lookup p).isSome → (t2.lookup p).isSome

/-- the indirection keys of one selector's declaration map. -/
def innerKeys (m : List (String × AnchorFunction)) : List AnchorKey :=
  m.map (fun e => e.2.key)

/-- all indirection keys of the `anchorFunctions` table. -/
def fnsKeys (m : List (String × List (String × AnchorFunction))) : List AnchorKey :=
  (m.map (fun e => innerKeys e.2)).flatten

/-- the uuid-generation (`gen`) keys of one selector's declaration map. -/
def innerGenKeys (m : List (String × AnchorFunction)) : List AnchorKey :=
  m.filterMap (fun e => match e.2.key with
    | .gen n => some (AnchorKey.gen n)
    | .genProp _ _ => none)

/-- the uuid-generation keys of the `anchorFunctions` table. -/
def fnsGenKeys (m : List (String × List (String × AnchorFunction))) : List AnchorKey :=
  (m.map (fun e => innerGenKeys e.2)).flatten

/-- the indirection keys of the anchor references of one try block. -/
def blockKeys (b : TryBlock) : List AnchorKey :=
  b.filterMap (fun e => match e.2 with
    | .fn af => some af.key
    | .lit _ => none)

/-- the indirection keys of a try-block list. -/
def blocksKeys (bs : List TryBlock) : List AnchorKey :=
  (bs.map blockKeys).flatten

/-- the indirection keys of the `fallbacks` table. -/
def fbsKeys (f : List (String × List TryBlock)) : List AnchorKey :=
  (f.map (fun e => blocksKeys e.2)).flatten

/-- the indirection keys of the side table. -/
def tableKeys (t : List (String × AnchorFunction)) : List AnchorKey :=
  t.map (fun e => e.2.key)

/-- every indirection key reachable from a pass-1 walk accumulator. -/
def accKeys (acc : WalkAcc) : List AnchorKey :=
  fnsKeys acc.anchorFunctions ++ tableKeys acc.st.customPropAssignments ++
    fbsKeys acc.fallbacks

/-- all listed keys are uuid-generation keys below the counter. -/
def KeysBelow (ks : List AnchorKey) (c : ℕ) : Prop :=
  ∀ k ∈ ks, ∃ n, k = AnchorKey.gen n ∧ n < c

/-- the keys of an association list. -/
def alKeys (l : List (String × α)) : List String :=
  l.map (fun e => e.1)

/-- the pass-1 walk invariant: all reachable keys are fresh-generator keys
below the counter and pairwise distinct, and every table involved has
duplicate-free keys (JS objects), as do the properties of every stored
declaration map and try block. -/
def Pass1Inv (acc : WalkAcc) : Prop :=
  KeysBelow (accKeys acc) acc.st.counter ∧
  (accKeys acc).Nodup ∧
  (alKeys acc.anchorFunctions).Nodup ∧
  (∀ e ∈ acc.anchorFunctions, (alKeys e.2).Nodup) ∧
  (alKeys acc.fallbackNames).Nodup ∧
  (alKeys acc.fallbacks).Nodup ∧
  (∀ e ∈ acc.fallbacks, ∀ b ∈ e.2, (alKeys b).Nodup) ∧
  (alKeys acc.st.customPropAssignments).Nodup

/-- the shape of the `anchorFunctions` table after pass 2: selector keys and
per-selector properties are duplicate-free; every entry's key is either a
fresh-generator key or a pass-2 clone key tagged with its own slot property;
and the generator keys, together with the try-block keys, are pairwise
distinct. -/
def Pass2Shape (m : List (String × List (String × AnchorFunction)))
    (f : List (String × List TryBlock)) : Prop :=
  (alKeys m).Nodup ∧
  (∀ e ∈ m, (alKeys e.2).Nodup) ∧
  (∀ e ∈ m, ∀ d ∈ e.2, (∃ n, d.2.key = AnchorKey.gen n) ∨
    (∃ n, d.2.key = AnchorKey.genProp n d.1)) ∧
  (fnsGenKeys m ++ fbsKeys f).Nodup

/-- the origin of a reference found in the final rule model: a populated copy
of an `anchorFunctions` entry, or of a try-block entry reached through
`fallbackNames` and `fallbacks`. -/
def RefOrigin (m : List (String × List (String × AnchorFunction)))
    (fbN : List (String × String)) (f : List (String × List TryBlock))
    (l : RefLoc) (af : AnchorFunction) : Prop :=
  (∃ sel prop inner af₀, l = RefLoc.decl sel prop ∧ m.lookup sel = some inner ∧
    inner.lookup prop = some af₀ ∧ af.key = af₀.key) ∨
  (∃ sel i prop name blocks b af₀, l = RefLoc.tryRef sel i prop ∧
    fbN.lookup sel = some name ∧ f.lookup name = some blocks ∧
    blocks[i]? = some b ∧ b.lookup prop = some (TryBlockValue.fn af₀) ∧
    af.key = af₀.key)

/-- `l'` arises from `l` by deleting some elements and splicing the segment
`xs` in at one position. Every key-table update of the walk (`upsert` of a
freshly keyed record, possibly overwriting a slot) changes the collected key
lists in this way. -/
def InsertSeg (l : List β) (xs : List β) (l' : List β) : Prop :=
  ∃ s₁ s₂, l' = s₁ ++ xs ++ s₂ ∧ (s₁ ++ s₂).Sublist l

/-- all listed keys are uuid-generation keys in the interval `[lo, hi)`. -/
def KeysBetween (ks : List AnchorKey) (lo hi : ℕ) : Prop :=
  ∀ k ∈ ks, ∃ n, k = AnchorKey.gen n ∧ lo ≤ n ∧ n < hi

/-- characterisation of a model entry's `fallbacks` field: absent, or the
populated copy of the try-block list reached from the selector through
`fallbackNames` and `fallbacks`. -/
def FallbacksChar (doc : Doc) (reg : List (String × List String))
    (fbN : List (String × String)) (f : List (String × List TryBlock))
    (sel : String) (fb : Option (List TryBlock)) : Prop :=
  fb = none ∨ ∃ name blocks, fbN.lookup sel = some name ∧
    f.lookup name = some blocks ∧
    fb = some (blocks.map (populateTryBlock doc reg (doc.query sel)))

/-- characterisation of a model entry's `declarations` field: duplicate-free
properties, each holding a populated copy (same key) of the `anchorFunctions`
slot at the same selector and property. -/
def DeclsChar (m : List (String × List (String × AnchorFunction)))
    (sel : String) (ds : Option (List (String × AnchorFunction))) : Prop :=
  (alKeys (ds.getD [])).Nodup ∧
  ∀ p af, (p, af) ∈ ds.getD [] → ∃ inner af₀, m.lookup sel = some inner ∧
    inner.lookup p = some af₀ ∧ af.key = af₀.key

/-- the merge-phase fallbacks loop specialised to literal-only try blocks:
`populateTryBlock` is the identity on such blocks, so the registry and the
document drop out of the fold. -/
def mergeFallbacksLit (fallbackNames : List (String × String))
    (fallbacks : List (String × List TryBlock)) :
    List (String × AnchorPosition) :=
  fallbackNames.foldl (fun vp e =>
    match fallbacks.lookup e.2 with
    | some positionFallbacks =>
      upsert vp e.1 { fallbacks := some positionFallbacks }
    | none => vp) []

/-- a concrete document with no elements (every query misses). -/
def c8Doc : Doc :=
  { queryAll := fun _ => [], accepts := fun _ _ => false }

/-- a concrete already-rewritten stylesheet: an `anchor-name` declaration, a
`position-fallback` declaration, an inset declaration holding only an
indirection placeholder, a literal-only `@position-fallback` at-rule, and an
unrelated node. -/
def c8Input : List StyleData :=
  [{ css :=
      [TopNode.rule ".a"
        [{ property := "anchor-name", value := [ValueNode.identNode "--my-anchor"] },
         { property := "position-fallback", value := [ValueNode.identNode "--fb"] },
         { property := "top",
           value := [ValueNode.varNode (some (VarName.key (AnchorKey.gen 0)))] }],
       TopNode.fallbackAtRule "--fb"
        [[{ property := "top", value := [ValueNode.otherNode "10px"] }]],
       TopNode.otherNode "x"]
     changed := false }]

/-- a concrete document with no elements, for the key-collision scenario. -/
def c3Doc : Doc :=
  { queryAll := fun _ => [], accepts := fun _ _ => false }

/-- a concrete stylesheet assigning one `anchor()` call to a custom property
and consuming that custom property for the same inset property (`top`) on two
different selectors. -/
def c3Input : List StyleData :=
  [{ css :=
      [TopNode.rule ":root"
        [{ property := "--center"
           value := [ValueNode.anchorFn
             [FnChild.ident "--my-anchor", FnChild.ident "top"]] }],
       TopNode.rule ".a"
        [{ property := "top"
           value := [ValueNode.varNode (some (VarName.custom "--center"))] }],
       TopNode.rule ".b"
        [{ property := "top"
           value := [ValueNode.varNode (some (VarName.custom "--center"))] }]]
     changed := false }]

/-- the pass-2 clone produced for both selectors of the collision scenario:
same `(originalKey, consumingProperty)` key on `.a` and `.b`. -/
def c3Clone : AnchorFunction :=
  { anchorEl := some none
    anchorName := some "--my-anchor"
    anchorEdge := some (AnchorSide.kw "top")
    fallbackValue := "0px"
    customPropName := none
    key := AnchorKey.genProp 0 "top" }

/-! ## Theorems -/

/-- C2 — counterexample. The claim states that a numeric percentage side
argument passes through unchanged, in particular that it is not altered by a
right-to-left writing direction. In the code, a numeric side goes through
`resolveLogicalSideKeyword`, which flips it to `100 - p` under rtl: side `25%`
under rtl resolves to `75`, not `25`, and a full `getPixelValue` call on a
rtl target with side `25%` and anchor rect `y = 0, height = 100` yields
`75px`, not `25px`. -/
theorem C2_counterexample :
    resolveLogicalSideKeyword (AnchorSide.num 25) true = some 75 ∧
    anchorSidePercentage (AnchorSide.num 25) true ≠ some 25 ∧
    getPixelValue ⟨fun e => e⟩
      { targetEl := some ⟨0, [], [], true, 0, 0, 0, 0⟩, targetProperty := "top",
        anchorRect := some ⟨0, 0, 0, 100⟩, anchorSide := some (AnchorSide.num 25),
        anchorSize := none, fallback := "fb" } = PixelValue.px 75 := by
  refine ⟨by norm_num [resolveLogicalSideKeyword], ?_, ?_⟩
  · norm_num [anchorSidePercentage, resolveLogicalSideKeyword]
  · norm_num +decide [getPixelValue, anchorSidePercentage, resolveLogicalSideKeyword,
      getAxis, getAxisProperty, isInsetProp, isInsetSide, getAxisSide, Rect.get]

/-- C2 — amended claim, proved: in `anchor()` resolution the side resolves to
a 0–100 percentage with physical keywords mapping to fixed endpoints
(`left`/`top` to 0, `right`/`bottom` to 100, `center` to 50, unaffected by
writing direction); logical keywords `start`/`self-start` and
`end`/`self-end` resolve through the writing direction (rtl flips `p` to
`100 - p`); and a numeric percentage is likewise flipped to `100 - p` under
rtl (it passes through unchanged only in left-to-right contexts). -/
theorem C2_amended_side_percentage (rtl : Bool) (p : ℚ) :
    anchorSidePercentage (AnchorSide.kw "left") rtl = some 0 ∧
    anchorSidePercentage (AnchorSide.kw "top") rtl = some 0 ∧
    anchorSidePercentage (AnchorSide.kw "right") rtl = some 100 ∧
    anchorSidePercentage (AnchorSide.kw "bottom") rtl = some 100 ∧
    anchorSidePercentage (AnchorSide.kw "center") rtl = some 50 ∧
    anchorSidePercentage (AnchorSide.kw "start") rtl = some (if rtl then 100 else 0) ∧
    anchorSidePercentage (AnchorSide.kw "self-start") rtl = some (if rtl then 100 else 0) ∧
    anchorSidePercentage (AnchorSide.kw "end") rtl = some (if rtl then 0 else 100) ∧
    anchorSidePercentage (AnchorSide.kw "self-end") rtl = some (if rtl then 0 else 100) ∧
    anchorSidePercentage (AnchorSide.num p) rtl = some (if rtl then 100 - p else p) := by
  cases rtl <;>
    simp [anchorSidePercentage, resolveLogicalSideKeyword]

/-- C9 — confirmed. The per-target `autoUpdate` callback guards on the
per-target busy flag (`checking`): a layout-change notification arriving
while an evaluation is in flight returns immediately — no overflow check is
performed (`measured = []`), the marker attribute is untouched, and nothing
is queued or deferred (the resulting state is exactly the input state), so a
re-evaluation can only come from the next natural layout change. -/
theorem C9_busy_notification_dropped (oracle : Option String → Measurement)
    (fallbacks : List String) (order : String) (marker : Option String) :
    fallbackCallback oracle fallbacks order true marker =
      { checking := true, marker := marker, measured := [] } := rfl

/-- C4 — confirmed. For a resolved `anchor()` percentage `p`, the pixel
resolver computes `offset = anchorRect.axisOrigin + anchorRect.axisSize *
(p/100)` and returns it as a pixel value: for `top`/`left` target properties
the offset itself (in particular `anchor(... bottom)` resolved for `top`
against a rect with origin `y` and height `h` yields exactly `y + h`), and
for `bottom`/`right` the distance from the far edge of the containing block
(`clientHeight`/`clientWidth` of the offset parent), with the border-width
correction (`offsetHeight - borders` instead) when an inline offset parent's
client box measures zero. -/
theorem C4_pixel_offset_formula (env : Env) (el : Elem) (rect : Rect)
    (sideY sideX : AnchorSide) (py pxv : ℚ) (fb : String)
    (hy : anchorSidePercentage sideY el.rtl = some py)
    (hys : isInsetSide sideY = false ∨ getAxisSide sideY = some "y")
    (hx : anchorSidePercentage sideX el.rtl = some pxv)
    (hxs : isInsetSide sideX = false ∨ getAxisSide sideX = some "x") :
    getPixelValue env
      { targetEl := some el, targetProperty := "top", anchorRect := some rect,
        anchorSide := some sideY, anchorSize := none, fallback := fb } =
      .px (rect.y + rect.height * (py / 100)) ∧
    getPixelValue env
      { targetEl := some el, targetProperty := "left", anchorRect := some rect,
        anchorSide := some sideX, anchorSize := none, fallback := fb } =
      .px (rect.x + rect.width * (pxv / 100)) ∧
    getPixelValue env
      { targetEl := some el, targetProperty := "bottom", anchorRect := some rect,
        anchorSide := some sideY, anchorSize := none, fallback := fb } =
      .px ((if (env.offsetParent el).clientHeight = 0 ∧ isInline (env.offsetParent el)
            then (env.offsetParent el).offsetHeight - getBorders (env.offsetParent el) "y"
            else (env.offsetParent el).clientHeight)
          - (rect.y + rect.height * (py / 100))) ∧
    getPixelValue env
      { targetEl := some el, targetProperty := "right", anchorRect := some rect,
        anchorSide := some sideX, anchorSize := none, fallback := fb } =
      .px ((if (env.offsetParent el).clientWidth = 0 ∧ isInline (env.offsetParent el)
            then (env.offsetParent el).offsetWidth - getBorders (env.offsetParent el) "x"
            else (env.offsetParent el).clientWidth)
          - (rect.x + rect.width * (pxv / 100))) ∧
    getPixelValue env
      { targetEl := some el, targetProperty := "top", anchorRect := some rect,
        anchorSide := some (AnchorSide.kw "bottom"), anchorSize := none,
        fallback := fb } =
      .px (rect.y + rect.height) := by
  refine ⟨?_, ?_, ?_, ?_, ?_⟩
  · rcases hys with h | h <;>
      simp [getPixelValue, getAxis, getAxisProperty, Rect.get, hy, h, isInsetProp]
  · rcases hxs with h | h <;>
      simp [getPixelValue, getAxis, getAxisProperty, Rect.get, hx, h, isInsetProp]
  · rcases hys with h | h <;>
      simp [getPixelValue, getAxis, getAxisProperty, Rect.get, hy, h, isInsetProp]
  · rcases hxs with h | h <;>
      simp [getPixelValue, getAxis, getAxisProperty, Rect.get, hx, h, isInsetProp]
  · have : rect.y + rect.height * ((100 : ℚ) / 100) = rect.y + rect.height := by
      norm_num
    simp [getPixelValue, getAxis, getAxisProperty, Rect.get, isInsetProp,
      anchorSidePercentage, isInsetSide, getAxisSide, this]

/-- C4 — witness: concrete instance with rect origin `y = 5`, height `7`:
`anchor(-- bottom)` for `top` yields exactly `12`, and for `bottom` with an
offset parent of client height 100 yields `100 - 12 = 88`. -/
theorem C4_pixel_offset_formula_witness :
    anchorSidePercentage (AnchorSide.kw "bottom") false = some 100 ∧
    getPixelValue ⟨fun _ => ⟨1, [], [], false, 40, 100, 0, 0⟩⟩
      { targetEl := some ⟨0, [], [], false, 0, 0, 0, 0⟩, targetProperty := "top",
        anchorRect := some ⟨3, 5, 11, 7⟩, anchorSide := some (AnchorSide.kw "bottom"),
        anchorSize := none, fallback := "fb" } = .px 12 ∧
    getPixelValue ⟨fun _ => ⟨1, [], [], false, 40, 100, 0, 0⟩⟩
      { targetEl := some ⟨0, [], [], false, 0, 0, 0, 0⟩, targetProperty := "bottom",
        anchorRect := some ⟨3, 5, 11, 7⟩, anchorSide := some (AnchorSide.kw "bottom"),
        anchorSize := none, fallback := "fb" } = .px 88 := by
  have h := C4_pixel_offset_formula ⟨fun _ => ⟨1, [], [], false, 40, 100, 0, 0⟩⟩
    ⟨0, [], [], false, 0, 0, 0, 0⟩ ⟨3, 5, 11, 7⟩
    (AnchorSide.kw "bottom") (AnchorSide.kw "right") 100 100 "fb"
    (by simp [anchorSidePercentage]) (Or.inr rfl)
    (by simp [anchorSidePercentage]) (Or.inr rfl)
  refine ⟨by simp [anchorSidePercentage], ?_, ?_⟩
  · have h5 := h.2.2.2.2
    rw [h5]
    norm_num
  · have h3 := h.2.2.1
    rw [h3]
    norm_num [isInline, getCSSPropertyValue]

/-- C6 — confirmed. The pixel resolver returns the fallback string, exactly
as for an unresolvable name and raising nothing, for every axis/property
family mismatch: an `anchor()` reference on a non-inset target property; a
physical side keyword whose axis differs from the target inset property's
axis; and an `anchor-size()` reference on a non-sizing target property. -/
theorem C6_mismatch_returns_fallback (env : Env) (el : Elem) (rect : Rect)
    (fb : String) (propA propB propC : String) (side sideK : AnchorSide)
    (sz : String)
    (h1 : isInsetProp propA = false)
    (h2 : isInsetProp propB = true)
    (h3 : isInsetSide sideK = true)
    (h4 : getAxis propB ≠ getAxisSide sideK)
    (h5 : isSizingProp propC = false) :
    getPixelValue env
      { targetEl := some el, targetProperty := propA, anchorRect := some rect,
        anchorSide := some side, anchorSize := none, fallback := fb } = .raw fb ∧
    getPixelValue env
      { targetEl := some el, targetProperty := propB, anchorRect := some rect,
        anchorSide := some sideK, anchorSize := none, fallback := fb } = .raw fb ∧
    getPixelValue env
      { targetEl := some el, targetProperty := propC, anchorRect := some rect,
        anchorSide := none, anchorSize := some sz, fallback := fb } = .raw fb := by
  refine ⟨?_, ?_, ?_⟩
  · simp [getPixelValue, h1]
  · simp [getPixelValue, h2, h3, h4]
  · simp [getPixelValue, h5]

/-- C6 — witness: `anchor(... left)` feeding `top` (axis mismatch),
`anchor()` feeding `width` (non-inset), and `anchor-size(width)` feeding
`top` (non-sizing) all return the fallback verbatim. -/
theorem C6_mismatch_returns_fallback_witness :
    isInsetProp "width" = false ∧ isInsetProp "top" = true ∧
    isInsetSide (AnchorSide.kw "left") = true ∧
    getAxis "top" ≠ getAxisSide (AnchorSide.kw "left") ∧
    isSizingProp "top" = false ∧
    getPixelValue ⟨fun e => e⟩
      { targetEl := some ⟨0, [], [], false, 0, 0, 0, 0⟩, targetProperty := "top",
        anchorRect := some ⟨3, 5, 11, 7⟩, anchorSide := some (AnchorSide.kw "left"),
        anchorSize := none, fallback := "10px" } = .raw "10px" ∧
    getPixelValue ⟨fun e => e⟩
      { targetEl := some ⟨0, [], [], false, 0, 0, 0, 0⟩, targetProperty := "width",
        anchorRect := some ⟨3, 5, 11, 7⟩, anchorSide := some (AnchorSide.kw "left"),
        anchorSize := none, fallback := "10px" } = .raw "10px" ∧
    getPixelValue ⟨fun e => e⟩
      { targetEl := some ⟨0, [], [], false, 0, 0, 0, 0⟩, targetProperty := "top",
        anchorRect := some ⟨3, 5, 11, 7⟩, anchorSide := none,
        anchorSize := some "width", fallback := "10px" } = .raw "10px" := by
  have h := C6_mismatch_returns_fallback ⟨fun e => e⟩ ⟨0, [], [], false, 0, 0, 0, 0⟩
    ⟨3, 5, 11, 7⟩ "10px" "width" "top" "top" (AnchorSide.kw "left")
    (AnchorSide.kw "left") "width"
    (by simp [isInsetProp]) (by simp [isInsetProp])
    (by simp [isInsetSide, isInsetProp])
    (by simp [getAxis, getAxisSide]) (by simp [isSizingProp])
  exact ⟨by simp [isInsetProp], by simp [isInsetProp],
    by simp [isInsetSide, isInsetProp], by simp [getAxis, getAxisSide],
    by simp [isSizingProp], h.2.1, h.1, h.2.2⟩

/-- C7 — confirmed. For every reference whose anchor binding is unresolved,
the binder `getAnchorEl` returns a null element (it is a total function, so
nothing is thrown): with an anchor name absent from the registry, with a
custom-property lookup that reads back the empty string, and with registry
candidates none of which the validity collaborator accepts. And the pixel
resolver, given no anchor rect, returns the reference's fallback text
verbatim. -/
theorem C7_unresolved_binding_null_and_fallback (doc : Doc)
    (reg : List (String × List String)) (el : Elem)
    (obj1 obj2 obj3 : AnchorFunction) (n n3 cp : String) (sels : List String)
    (env : Env) (o : GetPixelValueOpts)
    (ha1 : obj1.anchorName = some n) (ha2 : n ≠ "") (ha3 : reg.lookup n = none)
    (hb1 : obj2.anchorName = none) (hb2 : obj2.customPropName = some cp)
    (hb3 : getCSSPropertyValue el cp = "")
    (hc1 : obj3.anchorName = some n3) (hc2 : n3 ≠ "")
    (hc3 : reg.lookup n3 = some sels)
    (hc4 : ∀ e ∈ (sels.map doc.queryAll).flatten, doc.accepts (some el) e = false)
    (hd : o.anchorRect = none) :
    getAnchorEl doc reg (some el) obj1 = none ∧
    getAnchorEl doc reg (some el) obj2 = none ∧
    getAnchorEl doc reg (some el) obj3 = none ∧
    getPixelValue env o = .raw o.fallback := by
  refine ⟨?_, ?_, ?_, ?_⟩
  · simp [getAnchorEl, ha1, jsTruthy, ha2, ha3, validatedForPositioning]
  · by_cases hcp : cp = ""
    · subst hcp
      simp [getAnchorEl, hb1, hb2, jsTruthy, validatedForPositioning]
    · simp [getAnchorEl, hb1, hb2, jsTruthy, hcp, hb3, validatedForPositioning]
  · simp [getAnchorEl, hc1, jsTruthy, hc2, hc3, validatedForPositioning,
      List.find?_eq_none, hc4]
    intro a ha e he
    exact hc4 e (List.mem_flatten.mpr ⟨doc.queryAll a, List.mem_map_of_mem _ ha, he⟩)
  · rcases o with ⟨te, tp, ar, asd, asz, fbk⟩
    cases hd
    cases te <;> rfl

/-- C7 — witness: a reference to an undeclared name, a reference whose custom
property reads back empty, a reference whose only candidate is rejected, and
a rect-less resolution, all at concrete inputs. -/
theorem C7_unresolved_binding_null_and_fallback_witness :
    getAnchorEl ⟨fun _ => [⟨7, [], [], false, 0, 0, 0, 0⟩], fun _ _ => false⟩
      [("--other", ["#a"])] (some ⟨0, [], [], false, 0, 0, 0, 0⟩)
      { anchorName := some "--my", key := .gen 0 } = none ∧
    getAnchorEl ⟨fun _ => [⟨7, [], [], false, 0, 0, 0, 0⟩], fun _ _ => false⟩
      [("--other", ["#a"])] (some ⟨0, [], [], false, 0, 0, 0, 0⟩)
      { customPropName := some "--var", key := .gen 1 } = none ∧
    getAnchorEl ⟨fun _ => [⟨7, [], [], false, 0, 0, 0, 0⟩], fun _ _ => false⟩
      [("--other", ["#a"])] (some ⟨0, [], [], false, 0, 0, 0, 0⟩)
      { anchorName := some "--other", key := .gen 2 } = none ∧
    getPixelValue ⟨fun e => e⟩
      { targetEl := some ⟨0, [], [], false, 0, 0, 0, 0⟩, targetProperty := "top",
        anchorRect := none, anchorSide := some (AnchorSide.kw "bottom"),
        anchorSize := none, fallback := "42px" } = .raw "42px" := by
  have h := C7_unresolved_binding_null_and_fallback
    ⟨fun _ => [⟨7, [], [], false, 0, 0, 0, 0⟩], fun _ _ => false⟩
    [("--other", ["#a"])] ⟨0, [], [], false, 0, 0, 0, 0⟩
    { anchorName := some "--my", key := .gen 0 }
    { customPropName := some "--var", key := .gen 1 }
    { anchorName := some "--other", key := .gen 2 }
    "--my" "--other" "--var" ["#a"] ⟨fun e => e⟩
    { targetEl := some ⟨0, [], [], false, 0, 0, 0, 0⟩, targetProperty := "top",
      anchorRect := none, anchorSide := some (AnchorSide.kw "bottom"),
      anchorSize := none, fallback := "42px" }
    rfl (by decide) rfl rfl rfl (by simp [getCSSPropertyValue]) rfl (by decide)
    rfl (by intro e he; rfl) rfl
  exact h

/-- the `normal`-order loop characterised by the index of the first fitting
block: the final marker is the uuid at `findIdx` (none when no block fits,
since `l[l.length]?` is `none`), and exactly the blocks up to and including
the first fitting one are measured. -/
theorem tryBlocksNormal_eq_findIdx (oracle : Option String → Measurement)
    (l : List String) :
    tryBlocksNormal oracle l =
      (l[(l.findIdx fun u => noSideOverflows (oracle (some u)).overflow)]?,
        (l.take ((l.findIdx fun u => noSideOverflows (oracle (some u)).overflow) + 1)).map some) := by
  induction l with
  | nil => simp [tryBlocksNormal]
  | cons u rest ih =>
    by_cases h : noSideOverflows (oracle (some u)).overflow
    · simp [tryBlocksNormal, h, List.findIdx_cons]
    · cases rest with
      | nil => simp [tryBlocksNormal, h, List.findIdx_cons]
      | cons v vs =>
        rw [tryBlocksNormal]
        simp only [h, if_false, ih, List.findIdx_cons, cond_false]
        simp [h]

/-- C5 — confirmed. Under `order = normal`, whenever the default layout
overflows (and the callback is not busy), the fallback loop measures exactly
the blocks up to and including the first block `k` whose application leaves
no overflowing edge (`findIdx`), sets that block's marker, and evaluates no
block after `k`; if no block qualifies, every block is measured and the
marker ends cleared (`l[l.length]? = none`), reverting to the default
declarations. -/
theorem C5_normal_order_first_fit (oracle : Option String → Measurement)
    (uuids : List String) (marker : Option String)
    (hne : uuids ≠ [])
    (hdef : noSideOverflows (oracle none).overflow = false) :
    fallbackCallback oracle uuids "normal" false marker =
      { checking := false
        marker := uuids[(uuids.findIdx fun u => noSideOverflows (oracle (some u)).overflow)]?
        measured := none ::
          ((uuids.take ((uuids.findIdx fun u => noSideOverflows (oracle (some u)).overflow) + 1)).map some) } := by
  simp [fallbackCallback, hdef, tryBlocksNormal_eq_findIdx, hne]

/-- C5 — witness: three blocks where the default and block `a` overflow and
block `b` fits: block `b`'s marker is set, block `c` is never measured. -/
theorem C5_normal_order_first_fit_witness :
    fallbackCallback
      (fun m =>
        if m = some "b" then ⟨⟨0, 0, 0, 0⟩, 10, 10⟩ else ⟨⟨1, 0, 0, 0⟩, 10, 10⟩)
      ["a", "b", "c"] "normal" false none =
      { checking := false, marker := some "b",
        measured := [none, some "a", some "b"] } := by
  have h := C5_normal_order_first_fit
    (fun m =>
      if m = some "b" then ⟨⟨0, 0, 0, 0⟩, 10, 10⟩ else ⟨⟨1, 0, 0, 0⟩, 10, 10⟩)
    ["a", "b", "c"] none (by simp)
    (by simp [noSideOverflows])
  rw [h]
  simp [noSideOverflows, List.findIdx_cons,
    show ((1 : ℚ) ≤ 0) = False from by norm_num]

/-- the stable descending insertion never produces the empty list. -/
theorem sortDescInsert_ne_nil (key : α → ℚ) (x : α) (l : List α) :
    sortDescInsert key x l ≠ [] := by
  cases l with
  | nil => simp [sortDescInsert]
  | cons y ys =>
    rw [sortDescInsert]
    split <;> simp

/-- the head of the stable descending sort is the first element attaining the
maximum key. -/
theorem head?_sortByDesc (key : α → ℚ) (l : List α) :
    (sortByDesc key l).head? = firstArgmax key l := by
  induction l with
  | nil => rfl
  | cons x xs ih =>
    rw [sortByDesc, firstArgmax]
    cases hs : sortByDesc key xs with
    | nil =>
      have hx : xs = [] := by
        cases xs with
        | nil => rfl
        | cons a as => exact absurd hs (sortDescInsert_ne_nil _ _ _)
      subst hx
      simp [sortDescInsert, firstArgmax]
    | cons m rest =>
      rw [hs] at ih
      simp only [List.head?] at ih
      rw [← ih]
      rw [sortDescInsert]
      by_cases hk : key m > key x
      · rw [if_pos hk]
        have : ¬ key x ≥ key m := not_le.mpr hk
        simp [this]
      · rw [if_neg hk]
        have : key x ≥ key m := le_of_not_lt hk
        simp [this]

/-- a nonempty list always has a first argmax. -/
theorem firstArgmax_isSome (key : α → ℚ) (l : List α) (h : l ≠ []) :
    (firstArgmax key l).isSome := by
  cases l with
  | nil => exact absurd rfl h
  | cons x xs =>
    rw [firstArgmax]
    cases firstArgmax key xs with
    | none => rfl
    | some m => by_cases hk : key x ≥ key m <;> simp [hk]

/-- C10 — confirmed. Under the `most-width`/`most-inline-size`/`most-height`/
`most-block-size` strategies, whenever the default layout overflows (and the
callback is not busy), every block is measured and the marker is always set
to the uuid of the block whose visible size along the relevant axis is
maximal, ties broken by first occurrence (the head of the stable descending
sort is the first argmax); the marker is never cleared back to the default
declarations, even when every block overflows. -/
theorem C10_most_strategy_first_argmax (oracle : Option String → Measurement)
    (fallbacks : List String) (order : String) (marker : Option String)
    (hne : fallbacks ≠ [])
    (hdef : noSideOverflows (oracle none).overflow = false)
    (hord : order ∈ ["most-width", "most-inline-size", "most-height", "most-block-size"]) :
    fallbackCallback oracle fallbacks order false marker =
      { checking := false
        marker := (firstArgmax (fun v => v.getKey (sorterKey order))
            (visibleAreas oracle fallbacks)).map (fun v => v.uuid)
        measured := none :: fallbacks.map some } ∧
    (fallbackCallback oracle fallbacks order false marker).marker ≠ none := by
  have horder : order ≠ "normal" := by
    intro hn
    subst hn
    exact absurd hord (by decide)
  have hmain : fallbackCallback oracle fallbacks order false marker =
      { checking := false
        marker := (firstArgmax (fun v => v.getKey (sorterKey order))
            (visibleAreas oracle fallbacks)).map (fun v => v.uuid)
        measured := none :: fallbacks.map some } := by
    simp [fallbackCallback, hdef, horder, head?_sortByDesc]
  refine ⟨hmain, ?_⟩
  rw [hmain]
  have hva : visibleAreas oracle fallbacks ≠ [] := by
    simpa [visibleAreas] using hne
  have h2 := firstArgmax_isSome (fun v => v.getKey (sorterKey order)) _ hva
  cases hfa : firstArgmax (fun v => v.getKey (sorterKey order))
      (visibleAreas oracle fallbacks) with
  | none => rw [hfa] at h2; simp at h2
  | some v => simp [hfa]

/-- C10 — witness: two blocks that both overflow at the top under
`most-height`; the marker is still set, to block `b`, whose visible height
(9) beats block `a`'s (8); nothing reverts to the default box. -/
theorem C10_most_strategy_first_argmax_witness :
    fallbackCallback
      (fun m =>
        if m = some "a" then ⟨⟨2, 0, 0, 0⟩, 10, 10⟩
        else if m = some "b" then ⟨⟨1, 0, 0, 0⟩, 10, 10⟩
        else ⟨⟨3, 0, 0, 0⟩, 10, 10⟩)
      ["a", "b"] "most-height" false none =
      { checking := false, marker := some "b",
        measured := [none, some "a", some "b"] } := by
  have h := C10_most_strategy_first_argmax
    (fun m =>
      if m = some "a" then ⟨⟨2, 0, 0, 0⟩, 10, 10⟩
      else if m = some "b" then ⟨⟨1, 0, 0, 0⟩, 10, 10⟩
      else ⟨⟨3, 0, 0, 0⟩, 10, 10⟩)
    ["a", "b"] "most-height" none (by simp)
    (by simp [noSideOverflows]) (by decide)
  rw [h.1]
  simp [visibleAreas, firstArgmax, VisibleSize.getKey, sorterKey,
    show (0 : ℚ) ⊔ (2 : ℚ) = 2 from by norm_num,
    show (0 : ℚ) ⊔ (1 : ℚ) = 1 from by norm_num,
    show (0 : ℚ) ⊔ (0 : ℚ) = 0 from by norm_num,
    show (10 : ℚ) - 2 - 0 = 8 from by norm_num,
    show (10 : ℚ) - 1 - 0 = 9 from by norm_num,
    show (10 : ℚ) - 0 - 0 = 10 from by norm_num,
    show ((8 : ℚ) ≥ 9) = False from by norm_num]

/-- cons-step of association-list lookup, in `if` form. -/
theorem lookup_cons_ite (n k : String) (v : α) (rest : List (String × α)) :
    List.lookup n ((k, v) :: rest) = if n = k then some v else List.lookup n rest := by
  rw [List.lookup]
  by_cases h : n = k
  · simp [h]
  · simp [beq_eq_false_iff_ne.mpr h, h]

/-- `upsert` stores the assigned value under its key. -/
theorem lookup_upsert_self (l : List (String × α)) (k : String) (v : α) :
    (upsert l k v).lookup k = some v := by
  induction l with
  | nil => simp [upsert, lookup_cons_ite]
  | cons e rest ih =>
    obtain ⟨k₁, v₁⟩ := e
    rw [upsert]
    by_cases h : k₁ = k
    · subst h
      simp [lookup_cons_ite]
    · simp [lookup_cons_ite, Ne.symm h, ih, h]

/-- `upsert` leaves other keys' lookups unchanged. -/
theorem lookup_upsert_ne (l : List (String × α)) (k k' : String) (v : α)
    (h : k' ≠ k) : (upsert l k v).lookup k' = l.lookup k' := by
  induction l with
  | nil => simp [upsert, lookup_cons_ite, h]
  | cons e rest ih =>
    obtain ⟨k₁, v₁⟩ := e
    rw [upsert]
    by_cases h₁ : k₁ = k
    · subst h₁
      simp [lookup_cons_ite, h]
    · by_cases h₂ : k' = k₁ <;>
        simp [lookup_cons_ite, h₁, h₂, ih]

/-- a present key stays present through `upsert`. -/
theorem lookup_isSome_upsert (l : List (String × α)) (k k' : String) (v : α)
    (h : (l.lookup k').isSome) : ((upsert l k v).lookup k').isSome := by
  by_cases hk : k' = k
  · subst hk
    simp [lookup_upsert_self]
  · rwa [lookup_upsert_ne l k k' v hk]

/-- a successful lookup extends through list append. -/
theorem lookup_append_some (l l₂ : List (String × α)) (n : String) (v : α)
    (h : l.lookup n = some v) : (l ++ l₂).lookup n = some v := by
  induction l with
  | nil => simp at h
  | cons e rest ih =>
    obtain ⟨k₁, v₁⟩ := e
    by_cases hk : n = k₁
    · subst hk
      simp [lookup_cons_ite] at h ⊢
      exact h
    · simp [lookup_cons_ite, hk] at h ⊢
      exact ih h

/-- registry extension is reflexive. -/
theorem regExtends_refl (r : List (String × List String)) : RegExtends r r :=
  fun n sels h => ⟨[], by simpa using h⟩

/-- registry extension is transitive. -/
theorem regExtends_trans {r₁ r₂ r₃ : List (String × List String)}
    (h₁ : RegExtends r₁ r₂) (h₂ : RegExtends r₂ r₃) : RegExtends r₁ r₃ := by
  intro n sels h
  obtain ⟨e₁, he₁⟩ := h₁ n sels h
  obtain ⟨e₂, he₂⟩ := h₂ n (sels ++ e₁) he₁
  exact ⟨e₁ ++ e₂, by simpa [List.append_assoc] using he₂⟩

/-- `pushSelector` only ever extends the registry. -/
theorem regExtends_pushSelector (r : List (String × List String))
    (name sel : String) : RegExtends r (pushSelector r name sel) := by
  intro n sels₀ h
  rw [pushSelector]
  cases hl : r.lookup name with
  | some sels =>
    by_cases hn : n = name
    · subst hn
      rw [h] at hl
      cases hl
      exact ⟨[sel], lookup_upsert_self ..⟩
    · exact ⟨[], by rw [lookup_upsert_ne r name n _ hn, h, List.append_nil]⟩
  | none =>
    by_cases hn : n = name
    · subst hn
      rw [h] at hl
      cases hl
    · exact ⟨[], by rw [lookup_append_some r _ n sels₀ h, List.append_nil]⟩

/-- table-key preservation is transitive. -/
theorem tableKeysKept_trans {t₁ t₂ t₃ : List (String × AnchorFunction)}
    (h₁ : TableKeysKept t₁ t₂) (h₂ : TableKeysKept t₂ t₃) : TableKeysKept t₁ t₃ :=
  fun p h => h₂ p (h₁ p h)

/-- C1 state growth through one pass-1 value node. -/
theorem pass1ValueNode_grows (sel prop : String) (acc : WalkAcc)
    (node : ValueNode) :
    (pass1ValueNode sel prop acc node).1.st.anchorNames = acc.st.anchorNames ∧
    TableKeysKept acc.st.customPropAssignments
      (pass1ValueNode sel prop acc node).1.st.customPropAssignments := by
  cases node with
  | anchorFn children =>
    rw [pass1ValueNode]
    split_ifs <;>
      exact ⟨rfl, fun p h =>
        by first
          | exact h
          | exact lookup_isSome_upsert _ _ _ _ h⟩
  | varNode fc => exact ⟨rfl, fun p h => h⟩
  | identNode n => exact ⟨rfl, fun p h => h⟩
  | otherNode t => exact ⟨rfl, fun p h => h⟩

/-- C1 state growth through the value nodes of a declaration. -/
theorem pass1Value_grows (sel prop : String) (acc : WalkAcc)
    (value : List ValueNode) :
    (pass1Value sel prop acc value).1.st.anchorNames = acc.st.anchorNames ∧
    TableKeysKept acc.st.customPropAssignments
      (pass1Value sel prop acc value).1.st.customPropAssignments := by
  induction value generalizing acc with
  | nil => exact ⟨rfl, fun p h => h⟩
  | cons node rest ih =>
    rw [pass1Value]
    obtain ⟨h1, h2⟩ := pass1ValueNode_grows sel prop acc node
    obtain ⟨h3, h4⟩ := ih (pass1ValueNode sel prop acc node).1
    exact ⟨h3.trans h1, tableKeysKept_trans h2 h4⟩

/-- the `anchor-name` handler only extends the registry and leaves the side
table unchanged. -/
theorem anchorNameStep_grows (sel : String) (acc : WalkAcc) (decl : Declaration) :
    RegExtends acc.st.anchorNames (anchorNameStep sel acc decl).st.anchorNames ∧
    (anchorNameStep sel acc decl).st.customPropAssignments =
      acc.st.customPropAssignments := by
  rw [anchorNameStep]
  split_ifs with h
  · cases firstNodeName decl.value with
    | none => exact ⟨regExtends_refl _, rfl⟩
    | some name =>
      dsimp only
      by_cases hn : name ≠ ""
      · rw [if_pos hn]
        exact ⟨regExtends_pushSelector _ name sel, rfl⟩
      · rw [if_neg hn]
        exact ⟨regExtends_refl _, rfl⟩
  · exact ⟨regExtends_refl _, rfl⟩

/-- the `position-fallback` handler leaves the module state unchanged. -/
theorem fallbackNameStep_st (sel : String) (acc : WalkAcc) (decl : Declaration) :
    (fallbackNameStep sel acc decl).st = acc.st := by
  rw [fallbackNameStep]
  split_ifs with h
  · cases firstNodeName decl.value with
    | none => rfl
    | some name => by_cases hn : name ≠ "" <;> simp [hn]
  · rfl

/-- C1 state growth through one declaration. -/
theorem pass1Decl_grows (sel : String) (acc : WalkAcc) (decl : Declaration) :
    RegExtends acc.st.anchorNames (pass1Decl sel acc decl).1.st.anchorNames ∧
    TableKeysKept acc.st.customPropAssignments
      (pass1Decl sel acc decl).1.st.customPropAssignments := by
  rw [pass1Decl]
  obtain ⟨h1, h2⟩ := anchorNameStep_grows sel acc decl
  have h3 := fallbackNameStep_st sel (anchorNameStep sel acc decl) decl
  obtain ⟨h4, h5⟩ :=
    pass1Value_grows sel decl.property
      (fallbackNameStep sel (anchorNameStep sel acc decl) decl) decl.value
  refine ⟨?_, ?_⟩
  · have : RegExtends acc.st.anchorNames
        (fallbackNameStep sel (anchorNameStep sel acc decl) decl).st.anchorNames := by
      rw [h3]
      exact h1
    simpa [h4] using this
  · have h2' : TableKeysKept acc.st.customPropAssignments
        (fallbackNameStep sel (anchorNameStep sel acc decl) decl).st.customPropAssignments := by
      rw [h3, h2]
      exact fun p h => h
    exact tableKeysKept_trans h2' h5

/-- C1 state growth through a rule's declarations. -/
theorem pass1Decls_grows (sel : String) (acc : WalkAcc)
    (decls : List Declaration) :
    RegExtends acc.st.anchorNames (pass1Decls sel acc decls).1.st.anchorNames ∧
    TableKeysKept acc.st.customPropAssignments
      (pass1Decls sel acc decls).1.st.customPropAssignments := by
  induction decls generalizing acc with
  | nil => exact ⟨regExtends_refl _, fun p h => h⟩
  | cons d ds ih =>
    rw [pass1Decls]
    obtain ⟨h1, h2⟩ := pass1Decl_grows sel acc d
    obtain ⟨h3, h4⟩ := ih (pass1Decl sel acc d).1
    exact ⟨regExtends_trans h1 h3, tableKeysKept_trans h2 h4⟩

/-- C1 state growth through one top-level node. -/
theorem pass1TopNode_grows (acc : WalkAcc) (t : TopNode) :
    RegExtends acc.st.anchorNames (pass1TopNode acc t).1.st.anchorNames ∧
    TableKeysKept acc.st.customPropAssignments
      (pass1TopNode acc t).1.st.customPropAssignments := by
  cases t with
  | rule sel decls =>
    rw [pass1TopNode]
    exact pass1Decls_grows sel acc decls
  | fallbackAtRule name tries =>
    rw [pass1TopNode]
    dsimp only
    split_ifs <;> exact ⟨regExtends_refl _, fun p h => h⟩
  | otherNode txt => exact ⟨regExtends_refl _, fun p h => h⟩

/-- C1 state growth through a stylesheet's top-level nodes. -/
theorem pass1TopNodes_grows (acc : WalkAcc) (ts : List TopNode) :
    RegExtends acc.st.anchorNames (pass1TopNodes acc ts).1.st.anchorNames ∧
    TableKeysKept acc.st.customPropAssignments
      (pass1TopNodes acc ts).1.st.customPropAssignments := by
  induction ts generalizing acc with
  | nil => exact ⟨regExtends_refl _, fun p h => h⟩
  | cons t ts ih =>
    rw [pass1TopNodes]
    obtain ⟨h1, h2⟩ := pass1TopNode_grows acc t
    obtain ⟨h3, h4⟩ := ih (pass1TopNode acc t).1
    exact ⟨regExtends_trans h1 h3, tableKeysKept_trans h2 h4⟩

/-- C1 state growth through one stylesheet. -/
theorem pass1Sheet_grows (acc : WalkAcc) (sheet : StyleData) :
    RegExtends acc.st.anchorNames (pass1Sheet acc sheet).1.st.anchorNames ∧
    TableKeysKept acc.st.customPropAssignments
      (pass1Sheet acc sheet).1.st.customPropAssignments := by
  rw [pass1Sheet]
  obtain ⟨h1, h2⟩ := pass1TopNodes_grows { acc with changed := false } sheet.css
  split_ifs <;> exact ⟨h1, h2⟩

/-- C1 state growth through all stylesheets of one invocation. -/
theorem pass1Sheets_grows (acc : WalkAcc) (sheets : List StyleData) :
    RegExtends acc.st.anchorNames (pass1Sheets acc sheets).1.st.anchorNames ∧
    TableKeysKept acc.st.customPropAssignments
      (pass1Sheets acc sheets).1.st.customPropAssignments := by
  induction sheets generalizing acc with
  | nil => exact ⟨regExtends_refl _, fun p h => h⟩
  | cons s ss ih =>
    rw [pass1Sheets]
    obtain ⟨h1, h2⟩ := pass1Sheet_grows acc s
    obtain ⟨h3, h4⟩ := ih (pass1Sheet acc s).1
    exact ⟨regExtends_trans h1 h3, tableKeysKept_trans h2 h4⟩

/-- C1 — counterexample. The claim states that no anchor-name entry recorded
during one `parseCSS` call is visible during a later call on independent
input. In the code `anchorNames` is a module-level object that is never
cleared: a first call that parses `#a1 { anchor-name: --my }` leaves
`--my ↦ ["#a1"]` in the registry, and a second, independent call that parses
`#f1 { top: anchor(--my bottom) }` then binds the reference through the
leaked entry (`anchorEl` is the `#a1` element), whereas from a fresh module
state the same call leaves the binding null. -/
theorem C1_counterexample :
    ((parseCSS
        ⟨fun sel => if sel = "#a1" then [⟨1, [], [], false, 0, 0, 0, 0⟩] else [],
          fun _ _ => true⟩
        ParseState.empty
        [{ css := [.rule "#a1" [⟨"anchor-name", [.identNode "--my"]⟩]],
           changed := false }]).2.2.anchorNames.lookup "--my" = some ["#a1"]) ∧
    ((parseCSS
        ⟨fun sel => if sel = "#a1" then [⟨1, [], [], false, 0, 0, 0, 0⟩] else [],
          fun _ _ => true⟩
        (parseCSS
          ⟨fun sel => if sel = "#a1" then [⟨1, [], [], false, 0, 0, 0, 0⟩] else [],
            fun _ _ => true⟩
          ParseState.empty
          [{ css := [.rule "#a1" [⟨"anchor-name", [.identNode "--my"]⟩]],
             changed := false }]).2.2
        [{ css := [.rule "#f1" [⟨"top", [.anchorFn [.ident "--my", .ident "bottom"]]⟩]],
           changed := false }]).1 =
      [("#f1",
        { declarations := some [("top",
            { anchorEl := some (some ⟨1, [], [], false, 0, 0, 0, 0⟩),
              anchorName := some "--my",
              anchorEdge := some (.kw "bottom"),
              fallbackValue := "0px",
              customPropName := none,
              key := .gen 0 })],
          fallbacks := none })]) ∧
    ((parseCSS
        ⟨fun sel => if sel = "#a1" then [⟨1, [], [], false, 0, 0, 0, 0⟩] else [],
          fun _ _ => true⟩
        ParseState.empty
        [{ css := [.rule "#f1" [⟨"top", [.anchorFn [.ident "--my", .ident "bottom"]]⟩]],
           changed := false }]).1 =
      [("#f1",
        { declarations := some [("top",
            { anchorEl := some none,
              anchorName := some "--my",
              anchorEdge := some (.kw "bottom"),
              fallbackValue := "0px",
              customPropName := none,
              key := .gen 0 })],
          fallbacks := none })]) := by
  refine ⟨by decide, by decide, by decide⟩

/-- C1 — amended claim, proved: the `anchorNames` registry and the
`customPropAssignments` side table are module-level state threaded across
`parseCSS` invocations and are never cleared or reset between runs: every
registry entry present before a call survives the call with its recorded
selector list intact (possibly extended), and every side-table key present
before a call is still assigned after it — so entries recorded during a
first call remain visible during any later call. -/
theorem C1_amended_registry_persists (doc : Doc) (st : ParseState)
    (styleData : List StyleData) (name prop : String) (sels : List String)
    (h1 : st.anchorNames.lookup name = some sels)
    (h2 : (st.customPropAssignments.lookup prop).isSome) :
    (∃ extra, (parseCSS doc st styleData).2.2.anchorNames.lookup name =
      some (sels ++ extra)) ∧
    ((parseCSS doc st styleData).2.2.customPropAssignments.lookup prop).isSome := by
  obtain ⟨hr, ht⟩ := pass1Sheets_grows (pass1Start st) styleData
  exact ⟨hr name sels h1, ht prop h2⟩

/-- C1 — witness for the amended claim: a state holding one registry entry
and one side-table assignment keeps both across a parse of a fresh
stylesheet. -/
theorem C1_amended_registry_persists_witness :
    (∃ extra,
      (parseCSS ⟨fun _ => [], fun _ _ => true⟩
        { anchorNames := [("--my", ["#a1"])],
          customPropAssignments := [("--c", { fallbackValue := "0px", key := .gen 0 })],
          counter := 1 }
        [{ css := [.rule "#z" [⟨"color", [.identNode "red"]⟩]], changed := false }]).2.2.anchorNames.lookup "--my" =
        some (["#a1"] ++ extra)) ∧
    ((parseCSS ⟨fun _ => [], fun _ _ => true⟩
        { anchorNames := [("--my", ["#a1"])],
          customPropAssignments := [("--c", { fallbackValue := "0px", key := .gen 0 })],
          counter := 1 }
        [{ css := [.rule "#z" [⟨"color", [.identNode "red"]⟩]], changed := false }]).2.2.customPropAssignments.lookup "--c").isSome := by
  exact C1_amended_registry_persists ⟨fun _ => [], fun _ _ => true⟩
    { anchorNames := [("--my", ["#a1"])],
      customPropAssignments := [("--c", { fallbackValue := "0px", key := .gen 0 })],
      counter := 1 }
    [{ css := [.rule "#z" [⟨"color", [.identNode "red"]⟩]], changed := false }]
    "--my" "--c" ["#a1"] (by decide) (by decide)

/-- membership in an `upsert` result comes from the new binding or the old
list. -/
theorem mem_upsert (l : List (String × α)) (k : String) (v : α) (e : String × α)
    (h : e ∈ upsert l k v) : e = (k, v) ∨ e ∈ l := by
  induction l with
  | nil =>
    simp [upsert] at h
    exact Or.inl h
  | cons e₁ rest ih =>
    obtain ⟨k₁, v₁⟩ := e₁
    rw [upsert] at h
    split_ifs at h
    · rcases List.mem_cons.mp h with h | h
      · exact Or.inl h
      · exact Or.inr (List.mem_cons_of_mem _ h)
    · rcases List.mem_cons.mp h with h | h
      · exact Or.inr (h ▸ List.mem_cons_self _ _)
      · rcases ih h with h | h
        · exact Or.inl h
        · exact Or.inr (List.mem_cons_of_mem _ h)

/-- a value node that is not an anchor call passes through pass 1 untouched. -/
theorem pass1ValueNode_id (sel prop : String) (acc : WalkAcc) (node : ValueNode)
    (h : node.isAnchorCall = false) :
    pass1ValueNode sel prop acc node = (acc, node) := by
  cases node with
  | anchorFn children => simp [ValueNode.isAnchorCall] at h
  | varNode fc => rfl
  | identNode n => rfl
  | otherNode t => rfl

/-- a declaration value without anchor calls passes through pass 1 untouched. -/
theorem pass1Value_id (sel prop : String) (acc : WalkAcc)
    (value : List ValueNode)
    (h : ∀ v ∈ value, v.isAnchorCall = false) :
    pass1Value sel prop acc value = (acc, value) := by
  induction value with
  | nil => rfl
  | cons node rest ih =>
    rw [pass1Value, pass1ValueNode_id sel prop acc node (h node (by simp))]
    rw [ih (fun v hv => h v (List.mem_cons_of_mem _ hv))]

/-- the `anchor-name` handler changes at most the registry. -/
theorem anchorNameStep_shape (sel : String) (acc : WalkAcc) (d : Declaration) :
    ∃ r, anchorNameStep sel acc d =
      { acc with st := { acc.st with anchorNames := r } } := by
  rw [anchorNameStep]
  split_ifs
  · cases firstNodeName d.value with
    | none => exact ⟨acc.st.anchorNames, rfl⟩
    | some name =>
      dsimp only
      split_ifs
      · exact ⟨pushSelector acc.st.anchorNames name sel, rfl⟩
      · exact ⟨acc.st.anchorNames, rfl⟩
  · exact ⟨acc.st.anchorNames, rfl⟩

/-- the `position-fallback` handler changes at most `fallbackNames`. -/
theorem fallbackNameStep_shape (sel : String) (acc : WalkAcc) (d : Declaration) :
    ∃ r, fallbackNameStep sel acc d = { acc with fallbackNames := r } := by
  rw [fallbackNameStep]
  split_ifs
  · cases firstNodeName d.value with
    | none => exact ⟨acc.fallbackNames, rfl⟩
    | some name =>
      dsimp only
      split_ifs
      · exact ⟨upsert acc.fallbackNames sel name, rfl⟩
      · exact ⟨acc.fallbackNames, rfl⟩
  · exact ⟨acc.fallbackNames, rfl⟩

/-- a `@try` declaration without an anchor-call head stores its literal text
and consumes no uuid. -/
theorem parseTryDecl_noAnchor (c : ℕ) (b : TryBlock) (d : Declaration)
    (h : ∀ v ∈ d.value, v.isAnchorCall = false) :
    parseTryDecl c b d = (c, upsert b d.property (.lit (generateValue d.value))) := by
  rw [parseTryDecl]
  cases hv : d.value with
  | nil => rfl
  | cons v vs =>
    have : v.isAnchorCall = false := h v (by simp [hv])
    cases v with
    | anchorFn children => simp [ValueNode.isAnchorCall] at this
    | varNode fc => cases fc <;> rfl
    | identNode n => rfl
    | otherNode t => rfl

/-- a `@try` block without anchor calls parses to its literal block and
consumes no uuid (so the result does not depend on the counter). -/
theorem parseTryBlock_noAnchor (c : ℕ) (decls : List Declaration)
    (h : ∀ d ∈ decls, ∀ v ∈ d.value, v.isAnchorCall = false) :
    parseTryBlock c decls = (c, tryLits decls) := by
  rw [parseTryBlock, tryLits]
  suffices haux : ∀ (ds : List Declaration) (b : TryBlock),
      (∀ d ∈ ds, ∀ v ∈ d.value, v.isAnchorCall = false) →
      ds.foldl (fun p decl => parseTryDecl p.1 p.2 decl) (c, b) =
        (c, ds.foldl (fun b₁ d => upsert b₁ d.property (.lit (generateValue d.value))) b) by
    exact haux decls [] h
  intro ds
  induction ds with
  | nil => intro b _; rfl
  | cons d rest ih =>
    intro b hds
    rw [List.foldl_cons, List.foldl_cons,
      parseTryDecl_noAnchor c b d (hds d (by simp))]
    exact ih _ (fun d₁ hd₁ => hds d₁ (List.mem_cons_of_mem _ hd₁))

/-- the literal-only block really holds only literals. -/
theorem tryLits_allLit (decls : List Declaration) :
    TryBlock.allLit (tryLits decls) = true := by
  rw [tryLits]
  suffices haux : ∀ (ds : List Declaration) (b : TryBlock), TryBlock.allLit b = true →
      TryBlock.allLit
        (ds.foldl (fun b₁ d => upsert b₁ d.property (.lit (generateValue d.value))) b) = true by
    exact haux decls [] rfl
  intro ds
  induction ds with
  | nil => intro b hb; exact hb
  | cons d rest ih =>
    intro b hb
    rw [List.foldl_cons]
    refine ih _ ?_
    rw [TryBlock.allLit, List.all_eq_true]
    intro e he
    rcases mem_upsert _ _ _ _ he with h | h
    · subst h
      rfl
    · rw [TryBlock.allLit, List.all_eq_true] at hb
      exact hb e h

/-- `@try` blocks of a no-anchor at-rule parse to the literal blocks and
consume no uuid. -/
theorem parseTryBlocks_noAnchor (c : ℕ) (tries : List (List Declaration))
    (h : ∀ ds ∈ tries, ∀ d ∈ ds, ∀ v ∈ d.value, v.isAnchorCall = false) :
    parseTryBlocks c tries = (c, tries.map tryLits) := by
  rw [parseTryBlocks]
  suffices haux : ∀ (ts : List (List Declaration)) (bs : List TryBlock),
      (∀ ds ∈ ts, ∀ d ∈ ds, ∀ v ∈ d.value, v.isAnchorCall = false) →
      ts.foldl (fun p decls =>
          let r := parseTryBlock p.1 decls
          (r.1, p.2 ++ [r.2])) (c, bs) =
        (c, bs ++ ts.map tryLits) by
    simpa using haux tries [] h
  intro ts
  induction ts with
  | nil => intro bs _; simp
  | cons ds rest ih =>
    intro bs hts
    rw [List.foldl_cons]
    simp only [parseTryBlock_noAnchor c ds (hts ds (by simp))]
    rw [ih _ (fun ds₁ hd => hts ds₁ (List.mem_cons_of_mem _ hd))]
    simp

/-- pass 1 never reads the `anchorNames` registry: running a value node from
a state that differs only in the registry gives the same result up to the
registry. -/
theorem pass1ValueNode_reg (sel prop : String) (acc : WalkAcc)
    (r : List (String × List String)) (node : ValueNode) :
    ∃ r₂, pass1ValueNode sel prop
        { acc with st := { acc.st with anchorNames := r } } node =
      ({ (pass1ValueNode sel prop acc node).1 with
          st := { (pass1ValueNode sel prop acc node).1.st with anchorNames := r₂ } },
        (pass1ValueNode sel prop acc node).2) := by
  cases node with
  | anchorFn children =>
    rw [pass1ValueNode, pass1ValueNode]
    split_ifs <;> exact ⟨r, rfl⟩
  | varNode fc => exact ⟨r, rfl⟩
  | identNode n => exact ⟨r, rfl⟩
  | otherNode t => exact ⟨r, rfl⟩

/-- registry-independence of pass 1 over a declaration's value nodes. -/
theorem pass1Value_reg (sel prop : String) (acc : WalkAcc)
    (r : List (String × List String)) (value : List ValueNode) :
    ∃ r₂, pass1Value sel prop
        { acc with st := { acc.st with anchorNames := r } } value =
      ({ (pass1Value sel prop acc value).1 with
          st := { (pass1Value sel prop acc value).1.st with anchorNames := r₂ } },
        (pass1Value sel prop acc value).2) := by
  induction value generalizing acc r with
  | nil => exact ⟨r, rfl⟩
  | cons node rest ih =>
    obtain ⟨r₁, h₁⟩ := pass1ValueNode_reg sel prop acc r node
    obtain ⟨r₂, h₂⟩ := ih (pass1ValueNode sel prop acc node).1 r₁
    refine ⟨r₂, ?_⟩
    rw [pass1Value, h₁, pass1Value, h₂]

/-- registry behavior of the `anchor-name` handler: from a state differing
only in the registry it produces the same state with some registry. -/
theorem anchorNameStep_reg (sel : String) (acc : WalkAcc)
    (r : List (String × List String)) (d : Declaration) :
    ∃ r₂, anchorNameStep sel
        { acc with st := { acc.st with anchorNames := r } } d =
      { anchorNameStep sel acc d with
        st := { (anchorNameStep sel acc d).st with anchorNames := r₂ } } := by
  rw [anchorNameStep, anchorNameStep]
  split_ifs
  · cases firstNodeName d.value with
    | none => exact ⟨r, rfl⟩
    | some name =>
      dsimp only
      split_ifs
      · exact ⟨pushSelector r name sel, rfl⟩
      · exact ⟨r, rfl⟩
  · exact ⟨r, rfl⟩

/-- registry-independence of the `position-fallback` handler. -/
theorem fallbackNameStep_reg (sel : String) (acc : WalkAcc)
    (r : List (String × List String)) (d : Declaration) :
    fallbackNameStep sel
        { acc with st := { acc.st with anchorNames := r } } d =
      { fallbackNameStep sel acc d with
        st := { (fallbackNameStep sel acc d).st with anchorNames := r } } := by
  rw [fallbackNameStep, fallbackNameStep]
  split_ifs
  · cases firstNodeName d.value with
    | none => rfl
    | some name =>
      dsimp only
      split_ifs <;> rfl
  · rfl

/-- registry-independence of pass 1 over one declaration. -/
theorem pass1Decl_reg (sel : String) (acc : WalkAcc)
    (r : List (String × List String)) (d : Declaration) :
    ∃ r₂, pass1Decl sel
        { acc with st := { acc.st with anchorNames := r } } d =
      ({ (pass1Decl sel acc d).1 with
          st := { (pass1Decl sel acc d).1.st with anchorNames := r₂ } },
        (pass1Decl sel acc d).2) := by
  rw [pass1Decl, pass1Decl]
  obtain ⟨r₁, h₁⟩ := anchorNameStep_reg sel acc r d
  rw [h₁, fallbackNameStep_reg]
  obtain ⟨r₂, h₂⟩ :=
    pass1Value_reg sel d.property (fallbackNameStep sel (anchorNameStep sel acc d) d)
      r₁ d.value
  rw [h₂]
  exact ⟨r₂, rfl⟩

/-- registry-independence of pass 1 over a rule's declarations. -/
theorem pass1Decls_reg (sel : String) (acc : WalkAcc)
    (r : List (String × List String)) (decls : List Declaration) :
    ∃ r₂, pass1Decls sel
        { acc with st := { acc.st with anchorNames := r } } decls =
      ({ (pass1Decls sel acc decls).1 with
          st := { (pass1Decls sel acc decls).1.st with anchorNames := r₂ } },
        (pass1Decls sel acc decls).2) := by
  induction decls generalizing acc r with
  | nil => exact ⟨r, rfl⟩
  | cons d ds ih =>
    obtain ⟨r₁, h₁⟩ := pass1Decl_reg sel acc r d
    obtain ⟨r₂, h₂⟩ := ih (pass1Decl sel acc d).1 r₁
    refine ⟨r₂, ?_⟩
    rw [pass1Decls, h₁, pass1Decls, h₂]

/-- registry-independence of pass 1 over one top-level node. -/
theorem pass1TopNode_reg (acc : WalkAcc)
    (r : List (String × List String)) (t : TopNode) :
    ∃ r₂, pass1TopNode
        { acc with st := { acc.st with anchorNames := r } } t =
      ({ (pass1TopNode acc t).1 with
          st := { (pass1TopNode acc t).1.st with anchorNames := r₂ } },
        (pass1TopNode acc t).2) := by
  cases t with
  | rule sel decls =>
    obtain ⟨r₂, h₂⟩ := pass1Decls_reg sel acc r decls
    refine ⟨r₂, ?_⟩
    rw [pass1TopNode, h₂, pass1TopNode]
  | fallbackAtRule name tries =>
    rw [pass1TopNode, pass1TopNode]
    dsimp only
    split_ifs <;> exact ⟨r, rfl⟩
  | otherNode txt => exact ⟨r, rfl⟩

/-- registry-independence of pass 1 over a stylesheet's nodes. -/
theorem pass1TopNodes_reg (acc : WalkAcc)
    (r : List (String × List String)) (ts : List TopNode) :
    ∃ r₂, pass1TopNodes
        { acc with st := { acc.st with anchorNames := r } } ts =
      ({ (pass1TopNodes acc ts).1 with
          st := { (pass1TopNodes acc ts).1.st with anchorNames := r₂ } },
        (pass1TopNodes acc ts).2) := by
  induction ts generalizing acc r with
  | nil => exact ⟨r, rfl⟩
  | cons t ts ih =>
    obtain ⟨r₁, h₁⟩ := pass1TopNode_reg acc r t
    obtain ⟨r₂, h₂⟩ := ih (pass1TopNode acc t).1 r₁
    refine ⟨r₂, ?_⟩
    rw [pass1TopNodes, h₁, pass1TopNodes, h₂]

/-- registry-independence of pass 1 over one stylesheet record. -/
theorem pass1Sheet_reg (acc : WalkAcc)
    (r : List (String × List String)) (s : StyleData) :
    ∃ r₂, pass1Sheet
        { acc with st := { acc.st with anchorNames := r } } s =
      ({ (pass1Sheet acc s).1 with
          st := { (pass1Sheet acc s).1.st with anchorNames := r₂ } },
        (pass1Sheet acc s).2) := by
  obtain ⟨r₂, h₂⟩ := pass1TopNodes_reg { acc with changed := false } r s.css
  refine ⟨r₂, ?_⟩
  have h₂' : pass1TopNodes
      { { acc with st := { acc.st with anchorNames := r } } with changed := false } s.css =
      ({ (pass1TopNodes { acc with changed := false } s.css).1 with
          st := { (pass1TopNodes { acc with changed := false } s.css).1.st with
            anchorNames := r₂ } },
        (pass1TopNodes { acc with changed := false } s.css).2) := h₂
  rw [pass1Sheet, pass1Sheet, h₂']
  dsimp only
  cases hch : (pass1TopNodes { acc with changed := false } s.css).1.changed <;>
    simp [hch]

/-- registry-independence of pass 1 over all stylesheets: the registry is
write-only during the parse — starting from states differing only in the
registry, everything but the registry (and in particular the rewritten
stylesheet output) is identical. -/
theorem pass1Sheets_reg (acc : WalkAcc)
    (r : List (String × List String)) (sheets : List StyleData) :
    ∃ r₂, pass1Sheets
        { acc with st := { acc.st with anchorNames := r } } sheets =
      ({ (pass1Sheets acc sheets).1 with
          st := { (pass1Sheets acc sheets).1.st with anchorNames := r₂ } },
        (pass1Sheets acc sheets).2) := by
  induction sheets generalizing acc r with
  | nil => exact ⟨r, rfl⟩
  | cons s ss ih =>
    obtain ⟨r₁, h₁⟩ := pass1Sheet_reg acc r s
    obtain ⟨r₂, h₂⟩ := ih (pass1Sheet acc s).1 r₁
    refine ⟨r₂, ?_⟩
    rw [pass1Sheets, h₁, pass1Sheets, h₂]

/-- a declaration without anchor calls changes at most the registry and
`fallbackNames`, and passes through unrewritten. -/
theorem pass1Decl_noAnchor (sel : String) (acc : WalkAcc) (d : Declaration)
    (h : ∀ v ∈ d.value, v.isAnchorCall = false) :
    ∃ rN rF, pass1Decl sel acc d =
      ({ acc with
          st := { acc.st with anchorNames := rN }
          fallbackNames := rF }, d) := by
  obtain ⟨r₁, h₁⟩ := anchorNameStep_shape sel acc d
  obtain ⟨r₂, h₂⟩ := fallbackNameStep_shape sel (anchorNameStep sel acc d) d
  refine ⟨r₁, r₂, ?_⟩
  rw [pass1Decl, h₂, h₁]
  rw [pass1Value_id sel d.property _ d.value h]

/-- declarations without anchor calls change at most the registry and
`fallbackNames`, and pass through unrewritten. -/
theorem pass1Decls_noAnchor (sel : String) (acc : WalkAcc)
    (decls : List Declaration)
    (h : ∀ d ∈ decls, ∀ v ∈ d.value, v.isAnchorCall = false) :
    ∃ rN rF, pass1Decls sel acc decls =
      ({ acc with
          st := { acc.st with anchorNames := rN }
          fallbackNames := rF }, decls) := by
  induction decls generalizing acc with
  | nil => exact ⟨acc.st.anchorNames, acc.fallbackNames, rfl⟩
  | cons d ds ih =>
    obtain ⟨r₁, f₁, h₁⟩ := pass1Decl_noAnchor sel acc d (h d (by simp))
    obtain ⟨r₂, f₂, h₂⟩ :=
      ih ({ acc with
            st := { acc.st with anchorNames := r₁ }
            fallbackNames := f₁ })
        (fun d₁ hd v hv => h d₁ (List.mem_cons_of_mem _ hd) v hv)
    refine ⟨r₂, f₂, ?_⟩
    rw [pass1Decls, h₁, h₂]

/-- a top-level node without anchor calls changes at most the registry,
`fallbackNames` and `fallbacks` (keeping the latter literal-only), consumes
no uuid, leaves the side table and `changed` flag alone, and passes through
unrewritten. -/
theorem pass1TopNode_noAnchor (acc : WalkAcc) (t : TopNode)
    (h : t.hasAnchorCall = false) :
    ∃ rN rF rB, pass1TopNode acc t =
      ({ acc with
          st := { acc.st with anchorNames := rN }
          fallbackNames := rF
          fallbacks := rB }, t) ∧
      ((∀ e ∈ acc.fallbacks, ∀ b ∈ e.2, TryBlock.allLit b = true) →
        ∀ e ∈ rB, ∀ b ∈ e.2, TryBlock.allLit b = true) := by
  cases t with
  | rule sel decls =>
    have hd : ∀ d ∈ decls, ∀ v ∈ d.value, v.isAnchorCall = false := by
      simp only [TopNode.hasAnchorCall, List.any_eq_false] at h
      intro d hdm v hv
      have h₁ : d.value.any ValueNode.isAnchorCall = false := by
        simpa [Declaration.hasAnchorCall] using h d hdm
      rw [List.any_eq_false] at h₁
      simpa using h₁ v hv
    obtain ⟨rN, rF, hD⟩ := pass1Decls_noAnchor sel acc decls hd
    refine ⟨rN, rF, acc.fallbacks, ?_, fun hall => hall⟩
    rw [pass1TopNode, hD]
  | fallbackAtRule name tries =>
    have hd : ∀ ds ∈ tries, ∀ d ∈ ds, ∀ v ∈ d.value, v.isAnchorCall = false := by
      simp only [TopNode.hasAnchorCall, List.any_eq_false] at h
      intro ds hds d hdm v hv
      have h₁ : ds.any Declaration.hasAnchorCall = false := by
        simpa using h ds hds
      rw [List.any_eq_false] at h₁
      have h₂ : d.value.any ValueNode.isAnchorCall = false := by
        simpa [Declaration.hasAnchorCall] using h₁ d hdm
      rw [List.any_eq_false] at h₂
      simpa using h₂ v hv
    rw [pass1TopNode]
    by_cases hn : name ≠ ""
    · rw [if_pos hn, parseTryBlocks_noAnchor acc.st.counter tries hd]
      dsimp only
      cases tries with
      | nil =>
        refine ⟨acc.st.anchorNames, acc.fallbackNames, acc.fallbacks,
          rfl, fun hall => hall⟩
      | cons ds dss =>
        refine ⟨acc.st.anchorNames, acc.fallbackNames,
          upsert acc.fallbacks name ((ds :: dss).map tryLits), ?_, ?_⟩
        · simp
        · intro hall e he b hb
          rcases mem_upsert _ _ _ _ he with he₁ | he₁
          · subst he₁
            simp only at hb
            rcases List.mem_map.mp hb with ⟨ds₁, _, hds₁⟩
            rw [← hds₁]
            exact tryLits_allLit ds₁
          · exact hall e he₁ b hb
    · rw [if_neg hn]
      exact ⟨acc.st.anchorNames, acc.fallbackNames, acc.fallbacks,
        rfl, fun hall => hall⟩
  | otherNode txt =>
    exact ⟨acc.st.anchorNames, acc.fallbackNames, acc.fallbacks,
      rfl, fun hall => hall⟩

/-- top-level nodes without anchor calls change at most the registry,
`fallbackNames` and `fallbacks` (keeping the latter literal-only), and pass
through unrewritten. -/
theorem pass1TopNodes_noAnchor (acc : WalkAcc) (ts : List TopNode)
    (h : ∀ t ∈ ts, t.hasAnchorCall = false) :
    ∃ rN rF rB, pass1TopNodes acc ts =
      ({ acc with
          st := { acc.st with anchorNames := rN }
          fallbackNames := rF
          fallbacks := rB }, ts) ∧
      ((∀ e ∈ acc.fallbacks, ∀ b ∈ e.2, TryBlock.allLit b = true) →
        ∀ e ∈ rB, ∀ b ∈ e.2, TryBlock.allLit b = true) := by
  induction ts generalizing acc with
  | nil =>
    exact ⟨acc.st.anchorNames, acc.fallbackNames, acc.fallbacks, rfl,
      fun hall => hall⟩
  | cons t ts ih =>
    obtain ⟨rN₁, rF₁, rB₁, h₁, hall₁⟩ := pass1TopNode_noAnchor acc t (h t (by simp))
    obtain ⟨rN₂, rF₂, rB₂, h₂, hall₂⟩ :=
      ih ({ acc with
            st := { acc.st with anchorNames := rN₁ }
            fallbackNames := rF₁
            fallbacks := rB₁ })
        (fun t₁ ht => h t₁ (List.mem_cons_of_mem _ ht))
    refine ⟨rN₂, rF₂, rB₂, ?_, fun hall => hall₂ (hall₁ hall)⟩
    rw [pass1TopNodes, h₁, h₂]

/-- one stylesheet record without anchor calls passes through pass 1
unrewritten, with the per-sheet `changed` flag left false. -/
theorem pass1Sheet_noAnchor (acc : WalkAcc) (s : StyleData)
    (h : ∀ t ∈ s.css, t.hasAnchorCall = false) :
    ∃ rN rF rB, pass1Sheet acc s =
      ({ acc with
          st := { acc.st with anchorNames := rN }
          fallbackNames := rF
          fallbacks := rB
          changed := false }, s) ∧
      ((∀ e ∈ acc.fallbacks, ∀ b ∈ e.2, TryBlock.allLit b = true) →
        ∀ e ∈ rB, ∀ b ∈ e.2, TryBlock.allLit b = true) := by
  obtain ⟨rN, rF, rB, h₁, hall⟩ :=
    pass1TopNodes_noAnchor { acc with changed := false } s.css h
  refine ⟨rN, rF, rB, ?_, hall⟩
  have h₁' : pass1TopNodes { acc with changed := false } s.css =
      ({ acc with
          st := { acc.st with anchorNames := rN }
          fallbackNames := rF
          fallbacks := rB
          changed := false }, s.css) := h₁
  rw [pass1Sheet, h₁']
  simp

/-- stylesheets without anchor calls pass through pass 1 unrewritten; the
walk touches only the registry, `fallbackNames` and `fallbacks`, the latter
staying literal-only. -/
theorem pass1Sheets_noAnchor (acc : WalkAcc) (sheets : List StyleData)
    (hch : acc.changed = false)
    (h : ∀ s ∈ sheets, ∀ t ∈ s.css, t.hasAnchorCall = false) :
    ∃ rN rF rB, pass1Sheets acc sheets =
      ({ acc with
          st := { acc.st with anchorNames := rN }
          fallbackNames := rF
          fallbacks := rB
          changed := false }, sheets) ∧
      ((∀ e ∈ acc.fallbacks, ∀ b ∈ e.2, TryBlock.allLit b = true) →
        ∀ e ∈ rB, ∀ b ∈ e.2, TryBlock.allLit b = true) := by
  induction sheets generalizing acc with
  | nil =>
    refine ⟨acc.st.anchorNames, acc.fallbackNames, acc.fallbacks, ?_,
      fun hall => hall⟩
    cases acc with
    | mk st af fn fb ch =>
      dsimp only at hch
      subst hch
      rfl
  | cons s ss ih =>
    obtain ⟨rN₁, rF₁, rB₁, h₁, hall₁⟩ := pass1Sheet_noAnchor acc s (h s (by simp))
    obtain ⟨rN₂, rF₂, rB₂, h₂, hall₂⟩ :=
      ih ({ acc with
            st := { acc.st with anchorNames := rN₁ }
            fallbackNames := rF₁
            fallbacks := rB₁
            changed := false }) rfl
        (fun s₁ hs => h s₁ (List.mem_cons_of_mem _ hs))
    refine ⟨rN₂, rF₂, rB₂, ?_, fun hall => hall₂ (hall₁ hall)⟩
    rw [pass1Sheets, h₁, h₂]

/-- pass 2 leaves a value node alone when it misses the side table (an
indirection placeholder or an unassigned custom property). -/
theorem pass2ValueNode_miss (table : List (String × AnchorFunction))
    (sel property : String) (acc : Pass2Acc) (v : ValueNode)
    (h : v.varHits table = false) :
    pass2ValueNode table sel property acc v = (acc, v) := by
  cases v with
  | varNode fc =>
    cases fc with
    | none => rfl
    | some name =>
      cases name with
      | custom s =>
        simp only [ValueNode.varHits] at h
        rw [pass2ValueNode]
        cases hl : table.lookup s with
        | none =>
          dsimp only
          split_ifs <;> rfl
        | some af =>
          rw [hl] at h
          simp at h
      | key k =>
        rw [pass2ValueNode]
        split_ifs <;> rfl
  | anchorFn children => rfl
  | identNode n => rfl
  | otherNode t => rfl

/-- pass 2 over a value list that misses the side table everywhere is the
identity. -/
theorem pass2Value_miss (table : List (String × AnchorFunction))
    (sel property : String) (acc : Pass2Acc) (value : List ValueNode)
    (h : ∀ v ∈ value, v.varHits table = false) :
    pass2Value table sel property acc value = (acc, value) := by
  induction value generalizing acc with
  | nil => rfl
  | cons v vs ih =>
    have h₁ := pass2ValueNode_miss table sel property acc v (h v (by simp))
    have h₂ := ih acc (fun v₁ hv => h v₁ (List.mem_cons_of_mem _ hv))
    rw [pass2Value, h₁]
    dsimp only
    rw [h₂]

/-- pass 2 over a rule's declarations that miss the side table everywhere is
the identity. -/
theorem pass2Decls_miss (table : List (String × AnchorFunction))
    (sel : String) (acc : Pass2Acc) (decls : List Declaration)
    (h : ∀ d ∈ decls, ∀ v ∈ d.value, v.varHits table = false) :
    pass2Decls table sel acc decls = (acc, decls) := by
  induction decls generalizing acc with
  | nil => rfl
  | cons d ds ih =>
    have h₁ := pass2Value_miss table sel d.property acc d.value (h d (by simp))
    have h₂ := ih acc (fun d₁ hd => h d₁ (List.mem_cons_of_mem _ hd))
    rw [pass2Decls, h₁]
    dsimp only
    rw [h₂]

/-- pass 2 over one top-level node whose rule declarations miss the side
table is the identity. -/
theorem pass2TopNode_miss (table : List (String × AnchorFunction))
    (acc : Pass2Acc) (t : TopNode)
    (h : ∀ sel decls, t = TopNode.rule sel decls →
      ∀ d ∈ decls, ∀ v ∈ d.value, v.varHits table = false) :
    pass2TopNode table acc t = (acc, t) := by
  cases t with
  | rule sel decls =>
    have h₁ := pass2Decls_miss table sel acc decls (h sel decls rfl)
    rw [pass2TopNode, h₁]
  | fallbackAtRule name tries => rfl
  | otherNode txt => rfl

/-- pass 2 over a node list whose rule declarations miss the side table is
the identity. -/
theorem pass2TopNodes_miss (table : List (String × AnchorFunction))
    (acc : Pass2Acc) (ts : List TopNode)
    (h : ∀ t ∈ ts, ∀ sel decls, t = TopNode.rule sel decls →
      ∀ d ∈ decls, ∀ v ∈ d.value, v.varHits table = false) :
    pass2TopNodes table acc ts = (acc, ts) := by
  induction ts generalizing acc with
  | nil => rfl
  | cons t ts ih =>
    have h₁ := pass2TopNode_miss table acc t (h t (by simp))
    have h₂ := ih acc (fun t₁ ht => h t₁ (List.mem_cons_of_mem _ ht))
    rw [pass2TopNodes, h₁]
    dsimp only
    rw [h₂]

/-- pass 2 over one stylesheet record whose rule declarations miss the side
table keeps the record and leaves the `changed` flag false. -/
theorem pass2Sheet_miss (table : List (String × AnchorFunction))
    (acc : Pass2Acc) (s : StyleData)
    (h : ∀ t ∈ s.css, ∀ sel decls, t = TopNode.rule sel decls →
      ∀ d ∈ decls, ∀ v ∈ d.value, v.varHits table = false) :
    pass2Sheet table acc s = ({ acc with changed := false }, s) := by
  have h₁ := pass2TopNodes_miss table { acc with changed := false } s.css h
  rw [pass2Sheet, h₁]
  simp

/-- pass 2 over stylesheets whose rule declarations miss the side table is
the identity. -/
theorem pass2Sheets_miss (table : List (String × AnchorFunction))
    (acc : Pass2Acc) (ss : List StyleData)
    (hch : acc.changed = false)
    (h : ∀ s ∈ ss, ∀ t ∈ s.css, ∀ sel decls, t = TopNode.rule sel decls →
      ∀ d ∈ decls, ∀ v ∈ d.value, v.varHits table = false) :
    pass2Sheets table acc ss = (acc, ss) := by
  induction ss generalizing acc with
  | nil => rfl
  | cons s ss ih =>
    have h₁ := pass2Sheet_miss table acc s (h s (by simp))
    have hacc : ({ acc with changed := false } : Pass2Acc) = acc := by
      cases acc with
      | mk af ch =>
        dsimp only at hch
        subst hch
        rfl
    have h₂ := ih acc hch (fun s₁ hs => h s₁ (List.mem_cons_of_mem _ hs))
    rw [pass2Sheets, h₁]
    rw [hacc, h₂]

/-- the pass-2 entry point is the identity on stylesheets whose rule
declarations contain only `var()` references missing the side table. -/
theorem pass2Run_miss (table : List (String × AnchorFunction))
    (af : List (String × List (String × AnchorFunction)))
    (input : List StyleData)
    (h : onlyPlaceholderVars table input = true) :
    pass2Run table af input = (af, input) := by
  have h' : ∀ s ∈ input, ∀ t ∈ s.css, ∀ sel decls, t = TopNode.rule sel decls →
      ∀ d ∈ decls, ∀ v ∈ d.value, v.varHits table = false := by
    intro s hs t ht sel decls hteq d hd v hv
    rw [onlyPlaceholderVars, List.all_eq_true] at h
    have h₁ := h s hs
    rw [List.all_eq_true] at h₁
    have h₂ := h₁ t ht
    subst hteq
    dsimp only at h₂
    rw [List.all_eq_true] at h₂
    have h₃ := h₂ d hd
    rw [List.all_eq_true] at h₃
    have h₄ := h₃ v hv
    simpa using h₄
  rw [pass2Run]
  by_cases he : table.isEmpty
  · rw [if_pos he]
  · rw [if_neg he]
    rw [pass2Sheets_miss table { anchorFunctions := af, changed := false } input rfl h']

/-- a successful `lookup` exhibits a member of the association list. -/
theorem lookup_mem (l : List (String × α)) (k : String) (v : α)
    (h : l.lookup k = some v) : (k, v) ∈ l := by
  induction l with
  | nil => simp [List.lookup] at h
  | cons e rest ih =>
    obtain ⟨k₁, v₁⟩ := e
    rw [lookup_cons_ite] at h
    by_cases hk : k = k₁
    · rw [if_pos hk] at h
      injection h with hv
      subst hv
      subst hk
      exact List.mem_cons_self _ _
    · rw [if_neg hk] at h
      exact List.mem_cons_of_mem _ (ih h)

/-- populating `anchorEl` over a literal-only try block is the identity. -/
theorem populateTryBlock_allLit (doc : Doc) (reg : List (String × List String))
    (te : Option Elem) (b : TryBlock)
    (h : TryBlock.allLit b = true) :
    populateTryBlock doc reg te b = b := by
  induction b with
  | nil => rfl
  | cons e rest ih =>
    rw [TryBlock.allLit, List.all_eq_true] at h
    have he := h e (by simp)
    have hrest : TryBlock.allLit rest = true := by
      rw [TryBlock.allLit, List.all_eq_true]
      exact fun e₁ he₁ => h e₁ (List.mem_cons_of_mem _ he₁)
    obtain ⟨k, v⟩ := e
    cases v with
    | lit s =>
      have hr := ih hrest
      rw [populateTryBlock] at hr
      rw [populateTryBlock, List.map_cons]
      dsimp only
      rw [hr]
    | fn af => simp [TryBlockValue.isLit] at he

/-- when every stored try block is literal-only, the fallbacks merge loop
does not consult the registry or the document: it reduces to the pure
association-list fold `mergeFallbacksLit`. -/
theorem mergeFallbacks_allLit (doc : Doc) (reg : List (String × List String))
    (fN : List (String × String)) (fB : List (String × List TryBlock))
    (h : ∀ e ∈ fB, ∀ b ∈ e.2, TryBlock.allLit b = true) :
    mergeFallbacks doc reg fN fB = mergeFallbacksLit fN fB := by
  rw [mergeFallbacks, mergeFallbacksLit]
  refine List.foldl_ext _ _ _ ?_
  intro vp e _
  dsimp only
  cases hl : fB.lookup e.2 with
  | none => rfl
  | some pf =>
    have hall : ∀ b ∈ pf, TryBlock.allLit b = true := h (e.2, pf) (lookup_mem fB e.2 pf hl)
    have h₁ : pf.map (populateTryBlock doc reg (doc.query e.1)) = pf.map id :=
      List.map_congr_left
        (fun b hb => populateTryBlock_allLit doc reg (doc.query e.1) b (hall b hb))
    dsimp only
    rw [h₁, List.map_id]

/-- merging an empty `anchorFunctions` table is the identity on the model. -/
theorem mergeAnchorFns_nil (doc : Doc) (reg : List (String × List String))
    (vp : List (String × AnchorPosition)) :
    mergeAnchorFns doc reg vp [] = vp := rfl

/-- C8 — confirmed. The rewrite pass is idempotent on its own output: on
stylesheets that contain no raw `anchor()` calls and whose `var()` references
all miss the custom-property side table (the shape of already-rewritten CSS,
i.e. only indirection placeholders), `parseCSS` returns every stylesheet
record unchanged (in particular no `changed` flag is raised and no css text is
rewritten), and running `parseCSS` again on that text, from the module state
the first run left behind, produces a rule model identical to the first
run's. -/
theorem C8_rewrite_idempotent (doc : Doc) (st : ParseState)
    (input : List StyleData)
    (h1 : noAnchorCalls input = true)
    (h2 : onlyPlaceholderVars st.customPropAssignments input = true) :
    (parseCSS doc st input).2.1 = input ∧
    (parseCSS doc (parseCSS doc st input).2.2 input).1 =
      (parseCSS doc st input).1 := by
  have hna : ∀ s ∈ input, ∀ t ∈ s.css, t.hasAnchorCall = false := by
    rw [noAnchorCalls, List.all_eq_true] at h1
    intro s hs t ht
    have h₁ := h1 s hs
    rw [List.all_eq_true] at h₁
    have h₂ := h₁ t ht
    exact Bool.eq_false_iff.mpr (by simpa using h₂)
  obtain ⟨rN, rF, rB, hp1, hall⟩ :=
    pass1Sheets_noAnchor (pass1Start st) input rfl hna
  have hallB : ∀ e ∈ rB, ∀ b ∈ e.2, TryBlock.allLit b = true := by
    refine hall ?_
    intro e he
    simp [pass1Start] at he
  have hrun : parseCSS doc st input =
      (mergeFallbacksLit rF rB, input, { st with anchorNames := rN }) := by
    rw [parseCSS, hp1]
    dsimp only [pass1Start]
    rw [pass2Run_miss st.customPropAssignments [] input h2]
    dsimp only
    rw [mergeAnchorFns_nil, mergeFallbacks_allLit doc rN rF rB hallB]
  obtain ⟨r₂, hreg⟩ := pass1Sheets_reg (pass1Start st) rN input
  rw [hp1] at hreg
  have hreg' : pass1Sheets (pass1Start { st with anchorNames := rN }) input =
      ({ pass1Start st with
          st := { st with anchorNames := r₂ }
          fallbackNames := rF
          fallbacks := rB
          changed := false }, input) := hreg
  have hrun2 : parseCSS doc { st with anchorNames := rN } input =
      (mergeFallbacksLit rF rB, input, { st with anchorNames := r₂ }) := by
    rw [parseCSS, hreg']
    dsimp only [pass1Start]
    rw [pass2Run_miss st.customPropAssignments [] input h2]
    dsimp only
    rw [mergeAnchorFns_nil, mergeFallbacks_allLit doc r₂ rF rB hallB]
  constructor
  · rw [hrun]
  · rw [hrun]
    dsimp only
    rw [hrun2]

/-- concrete instantiation of the C8 idempotence theorem: on a rewritten
stylesheet with an indirection placeholder, an anchor-name, a
position-fallback and a literal try block, both premises hold and the
re-parse is a no-op with an identical model. -/
theorem C8_rewrite_idempotent_witness :
    noAnchorCalls c8Input = true ∧
    onlyPlaceholderVars ParseState.empty.customPropAssignments c8Input = true ∧
    ((parseCSS c8Doc ParseState.empty c8Input).2.1 = c8Input ∧
      (parseCSS c8Doc (parseCSS c8Doc ParseState.empty c8Input).2.2 c8Input).1 =
        (parseCSS c8Doc ParseState.empty c8Input).1) :=
  ⟨by decide, by decide,
    C8_rewrite_idempotent c8Doc ParseState.empty c8Input (by decide) (by decide)⟩

/-- a key absent from the front of an association list defers lookup to the
back. -/
theorem lookup_append_none (l l₂ : List (String × α)) (n : String)
    (h : l.lookup n = none) : (l ++ l₂).lookup n = l₂.lookup n := by
  induction l with
  | nil => rfl
  | cons e rest ih =>
    obtain ⟨k₁, v₁⟩ := e
    rw [lookup_cons_ite] at h
    by_cases hk : n = k₁
    · rw [if_pos hk] at h
      simp at h
    · rw [if_neg hk] at h
      rw [List.cons_append, lookup_cons_ite, if_neg hk]
      exact ih h

/-- in an association list with duplicate-free keys, membership determines
lookup. -/
theorem lookup_of_mem_nodup (l : List (String × α)) (k : String) (v : α)
    (hN : (alKeys l).Nodup) (h : (k, v) ∈ l) : l.lookup k = some v := by
  induction l with
  | nil => simp at h
  | cons e rest ih =>
    obtain ⟨k₁, v₁⟩ := e
    simp only [alKeys, List.map_cons, List.nodup_cons] at hN
    rcases List.mem_cons.mp h with h₁ | h₁
    · injection h₁ with hk hv
      subst hk
      subst hv
      rw [lookup_cons_ite, if_pos rfl]
    · have hk : k ≠ k₁ := by
        intro hkk
        subst hkk
        exact hN.1 (List.mem_map.mpr ⟨(k, v), h₁, rfl⟩)
      rw [lookup_cons_ite, if_neg hk]
      exact ih hN.2 h₁

/-- shape of a JS property assignment: a fresh key appends the pair, an
existing key replaces the first occurrence in place. -/
theorem upsert_shape (l : List (String × α)) (k : String) (v : α) :
    (l.lookup k = none ∧ upsert l k v = l ++ [(k, v)]) ∨
    ∃ l₁ w l₂, l = l₁ ++ (k, w) :: l₂ ∧ upsert l k v = l₁ ++ (k, v) :: l₂ ∧
      l₁.lookup k = none := by
  induction l with
  | nil => exact Or.inl ⟨rfl, rfl⟩
  | cons e rest ih =>
    obtain ⟨k₁, v₁⟩ := e
    by_cases hk : k₁ = k
    · subst hk
      exact Or.inr ⟨[], v₁, rest, rfl, by rw [upsert, if_pos rfl]; rfl, rfl⟩
    · rcases ih with ⟨hl, hu⟩ | ⟨l₁, w, l₂, hl, hu, hn⟩
      · refine Or.inl ⟨?_, ?_⟩
        · rw [lookup_cons_ite, if_neg (fun hkk => hk hkk.symm)]
          exact hl
        · rw [upsert, if_neg hk, hu]
          rfl
      · refine Or.inr ⟨(k₁, v₁) :: l₁, w, l₂, by rw [hl]; rfl, ?_, ?_⟩
        · rw [upsert, if_neg hk, hu]
          rfl
        · rw [lookup_cons_ite, if_neg (fun hkk => hk hkk.symm)]
          exact hn

/-- the identity change is an (empty-segment) splice. -/
theorem insertSeg_nil (l : List β) : InsertSeg l [] l :=
  ⟨l, [], by simp, by simp⟩

/-- membership after a splice. -/
theorem insertSeg_mem {l xs l' : List β} (h : InsertSeg l xs l') {y : β}
    (hy : y ∈ l') : y ∈ xs ∨ y ∈ l := by
  obtain ⟨s₁, s₂, he, hs⟩ := h
  subst he
  rcases List.mem_append.mp hy with hy₁ | hy₂
  · rcases List.mem_append.mp hy₁ with hy₃ | hy₄
    · exact Or.inr (hs.subset (List.mem_append_left _ hy₃))
    · exact Or.inl hy₄
  · exact Or.inr (hs.subset (List.mem_append_right _ hy₂))

/-- a duplicate-free list stays duplicate-free after splicing in a fresh
duplicate-free segment. -/
theorem insertSeg_nodup {l xs l' : List β} (h : InsertSeg l xs l')
    (hl : l.Nodup) (hxs : xs.Nodup) (hfresh : ∀ x ∈ xs, x ∉ l) : l'.Nodup := by
  obtain ⟨s₁, s₂, he, hs⟩ := h
  subst he
  have hperm : (s₁ ++ xs ++ s₂).Perm (xs ++ (s₁ ++ s₂)) := by
    have h₁ : s₁ ++ xs ++ s₂ = s₁ ++ (xs ++ s₂) := by rw [List.append_assoc]
    rw [h₁]
    refine (List.perm_append_comm).trans ?_
    have h₂ : xs ++ s₂ ++ s₁ = xs ++ (s₂ ++ s₁) := by rw [List.append_assoc]
    rw [h₂]
    exact List.Perm.append_left xs List.perm_append_comm
  refine (hperm.nodup_iff).mpr ?_
  rw [List.nodup_append]
  exact ⟨hxs, hs.nodup hl, fun a ha has => hfresh a ha (hs.subset has)⟩

/-- splicing commutes with prepending a common prefix. -/
theorem insertSeg_append_left {l xs l' : List β} (pre : List β)
    (h : InsertSeg l xs l') : InsertSeg (pre ++ l) xs (pre ++ l') := by
  obtain ⟨s₁, s₂, he, hs⟩ := h
  refine ⟨pre ++ s₁, s₂, ?_, ?_⟩
  · rw [he]
    simp [List.append_assoc]
  · have h₁ : pre ++ s₁ ++ s₂ = pre ++ (s₁ ++ s₂) := by rw [List.append_assoc]
    rw [h₁]
    exact hs.append_left pre

/-- splicing commutes with appending a common suffix. -/
theorem insertSeg_append_right {l xs l' : List β} (post : List β)
    (h : InsertSeg l xs l') : InsertSeg (l ++ post) xs (l' ++ post) := by
  obtain ⟨s₁, s₂, he, hs⟩ := h
  refine ⟨s₁, s₂ ++ post, ?_, ?_⟩
  · rw [he]
    simp [List.append_assoc]
  · have h₁ : s₁ ++ (s₂ ++ post) = s₁ ++ s₂ ++ post := by rw [List.append_assoc]
    rw [h₁]
    exact hs.append_right post

/-- keys present after an assignment: the assigned key or an old key. -/
theorem alKeys_upsert_mem (l : List (String × α)) (k : String) (v : α)
    (x : String) (hx : x ∈ alKeys (upsert l k v)) : x = k ∨ x ∈ alKeys l := by
  rcases List.mem_map.mp hx with ⟨e, he, hex⟩
  rcases mem_upsert l k v e he with he₁ | he₁
  · subst he₁
    exact Or.inl hex.symm
  · exact Or.inr (List.mem_map.mpr ⟨e, he₁, hex⟩)

/-- a JS object assignment keeps the key list duplicate-free. -/
theorem alKeys_nodup_upsert (l : List (String × α)) (k : String) (v : α)
    (hn : (alKeys l).Nodup) : (alKeys (upsert l k v)).Nodup := by
  induction l with
  | nil => simp [upsert, alKeys]
  | cons e rest ih =>
    obtain ⟨k₁, v₁⟩ := e
    simp only [alKeys, List.map_cons, List.nodup_cons] at hn
    rw [upsert]
    by_cases hk : k₁ = k
    · rw [if_pos hk]
      subst hk
      simp only [alKeys, List.map_cons, List.nodup_cons]
      exact hn
    · rw [if_neg hk]
      simp only [alKeys, List.map_cons, List.nodup_cons]
      refine ⟨?_, ih hn.2⟩
      intro hmem
      rcases alKeys_upsert_mem rest k v k₁ hmem with h₁ | h₁
      · exact hk h₁
      · exact hn.1 h₁

/-- distinct members of a list with a duplicate-free `filterMap` image have
distinct images. -/
theorem nodup_filterMap_ne {f : γ → Option β} {l : List γ}
    (hn : (l.filterMap f).Nodup) {x y : γ} {bx c : β}
    (hx : x ∈ l) (hy : y ∈ l) (hxy : x ≠ y)
    (hfx : f x = some bx) (hfy : f y = some c) : bx ≠ c := by
  obtain ⟨l₁, l₂, rfl⟩ := List.append_of_mem hx
  have hy' : y ∈ l₁ ∨ y ∈ l₂ := by
    rcases List.mem_append.mp hy with h | h
    · exact Or.inl h
    · rcases List.mem_cons.mp h with h | h
      · exact absurd h.symm hxy
      · exact Or.inr h
  have hsplit : (l₁ ++ x :: l₂).filterMap f =
      l₁.filterMap f ++ bx :: l₂.filterMap f := by
    rw [List.filterMap_append, List.filterMap_cons, hfx]
  rw [hsplit] at hn
  have hbx : bx ∉ l₁.filterMap f ++ l₂.filterMap f :=
    (List.nodup_cons.mp (List.nodup_middle.mp hn)).1
  intro hbc
  subst hbc
  rcases hy' with h | h
  · exact hbx (List.mem_append_left _ (List.mem_filterMap.mpr ⟨y, h, hfy⟩))
  · exact hbx (List.mem_append_right _ (List.mem_filterMap.mpr ⟨y, h, hfy⟩))

/-- a JS object assignment splices the new entry's image into any mapped
view of the object. -/
theorem map_upsert_insertSeg (g : String × α → β) (l : List (String × α))
    (k : String) (v : α) :
    InsertSeg (l.map g) [g (k, v)] ((upsert l k v).map g) := by
  rcases upsert_shape l k v with ⟨-, hu⟩ | ⟨l₁, w, l₂, hl, hu, -⟩
  · rw [hu, List.map_append]
    exact ⟨l.map g, [], by simp, by simp⟩
  · rw [hu, hl, List.map_append, List.map_append, List.map_cons, List.map_cons]
    refine ⟨l₁.map g, l₂.map g, by simp, ?_⟩
    exact (List.sublist_cons_self (g (k, w)) (l₂.map g)).append_left (l₁.map g)

/-- key list of the side table across one entry. -/
theorem tableKeys_upsert (t : List (String × AnchorFunction)) (k : String)
    (v : AnchorFunction) :
    InsertSeg (tableKeys t) [v.key] (tableKeys (upsert t k v)) := by
  have h := map_upsert_insertSeg (fun e => e.2.key) t k v
  simpa [tableKeys] using h

/-- `fnsKeys` distributes over list append. -/
theorem fnsKeys_append (m₁ m₂ : List (String × List (String × AnchorFunction))) :
    fnsKeys (m₁ ++ m₂) = fnsKeys m₁ ++ fnsKeys m₂ := by
  simp [fnsKeys]

/-- `fnsKeys` over a cons cell. -/
theorem fnsKeys_cons (e : String × List (String × AnchorFunction))
    (m : List (String × List (String × AnchorFunction))) :
    fnsKeys (e :: m) = innerKeys e.2 ++ fnsKeys m := by
  simp [fnsKeys]

/-- `fbsKeys` distributes over list append. -/
theorem fbsKeys_append (f₁ f₂ : List (String × List TryBlock)) :
    fbsKeys (f₁ ++ f₂) = fbsKeys f₁ ++ fbsKeys f₂ := by
  simp [fbsKeys]

/-- `fbsKeys` over a cons cell. -/
theorem fbsKeys_cons (e : String × List TryBlock)
    (f : List (String × List TryBlock)) :
    fbsKeys (e :: f) = blocksKeys e.2 ++ fbsKeys f := by
  simp [fbsKeys]

/-- storing a freshly keyed record in the nested `anchorFunctions` table
splices exactly that key into the table's key list. -/
theorem fnsKeys_upsertInner (m : List (String × List (String × AnchorFunction)))
    (sel prop : String) (data : AnchorFunction) :
    InsertSeg (fnsKeys m) [data.key] (fnsKeys (upsertInner m sel prop data)) := by
  rw [upsertInner]
  rcases upsert_shape m sel (upsert ((m.lookup sel).getD []) prop data) with
    ⟨hl, hu⟩ | ⟨m₁, w, m₂, hl, hu, hn⟩
  · rw [hu, fnsKeys_append, hl]
    simp only [Option.getD_none]
    refine ⟨fnsKeys m, [], ?_, by simp⟩
    simp [fnsKeys, innerKeys, upsert]
  · have hlook : m.lookup sel = some w := by
      rw [hl, lookup_append_none _ _ _ hn, lookup_cons_ite, if_pos rfl]
    rw [hu, hlook]
    simp only [Option.getD_some]
    have hm : fnsKeys m = fnsKeys m₁ ++ (innerKeys w ++ fnsKeys m₂) := by
      rw [hl, fnsKeys_append, fnsKeys_cons]
    rw [hm, fnsKeys_append, fnsKeys_cons]
    refine insertSeg_append_left (fnsKeys m₁) ?_
    refine insertSeg_append_right (fnsKeys m₂) ?_
    exact map_upsert_insertSeg (fun e => e.2.key) w prop data

/-- storing a try-block list in the `fallbacks` table splices exactly its
keys into the table's key list. -/
theorem fbsKeys_upsert (f : List (String × List TryBlock)) (name : String)
    (blocks : List TryBlock) :
    InsertSeg (fbsKeys f) (blocksKeys blocks) (fbsKeys (upsert f name blocks)) := by
  rcases upsert_shape f name blocks with ⟨-, hu⟩ | ⟨f₁, w, f₂, hl, hu, -⟩
  · rw [hu, fbsKeys_append]
    refine ⟨fbsKeys f, [], ?_, by simp⟩
    simp [fbsKeys, blocksKeys]
  · rw [hu, hl, fbsKeys_append, fbsKeys_append, fbsKeys_cons, fbsKeys_cons]
    refine insertSeg_append_left (fbsKeys f₁) ?_
    refine insertSeg_append_right (fbsKeys f₂) ?_
    exact ⟨[], [], by simp, by simp⟩

/-- a JS object assignment splices the new entry's (optional) image into any
`filterMap` view of the object. -/
theorem filterMap_upsert_insertSeg (f : String × α → Option β)
    (l : List (String × α)) (k : String) (v : α) :
    InsertSeg (l.filterMap f) (f (k, v)).toList ((upsert l k v).filterMap f) := by
  rcases upsert_shape l k v with ⟨-, hu⟩ | ⟨l₁, w, l₂, hl, hu, -⟩
  · rw [hu, List.filterMap_append]
    refine ⟨l.filterMap f, [], ?_, by simp⟩
    cases h : f (k, v) <;> simp [List.filterMap_cons, h]
  · rw [hu, hl, List.filterMap_append, List.filterMap_append,
      List.filterMap_cons, List.filterMap_cons]
    cases hw : f (k, w) with
    | none =>
      cases hv : f (k, v) with
      | none =>
        exact ⟨l₁.filterMap f, l₂.filterMap f, by simp, List.Sublist.refl _⟩
      | some bv =>
        exact ⟨l₁.filterMap f, l₂.filterMap f, by simp, List.Sublist.refl _⟩
    | some bw =>
      cases hv : f (k, v) with
      | none =>
        exact ⟨l₁.filterMap f, l₂.filterMap f, by simp,
          (List.sublist_cons_self _ _).append_left _⟩
      | some bv =>
        exact ⟨l₁.filterMap f, l₂.filterMap f, by simp,
          (List.sublist_cons_self _ _).append_left _⟩

/-- a `.fn` assignment into a try block splices its key into the block's key
list. -/
theorem blockKeys_upsert_fn (b : TryBlock) (prop : String) (af : AnchorFunction) :
    InsertSeg (blockKeys b) [af.key]
      (blockKeys (upsert b prop (TryBlockValue.fn af))) := by
  have h := filterMap_upsert_insertSeg
    (fun e => match e.2 with
      | TryBlockValue.fn af => some af.key
      | TryBlockValue.lit _ => none) b prop (TryBlockValue.fn af)
  simpa [blockKeys] using h

/-- a `.lit` assignment into a try block only removes keys. -/
theorem blockKeys_upsert_lit (b : TryBlock) (prop s : String) :
    InsertSeg (blockKeys b) []
      (blockKeys (upsert b prop (TryBlockValue.lit s))) := by
  have h := filterMap_upsert_insertSeg
    (fun e => match e.2 with
      | TryBlockValue.fn af => some af.key
      | TryBlockValue.lit _ => none) b prop (TryBlockValue.lit s)
  simpa [blockKeys] using h

/-- the generator keys of a declaration map are among its keys. -/
theorem innerGenKeys_sublist (m : List (String × AnchorFunction)) :
    (innerGenKeys m).Sublist (innerKeys m) := by
  induction m with
  | nil => exact List.Sublist.refl _
  | cons e rest ih =>
    have h₁ : innerKeys (e :: rest) = e.2.key :: innerKeys rest := rfl
    cases he : e.2.key with
    | gen n =>
      have h₂ : innerGenKeys (e :: rest) = AnchorKey.gen n :: innerGenKeys rest := by
        simp [innerGenKeys, List.filterMap_cons, he]
      rw [h₁, h₂, he]
      exact ih.cons₂ _
    | genProp n p =>
      have h₂ : innerGenKeys (e :: rest) = innerGenKeys rest := by
        simp [innerGenKeys, List.filterMap_cons, he]
      rw [h₁, h₂]
      exact ih.cons _

/-- `fnsGenKeys` distributes over list append. -/
theorem fnsGenKeys_append (m₁ m₂ : List (String × List (String × AnchorFunction))) :
    fnsGenKeys (m₁ ++ m₂) = fnsGenKeys m₁ ++ fnsGenKeys m₂ := by
  simp [fnsGenKeys]

/-- `fnsGenKeys` over a cons cell. -/
theorem fnsGenKeys_cons (e : String × List (String × AnchorFunction))
    (m : List (String × List (String × AnchorFunction))) :
    fnsGenKeys (e :: m) = innerGenKeys e.2 ++ fnsGenKeys m := by
  simp [fnsGenKeys]

/-- the generator keys of the `anchorFunctions` table are among its keys. -/
theorem fnsGenKeys_sublist (m : List (String × List (String × AnchorFunction))) :
    (fnsGenKeys m).Sublist (fnsKeys m) := by
  induction m with
  | nil => exact List.Sublist.refl _
  | cons e rest ih =>
    rw [fnsKeys_cons, fnsGenKeys_cons]
    exact List.Sublist.append (innerGenKeys_sublist e.2) ih

/-- a declaration-map entry's key is listed in `fnsKeys`. -/
theorem key_mem_fnsKeys {m : List (String × List (String × AnchorFunction))}
    {e : String × List (String × AnchorFunction)}
    {d : String × AnchorFunction} (he : e ∈ m) (hd : d ∈ e.2) :
    d.2.key ∈ fnsKeys m := by
  rw [fnsKeys, List.mem_flatten]
  exact ⟨innerKeys e.2, List.mem_map.mpr ⟨e, he, rfl⟩,
    List.mem_map.mpr ⟨d, hd, rfl⟩⟩

/-- a declaration-map entry with a generator key is listed in `fnsGenKeys`. -/
theorem genKey_mem_fnsGenKeys {m : List (String × List (String × AnchorFunction))}
    {e : String × List (String × AnchorFunction)}
    {d : String × AnchorFunction} (he : e ∈ m) (hd : d ∈ e.2)
    {n : ℕ} (hk : d.2.key = AnchorKey.gen n) :
    AnchorKey.gen n ∈ fnsGenKeys m := by
  rw [fnsGenKeys, List.mem_flatten]
  refine ⟨innerGenKeys e.2, List.mem_map.mpr ⟨e, he, rfl⟩, ?_⟩
  rw [innerGenKeys]
  exact List.mem_filterMap.mpr ⟨d, hd, by simp [hk]⟩

/-- a try-block `.fn` entry's key is listed in `fbsKeys`. -/
theorem key_mem_fbsKeys {f : List (String × List TryBlock)}
    {e : String × List TryBlock} (he : e ∈ f) {b : TryBlock} (hb : b ∈ e.2)
    {p : String} {af : AnchorFunction}
    (hentry : (p, TryBlockValue.fn af) ∈ b) : af.key ∈ fbsKeys f := by
  rw [fbsKeys, List.mem_flatten]
  refine ⟨blocksKeys e.2, List.mem_map.mpr ⟨e, he, rfl⟩, ?_⟩
  rw [blocksKeys, List.mem_flatten]
  refine ⟨blockKeys b, List.mem_map.mpr ⟨b, hb, rfl⟩, ?_⟩
  rw [blockKeys]
  exact List.mem_filterMap.mpr ⟨(p, TryBlockValue.fn af), hentry, rfl⟩

/-- a pass-2 clone (whose key is a `genProp` key) adds nothing to the
generator-key list of the `anchorFunctions` table. -/
theorem fnsGenKeys_upsertInner_genProp
    (m : List (String × List (String × AnchorFunction)))
    (sel prop : String) (data : AnchorFunction)
    {n : ℕ} {q : String} (hk : data.key = AnchorKey.genProp n q) :
    InsertSeg (fnsGenKeys m) [] (fnsGenKeys (upsertInner m sel prop data)) := by
  rw [upsertInner]
  rcases upsert_shape m sel (upsert ((m.lookup sel).getD []) prop data) with
    ⟨hl, hu⟩ | ⟨m₁, w, m₂, hl, hu, hn⟩
  · rw [hu, fnsGenKeys_append, hl]
    simp only [Option.getD_none]
    refine ⟨fnsGenKeys m, [], ?_, by simp⟩
    simp [fnsGenKeys, innerGenKeys, upsert, List.filterMap_cons, hk]
  · have hlook : m.lookup sel = some w := by
      rw [hl, lookup_append_none _ _ _ hn, lookup_cons_ite, if_pos rfl]
    rw [hu, hlook]
    simp only [Option.getD_some]
    have hm : fnsGenKeys m = fnsGenKeys m₁ ++ (innerGenKeys w ++ fnsGenKeys m₂) := by
      rw [hl, fnsGenKeys_append, fnsGenKeys_cons]
    rw [hm, fnsGenKeys_append, fnsGenKeys_cons]
    refine insertSeg_append_left (fnsGenKeys m₁) ?_
    refine insertSeg_append_right (fnsGenKeys m₂) ?_
    have h := filterMap_upsert_insertSeg
      (fun e => match e.2.key with
        | AnchorKey.gen n => some (AnchorKey.gen n)
        | AnchorKey.genProp _ _ => none) w prop data
    simp only [hk] at h
    simpa [innerGenKeys] using h

/-- `blocksKeys` distributes over list append. -/
theorem blocksKeys_append (b₁ b₂ : List TryBlock) :
    blocksKeys (b₁ ++ b₂) = blocksKeys b₁ ++ blocksKeys b₂ := by
  simp [blocksKeys]

/-- one `@try` declaration extends the counter, keeps all block keys fresh
generator keys inside the consumed counter interval, and keeps both the key
list and the property list duplicate-free. -/
theorem parseTryDecl_inv (lo c : ℕ) (b : TryBlock) (d : Declaration)
    (hc : lo ≤ c)
    (hkb : KeysBetween (blockKeys b) lo c)
    (hnd : (blockKeys b).Nodup)
    (hal : (alKeys b).Nodup) :
    c ≤ (parseTryDecl c b d).1 ∧
    KeysBetween (blockKeys (parseTryDecl c b d).2) lo (parseTryDecl c b d).1 ∧
    (blockKeys (parseTryDecl c b d).2).Nodup ∧
    (alKeys (parseTryDecl c b d).2).Nodup := by
  have hlit : ∀ s, KeysBetween (blockKeys (upsert b d.property (TryBlockValue.lit s))) lo c ∧
      (blockKeys (upsert b d.property (TryBlockValue.lit s))).Nodup ∧
      (alKeys (upsert b d.property (TryBlockValue.lit s))).Nodup := by
    intro s
    have hseg := blockKeys_upsert_lit b d.property s
    refine ⟨?_, ?_, alKeys_nodup_upsert b d.property _ hal⟩
    · intro k hk
      rcases insertSeg_mem hseg hk with h | h
      · simp at h
      · exact hkb k h
    · exact insertSeg_nodup hseg hnd (by simp) (by simp)
  rw [parseTryDecl]
  cases hv : d.value.head? with
  | none =>
    dsimp only
    exact ⟨le_rfl, (hlit _).1, (hlit _).2.1, (hlit _).2.2⟩
  | some v =>
    cases v with
    | anchorFn children =>
      dsimp only
      have hkey : (parseAnchorFn children c).key = AnchorKey.gen c := rfl
      have hseg := blockKeys_upsert_fn b d.property (parseAnchorFn children c)
      rw [hkey] at hseg
      refine ⟨Nat.le_succ c, ?_, ?_, alKeys_nodup_upsert b d.property _ hal⟩
      · intro k hk
        rcases insertSeg_mem hseg hk with h | h
        · simp only [List.mem_singleton] at h
          exact ⟨c, h, hc, Nat.lt_succ_self c⟩
        · obtain ⟨n, hn, hlo, hhi⟩ := hkb k h
          exact ⟨n, hn, hlo, Nat.lt_succ_of_lt hhi⟩
      · refine insertSeg_nodup hseg hnd (by simp) ?_
        intro x hx hxb
        simp only [List.mem_singleton] at hx
        subst hx
        obtain ⟨n, hn, -, hhi⟩ := hkb _ hxb
        injection hn with hnn
        omega
    | varNode fc =>
      dsimp only
      exact ⟨le_rfl, (hlit _).1, (hlit _).2.1, (hlit _).2.2⟩
    | identNode nm =>
      dsimp only
      exact ⟨le_rfl, (hlit _).1, (hlit _).2.1, (hlit _).2.2⟩
    | otherNode t =>
      dsimp only
      exact ⟨le_rfl, (hlit _).1, (hlit _).2.1, (hlit _).2.2⟩

/-- one `@try` block consumes a counter interval holding all of its
duplicate-free generator keys, with duplicate-free properties. -/
theorem parseTryBlock_inv (c : ℕ) (decls : List Declaration) :
    c ≤ (parseTryBlock c decls).1 ∧
    KeysBetween (blockKeys (parseTryBlock c decls).2) c (parseTryBlock c decls).1 ∧
    (blockKeys (parseTryBlock c decls).2).Nodup ∧
    (alKeys (parseTryBlock c decls).2).Nodup := by
  rw [parseTryBlock]
  suffices haux : ∀ (ds : List Declaration) (p : ℕ × TryBlock), c ≤ p.1 →
      KeysBetween (blockKeys p.2) c p.1 → (blockKeys p.2).Nodup →
      (alKeys p.2).Nodup →
      c ≤ (ds.foldl (fun p decl => parseTryDecl p.1 p.2 decl) p).1 ∧
      KeysBetween (blockKeys (ds.foldl (fun p decl => parseTryDecl p.1 p.2 decl) p).2)
        c (ds.foldl (fun p decl => parseTryDecl p.1 p.2 decl) p).1 ∧
      (blockKeys (ds.foldl (fun p decl => parseTryDecl p.1 p.2 decl) p).2).Nodup ∧
      (alKeys (ds.foldl (fun p decl => parseTryDecl p.1 p.2 decl) p).2).Nodup by
    exact haux decls (c, []) le_rfl (by intro k hk; simp [blockKeys] at hk)
      (by simp [blockKeys]) (by simp [alKeys])
  intro ds
  induction ds with
  | nil =>
    intro p h₁ h₂ h₃ h₄
    exact ⟨h₁, h₂, h₃, h₄⟩
  | cons d rest ih =>
    intro p h₁ h₂ h₃ h₄
    rw [List.foldl_cons]
    obtain ⟨g₁, g₂, g₃, g₄⟩ := parseTryDecl_inv c p.1 p.2 d h₁ h₂ h₃ h₄
    exact ih (parseTryDecl p.1 p.2 d) (le_trans h₁ g₁) g₂ g₃ g₄

/-- the `@try` blocks of one at-rule consume a counter interval holding all
of their pairwise-distinct generator keys, each block with duplicate-free
properties. -/
theorem parseTryBlocks_inv (c : ℕ) (tries : List (List Declaration)) :
    c ≤ (parseTryBlocks c tries).1 ∧
    KeysBetween (blocksKeys (parseTryBlocks c tries).2) c (parseTryBlocks c tries).1 ∧
    (blocksKeys (parseTryBlocks c tries).2).Nodup ∧
    (∀ b ∈ (parseTryBlocks c tries).2, (alKeys b).Nodup) := by
  rw [parseTryBlocks]
  suffices haux : ∀ (ts : List (List Declaration)) (p : ℕ × List TryBlock), c ≤ p.1 →
      KeysBetween (blocksKeys p.2) c p.1 → (blocksKeys p.2).Nodup →
      (∀ b ∈ p.2, (alKeys b).Nodup) →
      c ≤ (ts.foldl (fun p decls =>
          let r := parseTryBlock p.1 decls
          (r.1, p.2 ++ [r.2])) p).1 ∧
      KeysBetween (blocksKeys (ts.foldl (fun p decls =>
          let r := parseTryBlock p.1 decls
          (r.1, p.2 ++ [r.2])) p).2)
        c (ts.foldl (fun p decls =>
          let r := parseTryBlock p.1 decls
          (r.1, p.2 ++ [r.2])) p).1 ∧
      (blocksKeys (ts.foldl (fun p decls =>
          let r := parseTryBlock p.1 decls
          (r.1, p.2 ++ [r.2])) p).2).Nodup ∧
      (∀ b ∈ (ts.foldl (fun p decls =>
          let r := parseTryBlock p.1 decls
          (r.1, p.2 ++ [r.2])) p).2, (alKeys b).Nodup) by
    exact haux tries (c, []) le_rfl (by intro k hk; simp [blocksKeys] at hk)
      (by simp [blocksKeys]) (by simp)
  intro ts
  induction ts with
  | nil =>
    intro p h₁ h₂ h₃ h₄
    exact ⟨h₁, h₂, h₃, h₄⟩
  | cons ds rest ih =>
    intro p h₁ h₂ h₃ h₄
    rw [List.foldl_cons]
    obtain ⟨g₁, g₂, g₃, g₄⟩ := parseTryBlock_inv p.1 ds
    refine ih _ ?_ ?_ ?_ ?_
    · exact le_trans h₁ g₁
    · dsimp only
      rw [blocksKeys_append]
      intro k hk
      rcases List.mem_append.mp hk with h | h
      · obtain ⟨n, hn, hlo, hhi⟩ := h₂ k h
        exact ⟨n, hn, hlo, lt_of_lt_of_le hhi g₁⟩
      · have h' : k ∈ blockKeys (parseTryBlock p.1 ds).2 := by
          simpa [blocksKeys] using h
        obtain ⟨n, hn, hlo, hhi⟩ := g₂ k h'
        exact ⟨n, hn, le_trans h₁ hlo, hhi⟩
    · dsimp only
      rw [blocksKeys_append]
      rw [List.nodup_append]
      refine ⟨h₃, by simpa [blocksKeys] using g₃, ?_⟩
      intro k hk hk'
      obtain ⟨n, hn, -, hhi⟩ := h₂ k hk
      have hk'' : k ∈ blockKeys (parseTryBlock p.1 ds).2 := by
        simpa [blocksKeys] using hk'
      obtain ⟨n', hn', hlo', -⟩ := g₂ k hk''
      rw [hn] at hn'
      injection hn' with hnn
      omega
    · dsimp only
      intro b hb
      rcases List.mem_append.mp hb with h | h
      · exact h₄ b h
      · rw [List.mem_singleton] at h
        subst h
        exact g₄

/-- below-counter key lists stay below any larger counter. -/
theorem keysBelow_mono {ks : List AnchorKey} {c c' : ℕ}
    (h : KeysBelow ks c) (hc : c ≤ c') : KeysBelow ks c' := by
  intro k hk
  obtain ⟨n, hn, hlt⟩ := h k hk
  exact ⟨n, hn, lt_of_lt_of_le hlt hc⟩

/-- a below-counter key is never the counter's own fresh key. -/
theorem keysBelow_fresh {ks : List AnchorKey} {c : ℕ}
    (h : KeysBelow ks c) : AnchorKey.gen c ∉ ks := by
  intro hmem
  obtain ⟨n, hn, hlt⟩ := h _ hmem
  injection hn with hnn
  omega

/-- pass-1 handling of one value node preserves the key-freshness and
duplicate-freedom invariant. -/
theorem pass1ValueNode_inv (sel prop : String) (acc : WalkAcc) (node : ValueNode)
    (h : Pass1Inv acc) : Pass1Inv (pass1ValueNode sel prop acc node).1 := by
  obtain ⟨hKB, hND, hA, hAe, hFN, hFB, hFBe, hT⟩ := h
  cases node with
  | anchorFn children =>
    rw [pass1ValueNode]
    split_ifs with h₁ h₂ h₃
    · -- custom-property branch: record in the side table, bump the counter
      have hkey : (parseAnchorFn children acc.st.counter).key =
          AnchorKey.gen acc.st.counter := rfl
      have hseg := tableKeys_upsert acc.st.customPropAssignments prop
        (parseAnchorFn children acc.st.counter)
      rw [hkey] at hseg
      have haS : InsertSeg (accKeys acc) [AnchorKey.gen acc.st.counter]
          (fnsKeys acc.anchorFunctions ++
            tableKeys (upsert acc.st.customPropAssignments prop
              (parseAnchorFn children acc.st.counter)) ++
            fbsKeys acc.fallbacks) :=
        insertSeg_append_right (fbsKeys acc.fallbacks)
          (insertSeg_append_left (fnsKeys acc.anchorFunctions) hseg)
      refine ⟨?_, ?_, hA, hAe, hFN, hFB, hFBe, ?_⟩
      · intro k hk
        rcases insertSeg_mem haS hk with hm | hm
        · simp only [List.mem_singleton] at hm
          exact ⟨acc.st.counter, hm, Nat.lt_succ_self _⟩
        · obtain ⟨n, hn, hlt⟩ := hKB k hm
          exact ⟨n, hn, Nat.lt_succ_of_lt hlt⟩
      · refine insertSeg_nodup haS hND (by simp) ?_
        intro x hx
        simp only [List.mem_singleton] at hx
        subst hx
        exact keysBelow_fresh hKB
      · exact alKeys_nodup_upsert _ _ _ hT
    · -- inset branch: store under the selector, bump the counter
      have hkey : (parseAnchorFn children acc.st.counter).key =
          AnchorKey.gen acc.st.counter := rfl
      have hseg := fnsKeys_upsertInner acc.anchorFunctions sel prop
        (parseAnchorFn children acc.st.counter)
      rw [hkey] at hseg
      have haS : InsertSeg (accKeys acc) [AnchorKey.gen acc.st.counter]
          (fnsKeys (upsertInner acc.anchorFunctions sel prop
              (parseAnchorFn children acc.st.counter)) ++
            tableKeys acc.st.customPropAssignments ++
            fbsKeys acc.fallbacks) :=
        insertSeg_append_right (fbsKeys acc.fallbacks)
          (insertSeg_append_right (tableKeys acc.st.customPropAssignments) hseg)
      refine ⟨?_, ?_, ?_, ?_, hFN, hFB, hFBe, hT⟩
      · intro k hk
        rcases insertSeg_mem haS hk with hm | hm
        · simp only [List.mem_singleton] at hm
          exact ⟨acc.st.counter, hm, Nat.lt_succ_self _⟩
        · obtain ⟨n, hn, hlt⟩ := hKB k hm
          exact ⟨n, hn, Nat.lt_succ_of_lt hlt⟩
      · refine insertSeg_nodup haS hND (by simp) ?_
        intro x hx
        simp only [List.mem_singleton] at hx
        subst hx
        exact keysBelow_fresh hKB
      · simp only [upsertInner]
        exact alKeys_nodup_upsert _ _ _ hA
      · intro e he
        simp only [upsertInner] at he
        rcases mem_upsert _ _ _ _ he with he₁ | he₁
        · subst he₁
          dsimp only
          refine alKeys_nodup_upsert _ _ _ ?_
          cases hl : acc.anchorFunctions.lookup sel with
          | none => simp [alKeys]
          | some w =>
            rw [Option.getD_some]
            exact hAe (sel, w) (lookup_mem _ _ _ hl)
        · exact hAe e he₁
    · exact ⟨hKB, hND, hA, hAe, hFN, hFB, hFBe, hT⟩
    · exact ⟨hKB, hND, hA, hAe, hFN, hFB, hFBe, hT⟩
  | varNode fc => exact ⟨hKB, hND, hA, hAe, hFN, hFB, hFBe, hT⟩
  | identNode n => exact ⟨hKB, hND, hA, hAe, hFN, hFB, hFBe, hT⟩
  | otherNode t => exact ⟨hKB, hND, hA, hAe, hFN, hFB, hFBe, hT⟩

/-- pass-1 invariant preservation over a declaration's value nodes. -/
theorem pass1Value_inv (sel prop : String) (acc : WalkAcc)
    (value : List ValueNode) (h : Pass1Inv acc) :
    Pass1Inv (pass1Value sel prop acc value).1 := by
  induction value generalizing acc with
  | nil => exact h
  | cons node rest ih =>
    rw [pass1Value]
    exact ih _ (pass1ValueNode_inv sel prop acc node h)

/-- the `anchor-name` handler touches only the registry, preserving the
invariant. -/
theorem anchorNameStep_inv (sel : String) (acc : WalkAcc) (d : Declaration)
    (h : Pass1Inv acc) : Pass1Inv (anchorNameStep sel acc d) := by
  obtain ⟨rN, hs⟩ := anchorNameStep_shape sel acc d
  rw [hs]
  exact h

/-- the `position-fallback` handler only upserts a fallback name, preserving
the invariant. -/
theorem fallbackNameStep_inv (sel : String) (acc : WalkAcc) (d : Declaration)
    (h : Pass1Inv acc) : Pass1Inv (fallbackNameStep sel acc d) := by
  obtain ⟨hKB, hND, hA, hAe, hFN, hFB, hFBe, hT⟩ := h
  rw [fallbackNameStep]
  split_ifs
  · cases firstNodeName d.value with
    | none => exact ⟨hKB, hND, hA, hAe, hFN, hFB, hFBe, hT⟩
    | some name =>
      dsimp only
      split_ifs
      · exact ⟨hKB, hND, hA, hAe, alKeys_nodup_upsert _ _ _ hFN, hFB, hFBe, hT⟩
      · exact ⟨hKB, hND, hA, hAe, hFN, hFB, hFBe, hT⟩
  · exact ⟨hKB, hND, hA, hAe, hFN, hFB, hFBe, hT⟩

/-- pass-1 invariant preservation over one declaration. -/
theorem pass1Decl_inv (sel : String) (acc : WalkAcc) (d : Declaration)
    (h : Pass1Inv acc) : Pass1Inv (pass1Decl sel acc d).1 := by
  rw [pass1Decl]
  exact pass1Value_inv sel d.property _ d.value
    (fallbackNameStep_inv sel _ d (anchorNameStep_inv sel acc d h))

/-- pass-1 invariant preservation over a rule's declarations. -/
theorem pass1Decls_inv (sel : String) (acc : WalkAcc)
    (decls : List Declaration) (h : Pass1Inv acc) :
    Pass1Inv (pass1Decls sel acc decls).1 := by
  induction decls generalizing acc with
  | nil => exact h
  | cons d ds ih =>
    rw [pass1Decls]
    exact ih _ (pass1Decl_inv sel acc d h)

/-- pass-1 invariant preservation over one top-level node. -/
theorem pass1TopNode_inv (acc : WalkAcc) (t : TopNode)
    (h : Pass1Inv acc) : Pass1Inv (pass1TopNode acc t).1 := by
  cases t with
  | rule sel decls =>
    rw [pass1TopNode]
    exact pass1Decls_inv sel acc decls h
  | fallbackAtRule name tries =>
    obtain ⟨hKB, hND, hA, hAe, hFN, hFB, hFBe, hT⟩ := h
    rw [pass1TopNode]
    by_cases hn : name ≠ ""
    · rw [if_pos hn]
      dsimp only
      obtain ⟨g₁, g₂, g₃, g₄⟩ := parseTryBlocks_inv acc.st.counter tries
      by_cases hlen : (parseTryBlocks acc.st.counter tries).2.length > 0
      · rw [if_pos hlen]
        have hseg := fbsKeys_upsert acc.fallbacks name
          (parseTryBlocks acc.st.counter tries).2
        have haS : InsertSeg (accKeys acc)
            (blocksKeys (parseTryBlocks acc.st.counter tries).2)
            (fnsKeys acc.anchorFunctions ++
              tableKeys acc.st.customPropAssignments ++
              fbsKeys (upsert acc.fallbacks name
                (parseTryBlocks acc.st.counter tries).2)) :=
          insertSeg_append_left
            (fnsKeys acc.anchorFunctions ++ tableKeys acc.st.customPropAssignments)
            hseg
        refine ⟨?_, ?_, hA, hAe, hFN, ?_, ?_, hT⟩
        · intro k hk
          rcases insertSeg_mem haS hk with hm | hm
          · obtain ⟨n, hn', hlo, hhi⟩ := g₂ k hm
            exact ⟨n, hn', hhi⟩
          · obtain ⟨n, hn', hlt⟩ := hKB k hm
            exact ⟨n, hn', lt_of_lt_of_le hlt g₁⟩
        · refine insertSeg_nodup haS hND g₃ ?_
          intro x hx hxa
          obtain ⟨n, hn', hlo, -⟩ := g₂ x hx
          obtain ⟨n', hn'', hlt⟩ := hKB x hxa
          rw [hn'] at hn''
          injection hn'' with hnn
          omega
        · exact alKeys_nodup_upsert _ _ _ hFB
        · intro e he b hb
          rcases mem_upsert _ _ _ _ he with he₁ | he₁
          · subst he₁
            exact g₄ b hb
          · exact hFBe e he₁ b hb
      · rw [if_neg hlen]
        exact ⟨keysBelow_mono hKB g₁, hND, hA, hAe, hFN, hFB, hFBe, hT⟩
    · rw [if_neg hn]
      exact ⟨hKB, hND, hA, hAe, hFN, hFB, hFBe, hT⟩
  | otherNode txt => exact h

/-- pass-1 invariant preservation over a stylesheet's nodes. -/
theorem pass1TopNodes_inv (acc : WalkAcc) (ts : List TopNode)
    (h : Pass1Inv acc) : Pass1Inv (pass1TopNodes acc ts).1 := by
  induction ts generalizing acc with
  | nil => exact h
  | cons t ts ih =>
    rw [pass1TopNodes]
    exact ih _ (pass1TopNode_inv acc t h)

/-- pass-1 invariant preservation over one stylesheet record. -/
theorem pass1Sheet_inv (acc : WalkAcc) (s : StyleData)
    (h : Pass1Inv acc) : Pass1Inv (pass1Sheet acc s).1 := by
  have h₀ : Pass1Inv ({ acc with changed := false } : WalkAcc) := h
  have h₁ := pass1TopNodes_inv { acc with changed := false } s.css h₀
  rw [pass1Sheet]
  split_ifs <;> exact h₁

/-- pass-1 invariant preservation over all stylesheets. -/
theorem pass1Sheets_inv (acc : WalkAcc) (sheets : List StyleData)
    (h : Pass1Inv acc) : Pass1Inv (pass1Sheets acc sheets).1 := by
  induction sheets generalizing acc with
  | nil => exact h
  | cons s ss ih =>
    rw [pass1Sheets]
    exact ih _ (pass1Sheet_inv acc s h)

/-- the fresh-module start state satisfies the pass-1 invariant. -/
theorem pass1Start_inv : Pass1Inv (pass1Start ParseState.empty) := by
  refine ⟨?_, ?_, ?_, ?_, ?_, ?_, ?_, ?_⟩ <;>
    simp [pass1Start, ParseState.empty, accKeys, fnsKeys, tableKeys, fbsKeys,
      alKeys, KeysBelow]

/-- splicing an empty segment only deletes elements. -/
theorem insertSeg_nil_sublist {l l' : List β} (h : InsertSeg l [] l') :
    l'.Sublist l := by
  obtain ⟨s₁, s₂, he, hs⟩ := h
  subst he
  simpa using hs

/-- pass-2 handling of one value node preserves the table shape: properties
stay duplicate-free, every key is a generator key or a clone key tagged with
its own slot, and the generator keys stay distinct from each other and from
the try-block keys. -/
theorem pass2ValueNode_shape (table : List (String × AnchorFunction))
    (sel property : String) (acc : Pass2Acc) (node : ValueNode)
    (hT : ∀ e ∈ table, ∃ n, e.2.key = AnchorKey.gen n)
    (f : List (String × List TryBlock))
    (h : Pass2Shape acc.anchorFunctions f) :
    Pass2Shape (pass2ValueNode table sel property acc node).1.anchorFunctions f := by
  obtain ⟨hA, hAe, hSlot, hG⟩ := h
  cases node with
  | varNode fc =>
    cases fc with
    | none => exact ⟨hA, hAe, hSlot, hG⟩
    | some name =>
      cases name with
      | custom s =>
        rw [pass2ValueNode]
        split_ifs with hc
        case neg => exact ⟨hA, hAe, hSlot, hG⟩
        cases hl : table.lookup s with
        | none => exact ⟨hA, hAe, hSlot, hG⟩
        | some af =>
            dsimp only
            obtain ⟨n, hkey⟩ := hT (s, af) (lookup_mem _ _ _ hl)
            have hclone : (keyAppendProp af.key property) =
                AnchorKey.genProp n property := by
              rw [hkey]
              rfl
            refine ⟨?_, ?_, ?_, ?_⟩
            · simp only [upsertInner]
              exact alKeys_nodup_upsert _ _ _ hA
            · intro e he
              simp only [upsertInner] at he
              rcases mem_upsert _ _ _ _ he with he₁ | he₁
              · subst he₁
                dsimp only
                refine alKeys_nodup_upsert _ _ _ ?_
                cases hl₂ : acc.anchorFunctions.lookup sel with
                | none => simp [alKeys]
                | some w =>
                  rw [Option.getD_some]
                  exact hAe (sel, w) (lookup_mem _ _ _ hl₂)
              · exact hAe e he₁
            · intro e he d hd
              simp only [upsertInner] at he
              rcases mem_upsert _ _ _ _ he with he₁ | he₁
              · subst he₁
                rcases mem_upsert _ _ _ _ hd with hd₁ | hd₁
                · subst hd₁
                  exact Or.inr ⟨n, hclone⟩
                · revert hd₁
                  cases hl₂ : acc.anchorFunctions.lookup sel with
                  | none =>
                    intro hd₁
                    simp at hd₁
                  | some w =>
                    intro hd₁
                    exact hSlot (sel, w) (lookup_mem _ _ _ hl₂) d hd₁
              · exact hSlot e he₁ d hd
            · have hseg := fnsGenKeys_upsertInner_genProp acc.anchorFunctions
                sel property { af with key := keyAppendProp af.key property }
                hclone
              have hsub := insertSeg_nil_sublist hseg
              exact (hsub.append_right (fbsKeys f)).nodup hG
      | key k =>
        rw [pass2ValueNode]
        split_ifs <;> exact ⟨hA, hAe, hSlot, hG⟩
  | anchorFn children => exact ⟨hA, hAe, hSlot, hG⟩
  | identNode nm => exact ⟨hA, hAe, hSlot, hG⟩
  | otherNode t => exact ⟨hA, hAe, hSlot, hG⟩

/-- pass-2 shape preservation over a declaration's value nodes. -/
theorem pass2Value_shape (table : List (String × AnchorFunction))
    (sel property : String) (acc : Pass2Acc) (value : List ValueNode)
    (hT : ∀ e ∈ table, ∃ n, e.2.key = AnchorKey.gen n)
    (f : List (String × List TryBlock))
    (h : Pass2Shape acc.anchorFunctions f) :
    Pass2Shape (pass2Value table sel property acc value).1.anchorFunctions f := by
  induction value generalizing acc with
  | nil => exact h
  | cons node rest ih =>
    rw [pass2Value]
    exact ih _ (pass2ValueNode_shape table sel property acc node hT f h)

/-- pass-2 shape preservation over a rule's declarations. -/
theorem pass2Decls_shape (table : List (String × AnchorFunction))
    (sel : String) (acc : Pass2Acc) (decls : List Declaration)
    (hT : ∀ e ∈ table, ∃ n, e.2.key = AnchorKey.gen n)
    (f : List (String × List TryBlock))
    (h : Pass2Shape acc.anchorFunctions f) :
    Pass2Shape (pass2Decls table sel acc decls).1.anchorFunctions f := by
  induction decls generalizing acc with
  | nil => exact h
  | cons d ds ih =>
    rw [pass2Decls]
    exact ih _ (pass2Value_shape table sel d.property acc d.value hT f h)

/-- pass-2 shape preservation over one top-level node. -/
theorem pass2TopNode_shape (table : List (String × AnchorFunction))
    (acc : Pass2Acc) (t : TopNode)
    (hT : ∀ e ∈ table, ∃ n, e.2.key = AnchorKey.gen n)
    (f : List (String × List TryBlock))
    (h : Pass2Shape acc.anchorFunctions f) :
    Pass2Shape (pass2TopNode table acc t).1.anchorFunctions f := by
  cases t with
  | rule sel decls =>
    rw [pass2TopNode]
    exact pass2Decls_shape table sel acc decls hT f h
  | fallbackAtRule name tries => exact h
  | otherNode txt => exact h

/-- pass-2 shape preservation over a stylesheet's nodes. -/
theorem pass2TopNodes_shape (table : List (String × AnchorFunction))
    (acc : Pass2Acc) (ts : List TopNode)
    (hT : ∀ e ∈ table, ∃ n, e.2.key = AnchorKey.gen n)
    (f : List (String × List TryBlock))
    (h : Pass2Shape acc.anchorFunctions f) :
    Pass2Shape (pass2TopNodes table acc ts).1.anchorFunctions f := by
  induction ts generalizing acc with
  | nil => exact h
  | cons t ts ih =>
    rw [pass2TopNodes]
    exact ih _ (pass2TopNode_shape table acc t hT f h)

/-- pass-2 shape preservation over one stylesheet record. -/
theorem pass2Sheet_shape (table : List (String × AnchorFunction))
    (acc : Pass2Acc) (s : StyleData)
    (hT : ∀ e ∈ table, ∃ n, e.2.key = AnchorKey.gen n)
    (f : List (String × List TryBlock))
    (h : Pass2Shape acc.anchorFunctions f) :
    Pass2Shape (pass2Sheet table acc s).1.anchorFunctions f := by
  have h₀ : Pass2Shape ({ acc with changed := false } : Pass2Acc).anchorFunctions f := h
  have h₁ := pass2TopNodes_shape table { acc with changed := false } s.css hT f h₀
  rw [pass2Sheet]
  split_ifs <;> exact h₁

/-- pass-2 shape preservation over all stylesheets. -/
theorem pass2Sheets_shape (table : List (String × AnchorFunction))
    (acc : Pass2Acc) (ss : List StyleData)
    (hT : ∀ e ∈ table, ∃ n, e.2.key = AnchorKey.gen n)
    (f : List (String × List TryBlock))
    (h : Pass2Shape acc.anchorFunctions f) :
    Pass2Shape (pass2Sheets table acc ss).1.anchorFunctions f := by
  induction ss generalizing acc with
  | nil => exact h
  | cons s ss ih =>
    rw [pass2Sheets]
    exact ih _ (pass2Sheet_shape table acc s hT f h)

/-- the pass-2 entry point preserves the table shape. -/
theorem pass2Run_shape (table : List (String × AnchorFunction))
    (m₀ : List (String × List (String × AnchorFunction)))
    (sheets : List StyleData)
    (hT : ∀ e ∈ table, ∃ n, e.2.key = AnchorKey.gen n)
    (f : List (String × List TryBlock))
    (h : Pass2Shape m₀ f) :
    Pass2Shape (pass2Run table m₀ sheets).1 f := by
  rw [pass2Run]
  split_ifs
  · exact h
  · exact pass2Sheets_shape table
      { anchorFunctions := m₀, changed := false } sheets hT f h

/-- a component of a duplicate-free flattened list is duplicate-free. -/
theorem flatten_nodup_mem {L : List (List β)} (h : L.flatten.Nodup)
    {l : List β} (hl : l ∈ L) : l.Nodup :=
  (List.nodup_flatten.mp h).1 l hl

/-- components of a duplicate-free flattened list at distinct positions are
disjoint. -/
theorem flatten_disjoint_getElem {L : List (List β)} (h : L.flatten.Nodup)
    {i j : ℕ} {l₁ l₂ : List β} (hi : L[i]? = some l₁) (hj : L[j]? = some l₂)
    (hij : i ≠ j) : List.Disjoint l₁ l₂ := by
  have hp := (List.nodup_flatten.mp h).2
  rw [List.pairwise_iff_getElem] at hp
  rw [List.getElem?_eq_some_iff] at hi hj
  obtain ⟨hi', hieq⟩ := hi
  obtain ⟨hj', hjeq⟩ := hj
  rcases Nat.lt_or_ge i j with hlt | hge
  · have hd := hp i j hi' hj' hlt
    rw [hieq, hjeq] at hd
    exact hd
  · have hlt : j < i := lt_of_le_of_ne hge (Ne.symm hij)
    have hd := hp j i hj' hi' hlt
    rw [hieq, hjeq] at hd
    exact fun a ha₁ ha₂ => hd ha₂ ha₁

/-- distinct entries of a `fallbacks` table with duplicate-free keys have
disjoint key lists. -/
theorem fbs_disjoint {f : List (String × List TryBlock)}
    (h : (fbsKeys f).Nodup) {e₁ e₂ : String × List TryBlock}
    (h₁ : e₁ ∈ f) (h₂ : e₂ ∈ f) (hne : e₁ ≠ e₂) :
    List.Disjoint (blocksKeys e₁.2) (blocksKeys e₂.2) := by
  rw [fbsKeys] at h
  have hp := (List.nodup_flatten.mp h).2
  rw [List.pairwise_map] at hp
  have hsym : Symmetric (fun (a b : String × List TryBlock) =>
      List.Disjoint (blocksKeys a.2) (blocksKeys b.2)) := by
    intro a b hab x hx₁ hx₂
    exact hab hx₂ hx₁
  exact hp.forall hsym h₁ h₂ hne

/-- distinct entries of an `anchorFunctions` table with duplicate-free
generator keys have disjoint generator-key lists. -/
theorem fns_gen_disjoint {m : List (String × List (String × AnchorFunction))}
    (h : (fnsGenKeys m).Nodup)
    {e₁ e₂ : String × List (String × AnchorFunction)}
    (h₁ : e₁ ∈ m) (h₂ : e₂ ∈ m) (hne : e₁ ≠ e₂) :
    List.Disjoint (innerGenKeys e₁.2) (innerGenKeys e₂.2) := by
  rw [fnsGenKeys] at h
  have hp := (List.nodup_flatten.mp h).2
  rw [List.pairwise_map] at hp
  have hsym : Symmetric (fun (a b : String × List (String × AnchorFunction)) =>
      List.Disjoint (innerGenKeys a.2) (innerGenKeys b.2)) := by
    intro a b hab x hx₁ hx₂
    exact hab hx₂ hx₁
  exact hp.forall hsym h₁ h₂ hne

/-- the key of a `.fn` entry is listed in its block's keys. -/
theorem blockKeys_mem_of_entry {b : TryBlock} {p : String} {af : AnchorFunction}
    (h : (p, TryBlockValue.fn af) ∈ b) : af.key ∈ blockKeys b := by
  rw [blockKeys]
  exact List.mem_filterMap.mpr ⟨(p, TryBlockValue.fn af), h, rfl⟩

/-- a block's keys are among its block list's keys. -/
theorem blocksKeys_mem {blocks : List TryBlock} {b : TryBlock} (hb : b ∈ blocks)
    {k : AnchorKey} (h : k ∈ blockKeys b) : k ∈ blocksKeys blocks := by
  rw [blocksKeys, List.mem_flatten]
  exact ⟨blockKeys b, List.mem_map.mpr ⟨b, hb, rfl⟩, h⟩

/-- within a block with duplicate-free keys, `.fn` entries at distinct
properties have distinct keys. -/
theorem block_entry_keys_ne {b : TryBlock} (h : (blockKeys b).Nodup)
    {p₁ p₂ : String} {af₁ af₂ : AnchorFunction}
    (h₁ : (p₁, TryBlockValue.fn af₁) ∈ b) (h₂ : (p₂, TryBlockValue.fn af₂) ∈ b)
    (hne : p₁ ≠ p₂) : af₁.key ≠ af₂.key := by
  rw [blockKeys] at h
  refine nodup_filterMap_ne h h₁ h₂ ?_ rfl rfl
  intro heq
  injection heq with hp hv
  exact hne hp

/-- a generator-keyed entry's key is listed in its map's generator keys. -/
theorem genkey_mem_innerGenKeys {inner : List (String × AnchorFunction)}
    {x : String × AnchorFunction} (hx : x ∈ inner) {n : ℕ}
    (hk : x.2.key = AnchorKey.gen n) : AnchorKey.gen n ∈ innerGenKeys inner := by
  rw [innerGenKeys]
  exact List.mem_filterMap.mpr ⟨x, hx, by simp [hk]⟩

/-- within a declaration map with duplicate-free generator keys, distinct
entries with generator keys have distinct keys. -/
theorem inner_entry_genkeys_ne {inner : List (String × AnchorFunction)}
    (h : (innerGenKeys inner).Nodup) {x y : String × AnchorFunction}
    (hx : x ∈ inner) (hy : y ∈ inner) (hne : x ≠ y) {n m : ℕ}
    (hkx : x.2.key = AnchorKey.gen n) (hky : y.2.key = AnchorKey.gen m) :
    AnchorKey.gen n ≠ AnchorKey.gen m := by
  rw [innerGenKeys] at h
  exact nodup_filterMap_ne h hx hy hne (by simp [hkx]) (by simp [hky])

/-- an absent `declarations` field satisfies its characterisation. -/
theorem declsChar_none (m : List (String × List (String × AnchorFunction)))
    (sel : String) : DeclsChar m sel none := by
  constructor
  · simp [alKeys]
  · intro p af hpa
    simp at hpa

/-- the fallbacks merge loop produces a duplicate-free model in which every
entry has no declarations yet and a characterised `fallbacks` field. -/
theorem mergeFallbacks_char (doc : Doc) (reg : List (String × List String))
    (fbN : List (String × String)) (f : List (String × List TryBlock))
    (hN : (alKeys fbN).Nodup) :
    (alKeys (mergeFallbacks doc reg fbN f)).Nodup ∧
    ∀ e ∈ mergeFallbacks doc reg fbN f,
      e.2.declarations = none ∧ FallbacksChar doc reg fbN f e.1 e.2.fallbacks := by
  rw [mergeFallbacks]
  suffices haux : ∀ (ns : List (String × String)), (∀ x ∈ ns, x ∈ fbN) →
      ∀ (vp : List (String × AnchorPosition)), (alKeys vp).Nodup →
      (∀ e ∈ vp, e.2.declarations = none ∧
        FallbacksChar doc reg fbN f e.1 e.2.fallbacks) →
      (alKeys (ns.foldl (fun vp e =>
        match f.lookup e.2 with
        | some positionFallbacks =>
          upsert vp e.1
            { fallbacks := some (positionFallbacks.map
                (populateTryBlock doc reg (doc.query e.1))) }
        | none => vp) vp)).Nodup ∧
      ∀ e ∈ ns.foldl (fun vp e =>
        match f.lookup e.2 with
        | some positionFallbacks =>
          upsert vp e.1
            { fallbacks := some (positionFallbacks.map
                (populateTryBlock doc reg (doc.query e.1))) }
        | none => vp) vp,
        e.2.declarations = none ∧ FallbacksChar doc reg fbN f e.1 e.2.fallbacks by
    exact haux fbN (fun x hx => hx) [] (by simp [alKeys]) (by simp)
  intro ns
  induction ns with
  | nil =>
    intro hmem vp h₁ h₂
    exact ⟨h₁, h₂⟩
  | cons e₀ rest ih =>
    intro hmem vp h₁ h₂
    rw [List.foldl_cons]
    refine ih (fun x hx => hmem x (List.mem_cons_of_mem _ hx)) _ ?_ ?_
    · dsimp only
      cases hl : f.lookup e₀.2 with
      | none => exact h₁
      | some pf => exact alKeys_nodup_upsert _ _ _ h₁
    · dsimp only
      cases hl : f.lookup e₀.2 with
      | none => exact h₂
      | some pf =>
        intro e he
        rcases mem_upsert _ _ _ _ he with he₁ | he₁
        · subst he₁
          refine ⟨rfl, Or.inr ⟨e₀.2, pf, ?_, hl, rfl⟩⟩
          exact lookup_of_mem_nodup fbN e₀.1 e₀.2 hN
            (hmem e₀ (List.mem_cons_self e₀ rest))
        · exact h₂ e he₁

/-- a `.fn` entry of a populated block descends from a same-key `.fn` entry
of the original block. -/
theorem populate_mem_fn {doc : Doc} {reg : List (String × List String)}
    {te : Option Elem} {b : TryBlock} {p : String} {af : AnchorFunction}
    (h : (p, TryBlockValue.fn af) ∈ populateTryBlock doc reg te b) :
    ∃ af₀, (p, TryBlockValue.fn af₀) ∈ b ∧ af.key = af₀.key := by
  rw [populateTryBlock] at h
  rcases List.mem_map.mp h with ⟨entry, hentry, heq⟩
  obtain ⟨p₀, v₀⟩ := entry
  cases v₀ with
  | fn af₀ =>
    dsimp only at heq
    injection heq with hp hv
    injection hv with hv'
    subst hp
    refine ⟨af₀, hentry, ?_⟩
    rw [← hv']
  | lit s =>
    dsimp only at heq
    injection heq with hp hv
    injection hv

/-- every model reference sits inside some model entry. -/
theorem modelRefs_mem {vp : List (String × AnchorPosition)} {l : RefLoc}
    {af : AnchorFunction} (h : (l, af) ∈ modelRefs vp) :
    ∃ e ∈ vp, (l, af) ∈ posRefs e.1 e.2 := by
  rw [modelRefs, List.mem_flatten] at h
  obtain ⟨refs, hrefs, hmem⟩ := h
  rcases List.mem_map.mp hrefs with ⟨e, he, heq⟩
  subst heq
  exact ⟨e, he, hmem⟩

/-- a reference of one model entry is a declaration reference at the entry's
selector, or a try-block reference at an indexed block and property. -/
theorem posRefs_cases {sel : String} {pos : AnchorPosition} {l : RefLoc}
    {af : AnchorFunction} (h : (l, af) ∈ posRefs sel pos) :
    (∃ p, l = RefLoc.decl sel p ∧ (p, af) ∈ pos.declarations.getD []) ∨
    (∃ i p b, l = RefLoc.tryRef sel i p ∧
      (pos.fallbacks.getD [])[i]? = some b ∧ (p, TryBlockValue.fn af) ∈ b) := by
  rw [posRefs] at h
  rcases List.mem_append.mp h with h₁ | h₂
  · rcases List.mem_map.mp h₁ with ⟨d, hd, hde⟩
    injection hde with hl haf
    refine Or.inl ⟨d.1, hl.symm, ?_⟩
    rw [← haf]
    exact hd
  · rcases List.mem_flatten.mp h₂ with ⟨bl, hbl, hmem⟩
    rcases List.mem_map.mp hbl with ⟨ip, hip, hbe⟩
    subst hbe
    obtain ⟨i, b⟩ := ip
    rw [blockRefs] at hmem
    rcases List.mem_filterMap.mp hmem with ⟨entry, hentry, hres⟩
    obtain ⟨p₀, v₀⟩ := entry
    cases v₀ with
    | fn af₀ =>
      dsimp only at hres
      injection hres with hres'
      injection hres' with hl haf
      refine Or.inr ⟨i, p₀, b, hl.symm, ?_, ?_⟩
      · exact (List.mk_mem_enum_iff_getElem?).mp hip
      · subst haf
        exact hentry
    | lit s =>
      dsimp only at hres
      injection hres

/-- the inner anchor-functions merge loop (one selector's declarations)
keeps the model duplicate-free and characterised. -/
theorem mergeAnchorFns_inner_char (doc : Doc) (reg : List (String × List String))
    (m : List (String × List (String × AnchorFunction)))
    (FB : String → Option (List TryBlock) → Prop)
    (hAN : (alKeys m).Nodup)
    (hAe : ∀ e ∈ m, (alKeys e.2).Nodup)
    (e : String × List (String × AnchorFunction)) (he : e ∈ m)
    (ds : List (String × AnchorFunction)) (hds : ∀ x ∈ ds, x ∈ e.2) :
    ∀ (vp : List (String × AnchorPosition)), (alKeys vp).Nodup →
      (∀ x ∈ vp, DeclsChar m x.1 x.2.declarations ∧ FB x.1 x.2.fallbacks) →
      FB e.1 (({} : AnchorPosition).fallbacks) →
      (alKeys (ds.foldl (fun vp d =>
        let anchorEl := getAnchorEl doc reg (doc.query e.1) d.2
        let cur := (vp.lookup e.1).getD {}
        let entry := { d.2 with anchorEl := some anchorEl }
        let decls := upsert (cur.declarations.getD []) d.1 entry
        upsert vp e.1 { cur with declarations := some decls }) vp)).Nodup ∧
      ∀ x ∈ ds.foldl (fun vp d =>
        let anchorEl := getAnchorEl doc reg (doc.query e.1) d.2
        let cur := (vp.lookup e.1).getD {}
        let entry := { d.2 with anchorEl := some anchorEl }
        let decls := upsert (cur.declarations.getD []) d.1 entry
        upsert vp e.1 { cur with declarations := some decls }) vp,
        DeclsChar m x.1 x.2.declarations ∧ FB x.1 x.2.fallbacks := by
  induction ds with
  | nil =>
    intro vp h₁ h₂ _
    exact ⟨h₁, h₂⟩
  | cons d rest ih =>
    intro vp h₁ h₂ hFBe
    rw [List.foldl_cons]
    have hcur : DeclsChar m e.1 ((vp.lookup e.1).getD {}).declarations ∧
        FB e.1 ((vp.lookup e.1).getD {}).fallbacks := by
      cases hl : vp.lookup e.1 with
      | none => exact ⟨declsChar_none m e.1, hFBe⟩
      | some pos => exact h₂ (e.1, pos) (lookup_mem _ _ _ hl)
    refine ih (fun x hx => hds x (List.mem_cons_of_mem _ hx)) _ ?_ ?_ hFBe
    · dsimp only
      exact alKeys_nodup_upsert _ _ _ h₁
    · dsimp only
      intro x hx
      rcases mem_upsert _ _ _ _ hx with hx₁ | hx₁
      · subst hx₁
        refine ⟨⟨?_, ?_⟩, ?_⟩
        · exact alKeys_nodup_upsert _ _ _ hcur.1.1
        · intro p af hpa
          rcases mem_upsert _ _ _ _ hpa with hpa₁ | hpa₁
          · injection hpa₁ with hp hv
            subst hp
            refine ⟨e.2, d.2, ?_, ?_, ?_⟩
            · exact lookup_of_mem_nodup m e.1 e.2 hAN he
            · exact lookup_of_mem_nodup e.2 d.1 d.2 (hAe e he)
                (hds d (List.mem_cons_self d rest))
            · rw [hv]
          · exact hcur.1.2 p af hpa₁
        · exact hcur.2
      · exact h₂ x hx₁

/-- the anchor-functions merge loop keeps the model duplicate-free, each
entry's declarations mirroring (same keys, same slots) the pass-2 table and
each entry's fallbacks characterisation preserved. -/
theorem mergeAnchorFns_char (doc : Doc) (reg : List (String × List String))
    (m : List (String × List (String × AnchorFunction)))
    (FB : String → Option (List TryBlock) → Prop)
    (hFB0 : ∀ s, FB s none)
    (hAN : (alKeys m).Nodup)
    (hAe : ∀ e ∈ m, (alKeys e.2).Nodup)
    (vp₀ : List (String × AnchorPosition))
    (h₁ : (alKeys vp₀).Nodup)
    (h₂ : ∀ x ∈ vp₀, DeclsChar m x.1 x.2.declarations ∧ FB x.1 x.2.fallbacks) :
    (alKeys (mergeAnchorFns doc reg vp₀ m)).Nodup ∧
    ∀ x ∈ mergeAnchorFns doc reg vp₀ m,
      DeclsChar m x.1 x.2.declarations ∧ FB x.1 x.2.fallbacks := by
  rw [mergeAnchorFns]
  suffices haux : ∀ (ms : List (String × List (String × AnchorFunction))),
      (∀ x ∈ ms, x ∈ m) →
      ∀ (vp : List (String × AnchorPosition)), (alKeys vp).Nodup →
      (∀ x ∈ vp, DeclsChar m x.1 x.2.declarations ∧ FB x.1 x.2.fallbacks) →
      (alKeys (ms.foldl (fun vp e =>
        let targetEl := doc.query e.1
        e.2.foldl (fun vp d =>
          let anchorEl := getAnchorEl doc reg targetEl d.2
          let cur := (vp.lookup e.1).getD {}
          let entry := { d.2 with anchorEl := some anchorEl }
          let decls := upsert (cur.declarations.getD []) d.1 entry
          upsert vp e.1 { cur with declarations := some decls }) vp) vp)).Nodup ∧
      ∀ x ∈ ms.foldl (fun vp e =>
        let targetEl := doc.query e.1
        e.2.foldl (fun vp d =>
          let anchorEl := getAnchorEl doc reg targetEl d.2
          let cur := (vp.lookup e.1).getD {}
          let entry := { d.2 with anchorEl := some anchorEl }
          let decls := upsert (cur.declarations.getD []) d.1 entry
          upsert vp e.1 { cur with declarations := some decls }) vp) vp,
        DeclsChar m x.1 x.2.declarations ∧ FB x.1 x.2.fallbacks by
    exact haux m (fun x hx => hx) vp₀ h₁ h₂
  intro ms
  induction ms with
  | nil =>
    intro hms vp hv₁ hv₂
    exact ⟨hv₁, hv₂⟩
  | cons e rest ih =>
    intro hms vp hv₁ hv₂
    rw [List.foldl_cons]
    have hstep := mergeAnchorFns_inner_char doc reg m FB hAN hAe e
      (hms e (List.mem_cons_self e rest)) e.2 (fun x hx => hx) vp hv₁ hv₂
      (hFB0 e.1)
    exact ih (fun x hx => hms x (List.mem_cons_of_mem _ hx)) _ hstep.1 hstep.2

/-- a try-block reference of the final model descends from a same-key `.fn`
entry of the stored (pre-populate) try block reached through `fallbackNames`
and `fallbacks`. -/
theorem tryRef_origin {doc : Doc} {reg : List (String × List String)}
    {fbN : List (String × String)} {f : List (String × List TryBlock)}
    {sel : String} {fb : Option (List TryBlock)}
    (hchar : FallbacksChar doc reg fbN f sel fb)
    {i : ℕ} {b : TryBlock} (hb : (fb.getD [])[i]? = some b)
    {p : String} {af : AnchorFunction} (hm : (p, TryBlockValue.fn af) ∈ b) :
    ∃ name blocks b₀ af₀, fbN.lookup sel = some name ∧
      f.lookup name = some blocks ∧ blocks[i]? = some b₀ ∧
      (p, TryBlockValue.fn af₀) ∈ b₀ ∧ af.key = af₀.key := by
  rcases hchar with hnone | ⟨name, blocks, hn, hf, hfb⟩
  · rw [hnone] at hb
    simp at hb
  · rw [hfb] at hb
    simp only [Option.getD_some] at hb
    rw [List.getElem?_map] at hb
    cases hblk : blocks[i]? with
    | none =>
      rw [hblk] at hb
      simp at hb
    | some b₀ =>
      rw [hblk] at hb
      have hb' : populateTryBlock doc reg (doc.query sel) b₀ = b := by
        simpa using hb
      rw [← hb'] at hm
      obtain ⟨af₀, hmem₀, hkey₀⟩ := populate_mem_fn hm
      exact ⟨name, blocks, b₀, af₀, hn, hf, hblk, hmem₀, hkey₀⟩

/-- the rule model returned by `parseCSS`, spelled out: the fallbacks merge
followed by the anchor-functions merge over the pass-2 table. -/
theorem parseCSS_model (doc : Doc) (st : ParseState) (input : List StyleData) :
    (parseCSS doc st input).1 =
      mergeAnchorFns doc (pass1Sheets (pass1Start st) input).1.st.anchorNames
        (mergeFallbacks doc (pass1Sheets (pass1Start st) input).1.st.anchorNames
          (pass1Sheets (pass1Start st) input).1.fallbackNames
          (pass1Sheets (pass1Start st) input).1.fallbacks)
        (pass2Run (pass1Sheets (pass1Start st) input).1.st.customPropAssignments
          (pass1Sheets (pass1Start st) input).1.anchorFunctions
          (pass1Sheets (pass1Start st) input).2).1 := rfl

/-- C3 — amended. Indirection keys are NOT unique across the whole rule
model: starting from a fresh module state, two distinct references in the
returned model can share a key, but only in exactly two ways — (i) pass-2
clones of the same custom-property assignment consumed by the same property
on two different selectors (the clone key `(originalKey, consumingProperty)`
does not see the selector), or (ii) the same slot (block index and property)
of one `@position-fallback` rule's try blocks attached to two different
selectors that declared the same fallback name. In every other respect keys
are unique: two distinct references with equal keys at the same selector are
impossible, as are collisions between two plain generator keys or between a
declaration reference and a try-block reference. -/
theorem C3_amended_key_collisions (doc : Doc) (input : List StyleData)
    (l₁ l₂ : RefLoc) (af₁ af₂ : AnchorFunction)
    (h₁ : (l₁, af₁) ∈ modelRefs (parseCSS doc ParseState.empty input).1)
    (h₂ : (l₂, af₂) ∈ modelRefs (parseCSS doc ParseState.empty input).1)
    (hne : l₁ ≠ l₂) (hkey : af₁.key = af₂.key) :
    (∃ s₁ s₂ p n, l₁ = RefLoc.decl s₁ p ∧ l₂ = RefLoc.decl s₂ p ∧ s₁ ≠ s₂ ∧
      af₁.key = AnchorKey.genProp n p) ∨
    (∃ s₁ s₂ i p, l₁ = RefLoc.tryRef s₁ i p ∧ l₂ = RefLoc.tryRef s₂ i p ∧
      s₁ ≠ s₂) := by
  rw [parseCSS_model] at h₁ h₂
  have hinv := pass1Sheets_inv (pass1Start ParseState.empty) input pass1Start_inv
  obtain ⟨hKB, hND, hA, hAe, hFN, hFB, hFBe, hT⟩ := hinv
  set A := (pass1Sheets (pass1Start ParseState.empty) input).1 with hAdef
  set S := (pass1Sheets (pass1Start ParseState.empty) input).2 with hSdef
  set m₂ := (pass2Run A.st.customPropAssignments A.anchorFunctions S).1 with hm₂
  set vp₁ := mergeFallbacks doc A.st.anchorNames A.fallbackNames A.fallbacks
    with hvp₁
  set vp := mergeAnchorFns doc A.st.anchorNames vp₁ m₂ with hvp
  have hTgen : ∀ x ∈ A.st.customPropAssignments, ∃ n, x.2.key = AnchorKey.gen n := by
    intro x hx
    have hk : x.2.key ∈ accKeys A := by
      rw [accKeys]
      refine List.mem_append_left _ (List.mem_append_right _ ?_)
      exact List.mem_map.mpr ⟨x, hx, rfl⟩
    obtain ⟨n, hn, -⟩ := hKB _ hk
    exact ⟨n, hn⟩
  have hfnsKeysGen : ∀ k ∈ fnsKeys A.anchorFunctions, ∃ n, k = AnchorKey.gen n := by
    intro k hk
    have hk' : k ∈ accKeys A := by
      rw [accKeys]
      exact List.mem_append_left _ (List.mem_append_left _ hk)
    obtain ⟨n, hn, -⟩ := hKB _ hk'
    exact ⟨n, hn⟩
  have hfbsGen : ∀ k ∈ fbsKeys A.fallbacks, ∃ n, k = AnchorKey.gen n := by
    intro k hk
    have hk' : k ∈ accKeys A := by
      rw [accKeys]
      exact List.mem_append_right _ hk
    obtain ⟨n, hn, -⟩ := hKB _ hk'
    exact ⟨n, hn⟩
  have hfbsN : (fbsKeys A.fallbacks).Nodup := by
    have h := hND
    rw [accKeys, List.nodup_append] at h
    exact h.2.1
  have hShape0 : Pass2Shape A.anchorFunctions A.fallbacks := by
    refine ⟨hA, hAe, ?_, ?_⟩
    · intro e he d hd
      obtain ⟨n, hn⟩ := hfnsKeysGen d.2.key (key_mem_fnsKeys he hd)
      exact Or.inl ⟨n, hn⟩
    · have hsub : (fnsGenKeys A.anchorFunctions ++ fbsKeys A.fallbacks).Sublist
          (accKeys A) := by
        rw [accKeys]
        exact List.Sublist.append
          ((fnsGenKeys_sublist A.anchorFunctions).trans
            (List.sublist_append_left _ _)) (List.Sublist.refl _)
      exact hsub.nodup hND
  have hShape : Pass2Shape m₂ A.fallbacks := by
    rw [hm₂]
    exact pass2Run_shape A.st.customPropAssignments A.anchorFunctions S hTgen
      A.fallbacks hShape0
  obtain ⟨hm₂A, hm₂Ae, hSlot, hGen⟩ := hShape
  have hGdisj : List.Disjoint (fnsGenKeys m₂) (fbsKeys A.fallbacks) :=
    (List.nodup_append.mp hGen).2.2
  have hGnodup : (fnsGenKeys m₂).Nodup := (List.nodup_append.mp hGen).1
  have hMF := mergeFallbacks_char doc A.st.anchorNames A.fallbackNames
    A.fallbacks hFN
  have hvp₁char : ∀ x ∈ vp₁, DeclsChar m₂ x.1 x.2.declarations ∧
      FallbacksChar doc A.st.anchorNames A.fallbackNames A.fallbacks x.1
        x.2.fallbacks := by
    intro x hx
    rw [hvp₁] at hx
    obtain ⟨hdecl, hchar⟩ := hMF.2 x hx
    refine ⟨?_, hchar⟩
    rw [hdecl]
    exact declsChar_none m₂ x.1
  have hMA := mergeAnchorFns_char doc A.st.anchorNames m₂
    (FallbacksChar doc A.st.anchorNames A.fallbackNames A.fallbacks)
    (fun s => Or.inl rfl) hm₂A hm₂Ae vp₁ (by rw [hvp₁]; exact hMF.1) hvp₁char
  have hvpchar : ∀ x ∈ vp, DeclsChar m₂ x.1 x.2.declarations ∧
      FallbacksChar doc A.st.anchorNames A.fallbackNames A.fallbacks x.1
        x.2.fallbacks := by
    rw [hvp]
    exact hMA.2
  obtain ⟨e₁, he₁, hp₁⟩ := modelRefs_mem h₁
  obtain ⟨e₂, he₂, hp₂⟩ := modelRefs_mem h₂
  obtain ⟨hd₁, hfb₁⟩ := hvpchar e₁ he₁
  obtain ⟨hd₂, hfb₂⟩ := hvpchar e₂ he₂
  rcases posRefs_cases hp₁ with ⟨p₁, hl₁, hm₁⟩ | ⟨i₁, p₁, b₁, hl₁, hb₁, hm₁⟩ <;>
    rcases posRefs_cases hp₂ with ⟨p₂, hl₂, hm₂x⟩ | ⟨i₂, p₂, b₂, hl₂, hb₂, hm₂x⟩
  · -- declaration vs declaration
    obtain ⟨inner₁, af₀₁, hlk₁, hlkp₁, hk₁⟩ := hd₁.2 p₁ af₁ hm₁
    obtain ⟨inner₂, af₀₂, hlk₂, hlkp₂, hk₂⟩ := hd₂.2 p₂ af₂ hm₂x
    have hE₁ : (e₁.1, inner₁) ∈ m₂ := lookup_mem _ _ _ hlk₁
    have hE₂ : (e₂.1, inner₂) ∈ m₂ := lookup_mem _ _ _ hlk₂
    have hx₁ : (p₁, af₀₁) ∈ inner₁ := lookup_mem _ _ _ hlkp₁
    have hx₂ : (p₂, af₀₂) ∈ inner₂ := lookup_mem _ _ _ hlkp₂
    have hK : af₀₁.key = af₀₂.key := by
      rw [← hk₁, ← hk₂]
      exact hkey
    rcases hSlot (e₁.1, inner₁) hE₁ (p₁, af₀₁) hx₁ with ⟨n₁, hg₁⟩ | ⟨n₁, hg₁⟩ <;>
      rcases hSlot (e₂.1, inner₂) hE₂ (p₂, af₀₂) hx₂ with ⟨n₂, hg₂⟩ | ⟨n₂, hg₂⟩ <;>
      dsimp only at hg₁ hg₂
    · -- both generator keys: impossible
      have hnn : n₁ = n₂ := by
        rw [hg₁, hg₂] at hK
        injection hK
      subst hnn
      by_cases hs : e₁.1 = e₂.1
      · have hinner : inner₁ = inner₂ := by
          rw [hs] at hlk₁
          rw [hlk₁] at hlk₂
          injection hlk₂
        subst hinner
        have hpne : p₁ ≠ p₂ := by
          intro hp
          apply hne
          rw [hl₁, hl₂, hs, hp]
        have hxy : ((p₁, af₀₁) : String × AnchorFunction) ≠ (p₂, af₀₂) :=
          fun hq => hpne (congrArg (fun q => q.1) hq)
        have hnodupInner : (innerGenKeys inner₁).Nodup :=
          flatten_nodup_mem hGnodup
            (List.mem_map.mpr ⟨(e₁.1, inner₁), hE₁, rfl⟩)
        exact absurd rfl (inner_entry_genkeys_ne hnodupInner hx₁ hx₂ hxy hg₁ hg₂)
      · have hEne : ((e₁.1, inner₁) :
            String × List (String × AnchorFunction)) ≠ (e₂.1, inner₂) :=
          fun hq => hs (congrArg (fun q => q.1) hq)
        have hdisj := fns_gen_disjoint hGnodup hE₁ hE₂ hEne
        have hmem₁ : AnchorKey.gen n₁ ∈ innerGenKeys inner₁ :=
          genkey_mem_innerGenKeys hx₁ hg₁
        have hmem₂ : AnchorKey.gen n₁ ∈ innerGenKeys inner₂ :=
          genkey_mem_innerGenKeys hx₂ hg₂
        exact absurd hmem₂ (hdisj hmem₁)
    · rw [hg₁, hg₂] at hK
      simp at hK
    · rw [hg₁, hg₂] at hK
      simp at hK
    · -- both clone keys: left conclusion
      rw [hg₁, hg₂] at hK
      injection hK with hn hp
      by_cases hs : e₁.1 = e₂.1
      · exfalso
        apply hne
        rw [hl₁, hl₂, hs, hp]
      · refine Or.inl ⟨e₁.1, e₂.1, p₁, n₁, hl₁, ?_, hs, ?_⟩
        · rw [hl₂, hp]
        · rw [hk₁, hg₁]
  · -- declaration vs try block: impossible
    obtain ⟨inner₁, af₀₁, hlk₁, hlkp₁, hk₁⟩ := hd₁.2 p₁ af₁ hm₁
    obtain ⟨name₂, blocks₂, b₀₂, af₀₂, hn₂, hf₂, hblk₂, hmem₂, hk₂⟩ :=
      tryRef_origin hfb₂ hb₂ hm₂x
    have hE₁ : (e₁.1, inner₁) ∈ m₂ := lookup_mem _ _ _ hlk₁
    have hx₁ : (p₁, af₀₁) ∈ inner₁ := lookup_mem _ _ _ hlkp₁
    have hK : af₀₁.key = af₀₂.key := by
      rw [← hk₁, ← hk₂]
      exact hkey
    have hfbsMem : af₀₂.key ∈ fbsKeys A.fallbacks :=
      key_mem_fbsKeys (lookup_mem _ _ _ hf₂) (List.getElem?_mem hblk₂) hmem₂
    rcases hSlot (e₁.1, inner₁) hE₁ (p₁, af₀₁) hx₁ with ⟨n₁, hg₁⟩ | ⟨n₁, hg₁⟩ <;>
      dsimp only at hg₁
    · have hmemG : AnchorKey.gen n₁ ∈ fnsGenKeys m₂ :=
        genKey_mem_fnsGenKeys hE₁ hx₁ hg₁
      have hk₂' : af₀₂.key = AnchorKey.gen n₁ := by
        rw [← hK, hg₁]
      rw [hk₂'] at hfbsMem
      exact absurd hfbsMem (hGdisj hmemG)
    · obtain ⟨n₂, hg₂⟩ := hfbsGen af₀₂.key hfbsMem
      rw [hg₁, hg₂] at hK
      simp at hK
  · -- try block vs declaration: impossible (mirror case)
    obtain ⟨name₁, blocks₁, b₀₁, af₀₁, hn₁, hf₁, hblk₁, hmem₁, hk₁⟩ :=
      tryRef_origin hfb₁ hb₁ hm₁
    obtain ⟨inner₂, af₀₂, hlk₂, hlkp₂, hk₂⟩ := hd₂.2 p₂ af₂ hm₂x
    have hE₂ : (e₂.1, inner₂) ∈ m₂ := lookup_mem _ _ _ hlk₂
    have hx₂ : (p₂, af₀₂) ∈ inner₂ := lookup_mem _ _ _ hlkp₂
    have hK : af₀₁.key = af₀₂.key := by
      rw [← hk₁, ← hk₂]
      exact hkey
    have hfbsMem : af₀₁.key ∈ fbsKeys A.fallbacks :=
      key_mem_fbsKeys (lookup_mem _ _ _ hf₁) (List.getElem?_mem hblk₁) hmem₁
    rcases hSlot (e₂.1, inner₂) hE₂ (p₂, af₀₂) hx₂ with ⟨n₂, hg₂⟩ | ⟨n₂, hg₂⟩ <;>
      dsimp only at hg₂
    · have hmemG : AnchorKey.gen n₂ ∈ fnsGenKeys m₂ :=
        genKey_mem_fnsGenKeys hE₂ hx₂ hg₂
      have hk₁' : af₀₁.key = AnchorKey.gen n₂ := by
        rw [hK, hg₂]
      rw [hk₁'] at hfbsMem
      exact absurd hfbsMem (hGdisj hmemG)
    · obtain ⟨n₁, hg₁⟩ := hfbsGen af₀₁.key hfbsMem
      rw [hg₁, hg₂] at hK
      simp at hK
  · -- try block vs try block
    obtain ⟨name₁, blocks₁, b₀₁, af₀₁, hn₁, hf₁, hblk₁, hmem₁, hk₁⟩ :=
      tryRef_origin hfb₁ hb₁ hm₁
    obtain ⟨name₂, blocks₂, b₀₂, af₀₂, hn₂, hf₂, hblk₂, hmem₂, hk₂⟩ :=
      tryRef_origin hfb₂ hb₂ hm₂x
    have hK : af₀₁.key = af₀₂.key := by
      rw [← hk₁, ← hk₂]
      exact hkey
    by_cases hnm : name₁ = name₂
    · subst hnm
      have hbeq : blocks₁ = blocks₂ := by
        rw [hf₁] at hf₂
        exact Option.some.inj hf₂
      subst hbeq
      have hbkN : (blocksKeys blocks₁).Nodup :=
        flatten_nodup_mem hfbsN
          (List.mem_map.mpr ⟨(name₁, blocks₁), lookup_mem _ _ _ hf₁, rfl⟩)
      by_cases hi : i₁ = i₂
      · subst hi
        have hbo : b₀₁ = b₀₂ := by
          rw [hblk₁] at hblk₂
          injection hblk₂
        subst hbo
        by_cases hpp : p₁ = p₂
        · by_cases hs : e₁.1 = e₂.1
          · exfalso
            apply hne
            rw [hl₁, hl₂, hs, hpp]
          · refine Or.inr ⟨e₁.1, e₂.1, i₁, p₁, hl₁, ?_, hs⟩
            rw [hl₂, hpp]
        · have hbN : (blockKeys b₀₁).Nodup :=
            flatten_nodup_mem hbkN
              (List.mem_map.mpr ⟨b₀₁, List.getElem?_mem hblk₁, rfl⟩)
          exact absurd hK (block_entry_keys_ne hbN hmem₁ hmem₂ hpp)
      · have hgi : (blocks₁.map blockKeys)[i₁]? = some (blockKeys b₀₁) := by
          rw [List.getElem?_map, hblk₁]
          rfl
        have hgj : (blocks₁.map blockKeys)[i₂]? = some (blockKeys b₀₂) := by
          rw [List.getElem?_map, hblk₂]
          rfl
        have hdisj := flatten_disjoint_getElem hbkN hgi hgj hi
        have h₁k : af₀₁.key ∈ blockKeys b₀₁ := blockKeys_mem_of_entry hmem₁
        have h₂k : af₀₁.key ∈ blockKeys b₀₂ := by
          rw [hK]
          exact blockKeys_mem_of_entry hmem₂
        exact absurd h₂k (hdisj h₁k)
    · have hEne : ((name₁, blocks₁) : String × List TryBlock) ≠
          (name₂, blocks₂) := fun hq => hnm (congrArg (fun q => q.1) hq)
      have hdisj := fbs_disjoint hfbsN (lookup_mem _ _ _ hf₁)
        (lookup_mem _ _ _ hf₂) hEne
      have h₁k : af₀₁.key ∈ blocksKeys blocks₁ :=
        blocksKeys_mem (List.getElem?_mem hblk₁) (blockKeys_mem_of_entry hmem₁)
      have h₂k : af₀₁.key ∈ blocksKeys blocks₂ := by
        rw [hK]
        exact blocksKeys_mem (List.getElem?_mem hblk₂) (blockKeys_mem_of_entry hmem₂)
      exact absurd h₂k (hdisj h₁k)

/-- C3 — counterexample. The claim states every indirection key is unique
across the whole rule model, with pass-2 clones disambiguated by
`(originalKey, consumingProperty)`. In the code the clone key does not
involve the selector: parsing a stylesheet in which two different selectors
(`.a` and `.b`) both consume the custom property `--center` for `top`
produces a model whose two references sit at distinct locations yet carry
the identical key `(--anchor-0, top)`. -/
theorem C3_counterexample :
    ((modelRefs (parseCSS c3Doc ParseState.empty c3Input).1).map
        (fun e => (e.1, e.2.key)) =
      [(RefLoc.decl ".a" "top", AnchorKey.genProp 0 "top"),
       (RefLoc.decl ".b" "top", AnchorKey.genProp 0 "top")]) ∧
    RefLoc.decl ".a" "top" ≠ RefLoc.decl ".b" "top" := by
  constructor
  · decide
  · decide

/-- concrete instantiation of the amended C3 theorem on the collision
scenario: the two same-key references are pass-2 clones of the same custom
property at the same consuming property on two different selectors, matching
the left disjunct of the amended statement. -/
theorem C3_amended_key_collisions_witness :
    ((RefLoc.decl ".a" "top", c3Clone) ∈
        modelRefs (parseCSS c3Doc ParseState.empty c3Input).1 ∧
      (RefLoc.decl ".b" "top", c3Clone) ∈
        modelRefs (parseCSS c3Doc ParseState.empty c3Input).1 ∧
      RefLoc.decl ".a" "top" ≠ RefLoc.decl ".b" "top" ∧
      c3Clone.key = c3Clone.key) ∧
    ((∃ s₁ s₂ p n, RefLoc.decl ".a" "top" = RefLoc.decl s₁ p ∧
        RefLoc.decl ".b" "top" = RefLoc.decl s₂ p ∧ s₁ ≠ s₂ ∧
        c3Clone.key = AnchorKey.genProp n p) ∨
      (∃ s₁ s₂ i p, RefLoc.decl ".a" "top" = RefLoc.tryRef s₁ i p ∧
        RefLoc.decl ".b" "top" = RefLoc.tryRef s₂ i p ∧ s₁ ≠ s₂)) :=
  ⟨⟨by decide, by decide, by decide, rfl⟩,
    C3_amended_key_collisions c3Doc c3Input (RefLoc.decl ".a" "top")
      (RefLoc.decl ".b" "top") c3Clone c3Clone (by decide) (by decide)
      (by decide) rfl⟩
